import Mathlib

/-!
A verification development for the Python-style interpreter.

Shallow embedding of the Go packages `token`, `lexer`, `parser` and
`evaluator`, followed by theorems about them.

Conventions of the embedding:
* a Go `string` is a sequence of bytes, `Str := List Nat`; a `byte` is a `Nat`;
* Go `int` is the 64-bit signed integer: arithmetic results are wrapped by `wrap64`;
* a mutable receiver (`*Lexer`, `*Parser`, `*Environment`) is passed and returned explicitly;
* loops are recursive functions driven by a fuel argument; the parsing routines
  return `Run.outOfFuel` when it runs out, and the theorems give the fuel that suffices;
* a Go interface value can be nil (`Expression.nil`, `none`) or hold a nil pointer
  (the `...Nil` statements); a nil dereference is `Run.panic` in the parser and `none`
  in `Eval`.
-/

/-- A Go string: a sequence of bytes. -/
abbrev Str := List Nat

/-- The bytes of an ASCII string constant of the source. -/
def bytes (s : String) : Str := s.toList.map Char.toNat

namespace token

/-- The token kinds of `tokens.go`. In Go `TokenType` is a `string`; the constants
are the only values the program builds, plus the zero value `""` (here `ZERO`). -/
inductive TokenType where
  | ZERO
  | ILLEGAL | EOF
  | IDENT | INT | FLOAT | STRING
  | ASSIGN | PLUS | MINUS | ASTERISK | SLASH | EQ | NOT_EQ | LT | GT | LTE | GTE
  | COMMA | COLON | SEMICOLON | LPAREN | RPAREN | LBRACE | RBRACE | LBRACKET | RBRACKET
  | INDENT | DEDENT
  | DEF | CLASS | IF | ELSE | ELIF | FOR | WHILE | RETURN | IMPORT | FROM | AS | TRY
  | EXCEPT | FINALLY | WITH | LAMBDA | PASS | BREAK | CONTINUE | TRUE | FALSE | NONE
  deriving DecidableEq, Repr

/-- The string value of each `TokenType` constant (what `%s` prints). -/
def TokenType.text : TokenType → Str
  | .ZERO => []
  | .ILLEGAL => bytes "ILLEGAL" | .EOF => bytes "EOF"
  | .IDENT => bytes "IDENT" | .INT => bytes "INT" | .FLOAT => bytes "FLOAT"
  | .STRING => bytes "STRING"
  | .ASSIGN => bytes "=" | .PLUS => bytes "+" | .MINUS => bytes "-"
  | .ASTERISK => bytes "*" | .SLASH => bytes "/" | .EQ => bytes "==" | .NOT_EQ => bytes "!="
  | .LT => bytes "<" | .GT => bytes ">" | .LTE => bytes "<=" | .GTE => bytes ">="
  | .COMMA => bytes "," | .COLON => bytes ":" | .SEMICOLON => bytes ";"
  | .LPAREN => bytes "(" | .RPAREN => bytes ")"
  | .LBRACE => bytes "\x7b" | .RBRACE => bytes "\x7d"
  | .LBRACKET => bytes "[" | .RBRACKET => bytes "]"
  | .INDENT => bytes "INDENT" | .DEDENT => bytes "DEDENT"
  | .DEF => bytes "DEF" | .CLASS => bytes "CLASS" | .IF => bytes "IF" | .ELSE => bytes "ELSE"
  | .ELIF => bytes "ELIF" | .FOR => bytes "FOR" | .WHILE => bytes "WHILE"
  | .RETURN => bytes "RETURN" | .IMPORT => bytes "IMPORT" | .FROM => bytes "FROM"
  | .AS => bytes "AS" | .TRY => bytes "TRY" | .EXCEPT => bytes "EXCEPT"
  | .FINALLY => bytes "FINALLY" | .WITH => bytes "WITH" | .LAMBDA => bytes "LAMBDA"
  | .PASS => bytes "PASS" | .BREAK => bytes "BREAK" | .CONTINUE => bytes "CONTINUE"
  | .TRUE => bytes "TRUE" | .FALSE => bytes "FALSE" | .NONE => bytes "NONE"

/-- A token: kind and literal text. -/
structure Token where
  Type_ : TokenType
  Literal : Str
  deriving DecidableEq, Repr

/-- The keyword table. -/
def keywords : List (Str × TokenType) :=
  [ (bytes "def", .DEF), (bytes "class", .CLASS), (bytes "if", .IF), (bytes "else", .ELSE),
    (bytes "elif", .ELIF), (bytes "for", .FOR), (bytes "while", .WHILE),
    (bytes "return", .RETURN), (bytes "import", .IMPORT), (bytes "from", .FROM),
    (bytes "as", .AS), (bytes "try", .TRY), (bytes "except", .EXCEPT),
    (bytes "finally", .FINALLY), (bytes "with", .WITH), (bytes "lambda", .LAMBDA),
    (bytes "pass", .PASS), (bytes "break", .BREAK), (bytes "continue", .CONTINUE),
    (bytes "True", .TRUE), (bytes "False", .FALSE), (bytes "None", .NONE) ]

/-- LookupIdent checks if an identifier is a keyword or a user-defined name. -/
def LookupIdent (ident : Str) : TokenType :=
  match keywords.lookup ident with
  | some tok => tok
  | none => .IDENT

end token

namespace lexer
open token

/-- The lexer state of `lexer.go`. -/
structure Lexer where
  input : Str
  position : Nat
  readPosition : Nat
  ch : Nat
  currentIndent : Int
  deriving DecidableEq, Repr

/-- Go `readChar`: load the byte at `readPosition` (0 past the end) and advance. -/
def readChar (l : Lexer) : Lexer :=
  { l with
    ch := if l.readPosition ≥ l.input.length then 0 else l.input.getD l.readPosition 0
    position := l.readPosition
    readPosition := l.readPosition + 1 }

/-- Go `lexer.New`. -/
def New (input : Str) : Lexer :=
  readChar { input := input, position := 0, readPosition := 0, ch := 0, currentIndent := 0 }

/-- Go `isLetter`. -/
def isLetter (ch : Nat) : Bool :=
  (97 ≤ ch && ch ≤ 122) || (65 ≤ ch && ch ≤ 90) || ch == 95

/-- Go `isDigit`. -/
def isDigit (ch : Nat) : Bool := 48 ≤ ch && ch ≤ 57

/-- Go `string(ch)` for a byte `ch`: the UTF-8 encoding of the code point `ch`. -/
def stringOfByte (ch : Nat) : Str :=
  if ch < 128 then [ch] else [192 + ch / 64, 128 + ch % 64]

/-- Go `newToken`. -/
def newToken (tokenType : TokenType) (ch : Nat) : Token :=
  { Type_ := tokenType, Literal := stringOfByte ch }

/-- The loop `for cond(l.ch) { l.readChar() }`, at most `fuel` iterations. -/
def readWhile (cond : Nat → Bool) : Nat → Lexer → Lexer
  | 0, l => l
  | fuel + 1, l => if cond l.ch then readWhile cond fuel (readChar l) else l

/-- The Go slice expression `s[lo:hi]`. -/
def slice (s : Str) (lo hi : Nat) : Str := (s.drop lo).take (hi - lo)

/-- The number of loop iterations granted to the scanning loops of a lexer: every
iteration consumes one input byte, so the input length (plus one) is enough. -/
def loopFuel (l : Lexer) : Nat := l.input.length + 1

/-- Go `skipWhitespace`. -/
def skipWhitespace (l : Lexer) : Lexer :=
  readWhile (fun ch => ch == 32 || ch == 9) (loopFuel l) l

/-- The loop of `handleIndentation`, accumulating `indentLevel`. -/
def indentLoop : Nat → Lexer → Int → Lexer × Int
  | 0, l, indentLevel => (l, indentLevel)
  | fuel + 1, l, indentLevel =>
    if l.ch = 32 ∨ l.ch = 9 then
      indentLoop fuel (readChar l)
        (if l.ch = 32 then indentLevel + 1 else if l.ch = 9 then indentLevel + 4 else indentLevel)
    else (l, indentLevel)

/-- Go `handleIndentation`: manages Python-style indentation tokens. -/
def handleIndentation (l : Lexer) : Token × Lexer :=
  let (l1, indentLevel) := indentLoop (loopFuel l) l 0
  if indentLevel > l1.currentIndent then
    ({ Type_ := .INDENT, Literal := [] }, { l1 with currentIndent := indentLevel })
  else if indentLevel < l1.currentIndent then
    ({ Type_ := .DEDENT, Literal := [] }, { l1 with currentIndent := l1.currentIndent - 4 })
  else
    ({ Type_ := .ILLEGAL, Literal := [] }, l1)

/-- Go `handleEOF`. -/
def handleEOF (l : Lexer) : Token × Lexer :=
  if l.currentIndent > 0 then
    ({ Type_ := .DEDENT, Literal := [] }, { l with currentIndent := l.currentIndent - 4 })
  else
    ({ Type_ := .EOF, Literal := [] }, l)

/-- Go `readIdentifier`. -/
def readIdentifier (l : Lexer) : Str × Lexer :=
  let l1 := readWhile isLetter (loopFuel l) l
  (slice l.input l.position l1.position, l1)

/-- Go `readNumber`. -/
def readNumber (l : Lexer) : Str × Lexer :=
  let l1 := readWhile (fun ch => isDigit ch || ch == 46) (loopFuel l) l
  (slice l.input l.position l1.position, l1)

/-- Go `readString`: the loop reads a byte and then tests it, so it is one
`readChar` followed by the loop that runs while the byte is neither the quote nor 0. -/
def readString (l : Lexer) (quote : Nat) : Str × Lexer :=
  let position := l.position + 1
  let l1 := readWhile (fun ch => !(ch == quote || ch == 0)) (loopFuel l) (readChar l)
  (slice l.input position l1.position, readChar l1)

/-- The `switch l.ch` statement of `NextToken`, with the `readChar` that follows it
for the cases that do not return early. -/
def switchToken (l : Lexer) : Token × Lexer :=
  let c := l.ch
  if c = 61 then (newToken .ASSIGN c, readChar l)
  else if c = 43 then (newToken .PLUS c, readChar l)
  else if c = 45 then (newToken .MINUS c, readChar l)
  else if c = 42 then (newToken .ASTERISK c, readChar l)
  else if c = 47 then (newToken .SLASH c, readChar l)
  else if c = 40 then (newToken .LPAREN c, readChar l)
  else if c = 41 then (newToken .RPAREN c, readChar l)
  else if c = 123 then (newToken .LBRACE c, readChar l)
  else if c = 125 then (newToken .RBRACE c, readChar l)
  else if c = 91 then (newToken .LBRACKET c, readChar l)
  else if c = 93 then (newToken .RBRACKET c, readChar l)
  else if c = 44 then (newToken .COMMA c, readChar l)
  else if c = 58 then (newToken .COLON c, readChar l)
  else if c = 62 then (newToken .GT c, readChar l)
  else if c = 34 then
    let (lit, l1) := readString l 34
    ({ Type_ := .STRING, Literal := lit }, l1)
  else if c = 39 then
    let (lit, l1) := readString l 39
    ({ Type_ := .STRING, Literal := lit }, l1)
  else if c = 0 then
    if l.currentIndent > 0 then handleEOF l
    else ({ Type_ := .EOF, Literal := [] }, readChar l)
  else if isLetter c then
    let (lit, l1) := readIdentifier l
    ({ Type_ := LookupIdent lit, Literal := lit }, l1)
  else if isDigit c then
    let (lit, l1) := readNumber l
    ({ Type_ := .INT, Literal := lit }, l1)
  else (newToken .ILLEGAL c, readChar l)

/-- Go `NextToken`: the indentation check after a newline, then `skipWhitespace` and
the `switch`. -/
def NextToken (l : Lexer) : Token × Lexer :=
  let afterNewline : Option Token × Lexer :=
    if l.ch = 10 then
      let (tok, l1) := handleIndentation (readChar l)
      if tok.Type_ ≠ .ILLEGAL then (some tok, l1) else (none, l1)
    else (none, l)
  match afterNewline with
  | (some tok, l1) => (tok, l1)
  | (none, l1) => switchToken (skipWhitespace l1)

/-- The lexer state that reads the byte at offset `k` of `input`, as `readChar`
leaves it: `ch` is that byte, or 0 past the end. -/
def atPos (input : Str) (k : Nat) (ind : Int) : Lexer :=
  { input := input, position := k, readPosition := k + 1, ch := input.getD k 0,
    currentIndent := ind }

/-- The first `n` tokens returned by successive `NextToken` calls. -/
def tokens : Nat → Lexer → List Token
  | 0, _ => []
  | n + 1, l => (NextToken l).1 :: tokens n (NextToken l).2

end lexer

namespace parser
open token lexer

/-- The AST expression nodes of `parser.go`. `Expression` is a Go interface: `nil` is
the nil interface value, which `parseExpression` returns on an unexpected token. -/
inductive Expression where
  | nil
  | Identifier (Value : Str)
  | IntegerLiteral (Value : Str)
  | FloatLiteral (Value : Str)
  | StringLiteral (Value : Str)
  | InfixExpression (Left : Expression) (Operator : Str) (Right : Expression)
  | CallExpression (Function : Expression) (Arguments : List Expression)
  | ListLiteral (Elements : List Expression)

/-- Go `Identifier`. -/
structure Identifier where
  Value : Str
  deriving DecidableEq, Repr

/-- The AST statement nodes of `parser.go`. A `Statement` interface value can hold a nil
pointer of a concrete node type (what `parseStatement` returns when
`parseFunctionDefinition`, `parseIfStatement` or `parseAssignmentStatement` return nil):
these are the `...Nil` constructors; such a value is not `nil` as an interface.
`Alternative` is `none` for the nil slice. -/
inductive Statement where
  | FunctionDefinition (Name : Str) (Parameters : List Str) (Body : List Statement)
  | FunctionDefinitionNil
  | IfStatement (Condition : Expression) (Consequence : List Statement)
      (Alternative : Option (List Statement))
  | IfStatementNil
  | ReturnStatement (Value : Expression)
  | ExpressionStatement (Expression : Expression)
  | AssignmentStatement (Name : Identifier) (Value : Expression)
  | AssignmentStatementNil

/-- Go `Program`. -/
structure Program where
  Statements : List Statement

/-- Precedence levels. -/
def LOWEST : Nat := 1
/-- Precedence of `==`. -/
def EQUALS : Nat := 2
/-- Precedence of `<` and `>`. -/
def LESSGREATER : Nat := 3
/-- Precedence of `+`. -/
def SUM : Nat := 4
/-- Precedence of `*`. -/
def PRODUCT : Nat := 5
/-- Precedence of function calls. -/
def CALL : Nat := 6

/-- The `precedences` table, with the lookup default `LOWEST` of
`peekPrecedence` and `curPrecedence`. -/
def precedenceOf : TokenType → Nat
  | .EQ => EQUALS
  | .NOT_EQ => EQUALS
  | .LT => LESSGREATER
  | .GT => LESSGREATER
  | .PLUS => SUM
  | .MINUS => SUM
  | .ASTERISK => PRODUCT
  | .SLASH => PRODUCT
  | _ => LOWEST

/-- The parser state of `parser.go`. -/
structure Parser where
  l : Lexer
  curTok : Token
  peekTok : Token
  errors : List Str
  indentLevel : Int
  deriving DecidableEq, Repr

/-- Go `nextToken`. -/
def nextToken (p : Parser) : Parser :=
  { p with curTok := p.peekTok, peekTok := (NextToken p.l).1, l := (NextToken p.l).2 }

/-- Go `parser.New`. -/
def New (l : Lexer) : Parser :=
  nextToken (nextToken
    { l := l, curTok := ⟨.ZERO, []⟩, peekTok := ⟨.ZERO, []⟩, errors := [], indentLevel := 0 })

/-- Go `addError`. -/
def addError (p : Parser) (msg : Str) : Parser := { p with errors := p.errors ++ [msg] }

/-- Go `Errors`. -/
def Errors (p : Parser) : List Str := p.errors

/-- Go `peekPrecedence`. -/
def peekPrecedence (p : Parser) : Nat := precedenceOf p.peekTok.Type_

/-- Go `curPrecedence`. -/
def curPrecedence (p : Parser) : Nat := precedenceOf p.curTok.Type_

/-- Go `peekTokenIs`. -/
def peekTokenIs (p : Parser) (t : TokenType) : Bool := p.peekTok.Type_ == t

/-- Go `expectPeek`. -/
def expectPeek (p : Parser) (t : TokenType) : Bool × Parser :=
  if peekTokenIs p t then (true, nextToken p)
  else (false, addError p (bytes "expected next token to be " ++ t.text ++ bytes ", got " ++
      p.peekTok.Type_.text ++ bytes " instead"))

/-- How a parsing routine ends: it returns a value and the parser state, or the Go
runtime panics (nil pointer dereference), or the fuel of the embedding ran out. -/
inductive Run (α : Type) where
  | ret (a : α) (p : Parser)
  | panic
  | outOfFuel

/-- Sequencing of parsing routines. -/
def Run.bind {α β : Type} (r : Run α) (f : α → Parser → Run β) : Run β :=
  match r with
  | .ret a p => f a p
  | .panic => .panic
  | .outOfFuel => .outOfFuel

/-- Go `parseIntegerLiteral`. -/
def parseIntegerLiteral (p : Parser) : Expression := .IntegerLiteral p.curTok.Literal

/-- Go `parseFloatLiteral`. -/
def parseFloatLiteral (p : Parser) : Expression := .FloatLiteral p.curTok.Literal

/-- Go `parseStringLiteral`. -/
def parseStringLiteral (p : Parser) : Expression := .StringLiteral p.curTok.Literal

/-- The loop of `parseFunctionParameters`. -/
def parseFunctionParametersLoop : Nat → Parser → List Str → Run (List Str)
  | 0, _, _ => .outOfFuel
  | fuel + 1, p, parameters =>
    if p.peekTok.Type_ = .COMMA then
      let p2 := nextToken (nextToken p)
      parseFunctionParametersLoop fuel p2 (parameters ++ [p2.curTok.Literal])
    else .ret parameters p

/-- Go `parseFunctionParameters`. -/
def parseFunctionParameters (fuel : Nat) (p : Parser) : Run (List Str) :=
  if p.curTok.Type_ = .RPAREN then .ret [] p
  else parseFunctionParametersLoop fuel p [p.curTok.Literal]

mutual

/-- Go `parseExpression`: the primary expression, then the infix loop. -/
def parseExpression : Nat → Nat → Parser → Run Expression
  | 0, _, _ => .outOfFuel
  | fuel + 1, precedence, p =>
    match p.curTok.Type_ with
    | .IDENT => parseExpressionLoop fuel precedence p (.Identifier p.curTok.Literal)
    | .INT => parseExpressionLoop fuel precedence p (parseIntegerLiteral p)
    | .FLOAT => parseExpressionLoop fuel precedence p (parseFloatLiteral p)
    | .STRING => parseExpressionLoop fuel precedence p (parseStringLiteral p)
    | .LPAREN =>
      (parseGroupedExpression fuel p).bind fun leftExp p1 =>
        parseExpressionLoop fuel precedence p1 leftExp
    | _ => .ret .nil (addError p (bytes "unexpected token: " ++ p.curTok.Type_.text))

/-- The `for` loop of `parseExpression`. -/
def parseExpressionLoop : Nat → Nat → Parser → Expression → Run Expression
  | 0, _, _, _ => .outOfFuel
  | fuel + 1, precedence, p, leftExp =>
    if !peekTokenIs p .SEMICOLON && decide (precedence < peekPrecedence p) then
      match p.peekTok.Type_ with
      | .PLUS | .MINUS | .ASTERISK | .SLASH | .EQ | .NOT_EQ | .LT | .GT =>
        (parseInfixExpression fuel (nextToken p) leftExp).bind fun leftExp1 p1 =>
          parseExpressionLoop fuel precedence p1 leftExp1
      | _ => .ret leftExp p
    else .ret leftExp p

/-- Go `parseGroupedExpression`. -/
def parseGroupedExpression : Nat → Parser → Run Expression
  | 0, _ => .outOfFuel
  | fuel + 1, p =>
    (parseExpression fuel LOWEST (nextToken p)).bind fun exp p1 =>
      match expectPeek p1 .RPAREN with
      | (true, p2) => .ret exp p2
      | (false, p2) =>
        .ret .nil (addError p2 (bytes "expected ')', got " ++ p2.curTok.Type_.text))

/-- Go `parseInfixExpression`. -/
def parseInfixExpression : Nat → Parser → Expression → Run Expression
  | 0, _, _ => .outOfFuel
  | fuel + 1, p, left =>
    let operator := p.curTok.Literal
    let precedence := curPrecedence p
    (parseExpression fuel precedence (nextToken p)).bind fun right p1 =>
      .ret (.InfixExpression left operator right) p1

end

/-- Go `parseReturnStatement`. -/
def parseReturnStatement (fuel : Nat) (p : Parser) : Run Statement :=
  (parseExpression fuel LOWEST (nextToken p)).bind fun value p1 =>
    .ret (.ReturnStatement value) p1

/-- Go `parseExpressionStatement`. -/
def parseExpressionStatement (fuel : Nat) (p : Parser) : Run Statement :=
  (parseExpression fuel LOWEST p).bind fun expr p1 => .ret (.ExpressionStatement expr) p1

/-- Go `AssignmentStatement`, as the struct behind the pointer. -/
structure AssignmentStatement where
  Name : Identifier
  Value : Expression

/-- Go `parseAssignmentStatement`; `none` is the nil pointer. Reading
`rightAssignment.Value` through a nil pointer panics. -/
def parseAssignmentStatement : Nat → Parser → Run (Option AssignmentStatement)
  | 0, _ => .outOfFuel
  | fuel + 1, p =>
    let mainIdent : Identifier := { Value := p.curTok.Literal }
    let p1 := nextToken p
    if p1.curTok.Type_ ≠ .ASSIGN then
      .ret none (addError p1 (bytes "expected '=', got " ++ p1.curTok.Type_.text))
    else
      let p2 := nextToken p1
      if p2.curTok.Type_ = .IDENT && peekTokenIs p2 .ASSIGN then
        match parseAssignmentStatement fuel p2 with
        | .ret (some rightAssignment) p3 =>
          .ret (some { Name := mainIdent, Value := rightAssignment.Value }) p3
        | .ret none _ => .panic
        | .panic => .panic
        | .outOfFuel => .outOfFuel
      else
        (parseExpression fuel LOWEST p2).bind fun value p3 =>
          .ret (some { Name := mainIdent, Value := value }) p3

/-- The conversion of the pointer returned by `parseAssignmentStatement` to a
`Statement` interface value. -/
def AssignmentStatement.toStatement : Option AssignmentStatement → Statement
  | some a => .AssignmentStatement a.Name a.Value
  | none => .AssignmentStatementNil

mutual

/-- Go `parseStatement`; `none` is the nil interface value. The routines returning a
pointer return a `Statement` whose `...Nil` constructor stands for the nil pointer. -/
def parseStatement : Nat → Parser → Run (Option Statement)
  | 0, _ => .outOfFuel
  | fuel + 1, p =>
    match p.curTok.Type_ with
    | .DEF => (parseFunctionDefinition fuel p).bind fun s p1 => .ret (some s) p1
    | .IF => (parseIfStatement fuel p).bind fun s p1 => .ret (some s) p1
    | .RETURN => (parseReturnStatement fuel p).bind fun s p1 => .ret (some s) p1
    | .IDENT =>
      if peekTokenIs p .ASSIGN then
        (parseAssignmentStatement fuel p).bind fun a p1 =>
          .ret (some (AssignmentStatement.toStatement a)) p1
      else (parseExpressionStatement fuel p).bind fun s p1 => .ret (some s) p1
    | .INDENT | .DEDENT | .COLON => .ret none p
    | _ =>
      if p.curTok.Type_ = .EOF then .ret none p
      else (parseExpressionStatement fuel p).bind fun s p1 => .ret (some s) p1

/-- Go `parseFunctionDefinition`; `FunctionDefinitionNil` is the nil pointer. -/
def parseFunctionDefinition : Nat → Parser → Run Statement
  | 0, _ => .outOfFuel
  | fuel + 1, p =>
    let p1 := nextToken p
    let name := p1.curTok.Literal
    let p2 := nextToken p1
    if p2.curTok.Type_ ≠ .LPAREN then
      .ret .FunctionDefinitionNil
        (addError p2 (bytes "expected '(', got " ++ p2.curTok.Type_.text))
    else
      (parseFunctionParameters fuel (nextToken p2)).bind fun parameters p3 =>
        if p3.curTok.Type_ ≠ .RPAREN then
          .ret .FunctionDefinitionNil
            (addError p3 (bytes "expected ')', got " ++ p3.curTok.Type_.text))
        else
          let p4 := nextToken p3
          if p4.curTok.Type_ ≠ .COLON then
            .ret .FunctionDefinitionNil
              (addError p4 (bytes "expected ':', got " ++ p4.curTok.Type_.text))
          else
            (parseBlock fuel (nextToken p4)).bind fun body p5 =>
              .ret (.FunctionDefinition name parameters body) p5

/-- Go `parseBlock`. -/
def parseBlock : Nat → Parser → Run (List Statement)
  | 0, _ => .outOfFuel
  | fuel + 1, p =>
    if p.curTok.Type_ ≠ .INDENT then
      .ret [] (addError p (bytes "expected INDENT, got " ++ p.curTok.Type_.text))
    else
      (parseBlockLoop fuel (nextToken { p with indentLevel := p.indentLevel + 1 }) []).bind
        fun block p1 => .ret block { p1 with indentLevel := p1.indentLevel - 1 }

/-- The `for` loop of `parseBlock`. -/
def parseBlockLoop : Nat → Parser → List Statement → Run (List Statement)
  | 0, _, _ => .outOfFuel
  | fuel + 1, p, block =>
    if p.curTok.Type_ ≠ .DEDENT && p.curTok.Type_ ≠ .EOF then
      (parseStatement fuel p).bind fun stmt p1 =>
        parseBlockLoop fuel (nextToken p1)
          (match stmt with
           | some s => block ++ [s]
           | none => block)
    else .ret block p

/-- Go `parseIfStatement`; `IfStatementNil` is the nil pointer. -/
def parseIfStatement : Nat → Parser → Run Statement
  | 0, _ => .outOfFuel
  | fuel + 1, p =>
    (parseExpression fuel LOWEST (nextToken p)).bind fun condition p1 =>
      match condition with
      | .nil =>
        .ret .IfStatementNil (addError p1 (bytes "failed to parse condition after 'if'"))
      | _ =>
        if p1.curTok.Type_ ≠ .COLON then
          .ret .IfStatementNil
            (addError p1 (bytes "expected ':', got " ++ p1.curTok.Type_.text))
        else
          (parseBlock fuel (nextToken p1)).bind fun consequence p2 =>
            if p2.curTok.Type_ = .ELSE then
              let p3 := nextToken p2
              if p3.curTok.Type_ ≠ .COLON then
                .ret .IfStatementNil
                  (addError p3 (bytes "expected ':', got " ++ p3.curTok.Type_.text))
              else
                (parseBlock fuel (nextToken p3)).bind fun alternative p4 =>
                  .ret (.IfStatement condition consequence (some alternative)) p4
            else .ret (.IfStatement condition consequence none) p2

end

/-- Go `ParseIfStatement`. -/
def ParseIfStatement (fuel : Nat) (p : Parser) : Run Statement :=
  if p.curTok.Type_ ≠ .IF then
    .ret .IfStatementNil (addError p (bytes "expected 'if', got " ++ p.curTok.Type_.text))
  else parseIfStatement fuel p

/-- The `for` loop of `ParseProgram`. -/
def ParseProgramLoop : Nat → Parser → List Statement → Run Program
  | 0, _, _ => .outOfFuel
  | fuel + 1, p, statements =>
    if p.curTok.Type_ ≠ .EOF then
      (parseStatement fuel p).bind fun stmt p1 =>
        ParseProgramLoop fuel (nextToken p1)
          (match stmt with
           | some s => statements ++ [s]
           | none => statements)
    else .ret { Statements := statements } p

/-- Go `ParseProgram`. A program starting with `if` is that single statement, kept
when the pointer returned by `parseIfStatement` is not nil. -/
def ParseProgram (fuel : Nat) (p : Parser) : Run Program :=
  if p.curTok.Type_ = .IF then
    (parseIfStatement fuel p).bind fun stmt p1 =>
      match stmt with
      | .IfStatementNil => .ret { Statements := [] } p1
      | s => .ret { Statements := [s] } p1
  else ParseProgramLoop fuel p []

/-- Lex and parse a source text with `fuel` units of recursion depth: the program and
the error list of `parser.New(lexer.New(input)).ParseProgram()`. -/
def parseSource (fuel : Nat) (input : Str) : Run Program :=
  ParseProgram fuel (New (lexer.New input))

end parser

namespace strconv

/-- The value of a string of decimal digits, `none` when the string is empty or holds
a byte that is not a digit. -/
def parseDigits : Str → Option Nat
  | [] => none
  | s => if s.all lexer.isDigit then some (s.foldl (fun acc d => acc * 10 + (d - 48)) 0) else none

/-- Go `strconv.Atoi` for the 64-bit `int` (standard library, modelled from its
documentation): an optional sign followed by one or more decimal digits, whose value
lies in the range of `int`; `none` is a non-nil error. -/
def Atoi (s : Str) : Option Int :=
  match s with
  | 45 :: rest =>
    match parseDigits rest with
    | some n => if n ≤ 2 ^ 63 then some (-(n : Int)) else none
    | none => none
  | 43 :: rest =>
    match parseDigits rest with
    | some n => if n < 2 ^ 63 then some (n : Int) else none
    | none => none
  | _ =>
    match parseDigits s with
    | some n => if n < 2 ^ 63 then some (n : Int) else none
    | none => none

/-- The decimal digits of `n`, most significant first, in front of `acc`. -/
def natDecAux : Nat → Nat → Str → Str
  | 0, _, acc => acc
  | fuel + 1, n, acc =>
    if n < 10 then (48 + n) :: acc else natDecAux fuel (n / 10) ((48 + n % 10) :: acc)

/-- The decimal rendering of a natural number. -/
def natDec (n : Nat) : Str := natDecAux (n + 1) n []

/-- Go `strconv.Itoa` (standard library, modelled from its documentation): the decimal
rendering of `i`, with a leading `-` when `i` is negative. -/
def Itoa (i : Int) : Str :=
  if i < 0 then 45 :: natDec (-i).toNat else natDec i.toNat

end strconv

namespace evaluator
open parser

/-- The value of a Go `int` expression whose mathematical value is `x`: 64-bit
two-complement wrap-around. -/
def wrap64 (x : Int) : Int := (x + 2 ^ 63) % 2 ^ 64 - 2 ^ 63

/-- The functions of the `builtins` table. -/
inductive BuiltinFunction where
  | print
  deriving DecidableEq, Repr

/-- The runtime values of `evaluator.go`. -/
inductive Object where
  | NullObject
  | Integer (Value : Str)
  | String (Value : Str)
  | Boolean (Value : Bool)
  | Error (Message : Str)
  | Builtin (Fn : BuiltinFunction)
  deriving DecidableEq, Repr

/-- The value `NULL`. -/
def NULL : Object := .NullObject

/-- Go `Type()`, as the text of the `ObjectType`. -/
def Object.Type_ : Object → Str
  | .NullObject => bytes "NULL"
  | .Integer _ => bytes "INTEGER"
  | .String _ => bytes "STRING"
  | .Boolean _ => bytes "BOOLEAN"
  | .Error _ => bytes "ERROR"
  | .Builtin _ => bytes "BUILTIN"

/-- Go `Inspect()`. -/
def Object.Inspect : Object → Str
  | .NullObject => bytes "null"
  | .Integer v => v
  | .String v => v
  | .Boolean b => if b then bytes "true" else bytes "false"
  | .Error m => bytes "ERROR: " ++ m
  | .Builtin _ => bytes "builtin function"

/-- The `builtins` table. -/
def builtins (name : Str) : Option Object :=
  if name = bytes "print" then some (.Builtin .print) else none

/-- Go `Environment`: a store and an optional outer environment. -/
inductive Environment where
  | mk (store : Str → Option Object) (outer : Option Environment)

/-- The store of an environment. -/
def Environment.store : Environment → Str → Option Object
  | .mk s _ => s

/-- The outer environment. -/
def Environment.outer : Environment → Option Environment
  | .mk _ o => o

/-- Go `NewEnvironment`. -/
def NewEnvironment : Environment := .mk (fun _ => none) none

/-- Go `NewEnclosedEnvironment`. -/
def NewEnclosedEnvironment (outer : Environment) : Environment := .mk (fun _ => none) (some outer)

/-- Go `Environment.Get`; `none` is `ok == false`. -/
def Environment.Get : Environment → Str → Option Object
  | .mk store none, name => store name
  | .mk store (some outer), name =>
    match store name with
    | some obj => some obj
    | none => outer.Get name

/-- Go `Environment.Set`: the value returned and the environment after the write. -/
def Environment.Set : Environment → Str → Object → Object × Environment
  | .mk store outer, name, val => (val, .mk (fun n => if n = name then some val else store n) outer)

/-- Go `isError` (on a non-nil object). -/
def isError (obj : Object) : Bool :=
  match obj with
  | .Error _ => true
  | _ => false

/-- Go `newError`, after formatting. -/
def newError (msg : Str) : Object := .Error msg

/-- Go `evalIntegerInfixExpression` on the texts of the two integers. -/
def evalIntegerInfixExpression (operator : Str) (leftVal rightVal : Str) : Object :=
  match strconv.Atoi leftVal, strconv.Atoi rightVal with
  | some leftInt, some rightInt =>
    if operator = bytes "+" then .Integer (strconv.Itoa (wrap64 (leftInt + rightInt)))
    else if operator = bytes "-" then .Integer (strconv.Itoa (wrap64 (leftInt - rightInt)))
    else if operator = bytes "*" then .Integer (strconv.Itoa (wrap64 (leftInt * rightInt)))
    else if operator = bytes "/" then
      if rightInt = 0 then newError (bytes "division by zero")
      else .Integer (strconv.Itoa (wrap64 (Int.tdiv leftInt rightInt)))
    else newError (bytes "unknown operator: " ++ operator)
  | _, _ =>
    newError (bytes "invalid integer operation: " ++ leftVal ++ bytes " " ++ operator ++
      bytes " " ++ rightVal)

/-- Go `evalStringInfixExpression` on the texts of the two strings. -/
def evalStringInfixExpression (operator : Str) (left right : Str) : Object :=
  if operator ≠ bytes "+" then
    newError (bytes "unknown operator: " ++ bytes "STRING" ++ bytes " " ++ operator ++
      bytes " " ++ bytes "STRING")
  else .String (left ++ right)

/-- Go `evalInfixExpression`. -/
def evalInfixExpression (operator : Str) (left right : Object) : Object :=
  match left, right with
  | .Integer l, .Integer r => evalIntegerInfixExpression operator l r
  | .String l, .String r => evalStringInfixExpression operator l r
  | _, _ =>
    newError (bytes "unknown operator: " ++ left.Type_ ++ bytes " " ++ operator ++
      bytes " " ++ right.Type_)

/-- What evaluation acts on: the environment passed to `Eval` and the lines written
to standard output by `print`. -/
structure World where
  env : Environment
  out : List Str

/-- Go `evalIdentifier`. -/
def evalIdentifier (name : Str) (env : Environment) : Object :=
  match builtins name with
  | some builtin => builtin
  | none =>
    match env.Get name with
    | some val => val
    | none => newError (bytes "identifier not found: " ++ name)

/-- A builtin applied to its arguments: `print` writes the inspect-text of each
argument on its own line and returns `NULL`. -/
def BuiltinFunction.apply : BuiltinFunction → List Object → List Str → Object × List Str
  | .print, args, out => (NULL, out ++ args.map Object.Inspect)

/-- Go `applyFunction`. -/
def applyFunction (fn : Object) (args : List Object) (out : List Str) : Object × List Str :=
  match fn with
  | .Builtin f => f.apply args out
  | _ => (newError (bytes "not a function: " ++ fn.Type_), out)

mutual

/-- Go `Eval` on an expression node (the cases of the type switch for expressions,
and `default`). -/
def EvalExpression : Expression → World → Object × World
  | .IntegerLiteral v, w => (.Integer v, w)
  | .StringLiteral v, w => (.String v, w)
  | .InfixExpression left operator right, w =>
    let (l, w1) := EvalExpression left w
    if isError l then (l, w1)
    else
      let (r, w2) := EvalExpression right w1
      if isError r then (r, w2)
      else (evalInfixExpression operator l r, w2)
  | .Identifier name, w => (evalIdentifier name w.env, w)
  | .CallExpression function arguments, w =>
    let (f, w1) := EvalExpression function w
    if isError f then (f, w1)
    else
      let (args, w2) := evalExpressions arguments w1 []
      match args with
      | [a] =>
        if isError a then (a, w2)
        else
          let (r, out) := applyFunction f args w2.out
          (r, { w2 with out := out })
      | _ =>
        let (r, out) := applyFunction f args w2.out
        (r, { w2 with out := out })
  | _, w => (newError (bytes "unknown node type"), w)

/-- Go `evalExpressions`, with the results gathered so far. -/
def evalExpressions : List Expression → World → List Object → List Object × World
  | [], w, result => (result, w)
  | e :: rest, w, result =>
    let (evaluated, w1) := EvalExpression e w
    if isError evaluated then ([evaluated], w1)
    else evalExpressions rest w1 (result ++ [evaluated])

end

/-- Go `Eval` on a statement node; `none` is a runtime panic (a nil
`*AssignmentStatement` is dereferenced). -/
def EvalStatement (s : Statement) (w : World) : Option (Object × World) :=
  match s with
  | .ExpressionStatement e => some (EvalExpression e w)
  | .AssignmentStatement name value =>
    let (val, w1) := EvalExpression value w
    if isError val then some (val, w1)
    else
      let (r, env) := w1.env.Set name.Value val
      some (r, { w1 with env := env })
  | .AssignmentStatementNil => none
  | _ => some (newError (bytes "unknown node type"), w)

/-- The loop of `evalProgram`. -/
def evalProgramLoop : List Statement → World → Object → Option (Object × World)
  | [], w, result => some (result, w)
  | statement :: rest, w, _ =>
    match EvalStatement statement w with
    | none => none
    | some (result, w1) => if isError result then some (result, w1) else evalProgramLoop rest w1 result

/-- Go `evalProgram`. -/
def evalProgram (program : Program) (w : World) : Option (Object × World) :=
  evalProgramLoop program.Statements w NULL

/-- The nodes `Eval` is applied to. -/
inductive Node where
  | program (p : Program)
  | statement (s : Statement)
  | expression (e : Expression)

/-- Go `Eval`. -/
def Eval (node : Node) (w : World) : Option (Object × World) :=
  match node with
  | .program p => evalProgram p w
  | .statement s => EvalStatement s w
  | .expression e => some (EvalExpression e w)

end evaluator

/-! ## Vocabulary of the statements -/

/-- A non-empty string of decimal digits. -/
def IsDigits (a : Str) : Prop := a ≠ [] ∧ ∀ c ∈ a, lexer.isDigit c = true

instance (a : Str) : Decidable (IsDigits a) := by unfold IsDigits; infer_instance

/-- The number a string of decimal digits denotes. -/
def decValue (a : Str) : Nat := a.foldl (fun acc d => acc * 10 + (d - 48)) 0

/-- An identifier: a non-empty string of letters and underscores that is not a keyword. -/
def IsIdentifier (x : Str) : Prop :=
  x ≠ [] ∧ (∀ c ∈ x, lexer.isLetter c = true) ∧ token.keywords.lookup x = none

instance (x : Str) : Decidable (IsIdentifier x) := by unfold IsIdentifier; infer_instance

/-- The text `s` is the canonical decimal rendering of the integer `v`: the digits of
the absolute value without leading zeros (except `0` itself), after a `-` when `v` is
negative. -/
def CanonicalDecimal (s : Str) (v : Int) : Prop :=
  ∃ t : Str, s = (if v < 0 then 45 :: t else t) ∧ IsDigits t ∧ (decValue t : Int) = |v| ∧
    (t = [48] ∨ t.head? ≠ some 48)

/-- The arithmetic operators of integer infix evaluation, by their byte: the token
kind the lexer gives them. -/
def operatorType (op : Nat) : token.TokenType :=
  if op = 43 then .PLUS else if op = 45 then .MINUS else if op = 42 then .ASTERISK else .SLASH

/-- The mathematical result of the operator with byte `op` on two integers, division
truncating toward zero. -/
def applyOperator (op : Nat) (x y : Int) : Int :=
  if op = 43 then x + y else if op = 45 then x - y else if op = 42 then x * y else Int.tdiv x y

/-- The token kind of the bytes that the `switch` of `NextToken` turns into a
one-byte token. -/
def punctuationType (c : Nat) : Option token.TokenType :=
  if c = 61 then some .ASSIGN else if c = 43 then some .PLUS else if c = 45 then some .MINUS
  else if c = 42 then some .ASTERISK else if c = 47 then some .SLASH
  else if c = 40 then some .LPAREN else if c = 41 then some .RPAREN
  else if c = 123 then some .LBRACE else if c = 125 then some .RBRACE
  else if c = 91 then some .LBRACKET else if c = 93 then some .RBRACKET
  else if c = 44 then some .COMMA else if c = 58 then some .COLON
  else if c = 62 then some .GT else none

/-- The indentation width of a run of blanks: each space counts 1, each tab 4. -/
def indentWidth : Str → Int
  | [] => 0
  | c :: rest => (if c = 32 then 1 else 4) + indentWidth rest

/-- The lexer has consumed all its input: the current byte is the 0 that `readChar`
loads past the end, and so is every byte it will load. -/
def AtEnd (l : lexer.Lexer) : Prop := l.ch = 0 ∧ l.input.length ≤ l.readPosition

instance (l : lexer.Lexer) : Decidable (AtEnd l) := by unfold AtEnd; infer_instance

/-- The lexer state after `n` calls of `NextToken`. -/
def lexer.after : Nat → lexer.Lexer → lexer.Lexer
  | 0, l => l
  | n + 1, l => lexer.after n (lexer.NextToken l).2

/-- The input of `TestNextToken`. -/
def testNextTokenInput : Str :=
  bytes "def myFunc():\n    x = 42\n    if x > 10:\n        print(\"Hello, World!\")\n    else:\n        pass"

/-- The scopes of an environment chain, innermost first: the store of the environment
itself, then the stores of its outer environments. -/
def evaluator.Environment.scopes : evaluator.Environment → List (Str → Option evaluator.Object)
  | .mk store none => [store]
  | .mk store (some outer) => store :: outer.scopes

/-- The lookup the specification describes: walking outward from the innermost scope,
the binding of `name` in the first scope that binds it. -/
def lookupOutward (scopes : List (Str → Option evaluator.Object)) (name : Str) :
    Option evaluator.Object :=
  scopes.findSome? (fun store => store name)

/-- The statement is the nil `*AssignmentStatement` pointer, which is not a node the
parser's node types describe. -/
def parser.Statement.isNilAssignment : parser.Statement → Bool
  | .AssignmentStatementNil => true
  | _ => false

/-- The nodes built from the parser's node types, every assignment having its target
identifier and value: no statement is the nil assignment pointer. -/
def evaluator.Node.WellFormed : evaluator.Node → Prop
  | .program p => ∀ s ∈ p.Statements, s.isNilAssignment = false
  | .statement s => s.isNilAssignment = false
  | .expression _ => True

instance (node : evaluator.Node) : Decidable node.WellFormed := by
  cases node <;> unfold evaluator.Node.WellFormed <;> infer_instance

/-- The statements evaluated one after the other, each in the world the previous one
left, without stopping at errors: the result and the world after each statement. -/
def runAll : List parser.Statement → evaluator.World → List (evaluator.Object × evaluator.World)
  | [], _ => []
  | s :: rest, w =>
    match evaluator.EvalStatement s w with
    | none => []
    | some (r, w1) => (r, w1) :: runAll rest w1

/-- What the specification says a program evaluates to: the result (and world) of the
first statement that yields an Error; without one, those of the last statement; the
null value for a program without statements. -/
def programResult (stmts : List parser.Statement) (w : evaluator.World) :
    evaluator.Object × evaluator.World :=
  match (runAll stmts w).find? (fun r => evaluator.isError r.1) with
  | some r => r
  | none => (runAll stmts w).getLast?.getD (evaluator.NULL, w)

mutual

/-- The expression contains a call-expression. -/
def parser.Expression.hasCall : parser.Expression → Bool
  | .CallExpression _ _ => true
  | .InfixExpression left _ right => left.hasCall || right.hasCall
  | .ListLiteral elements => parser.Expression.hasCallList elements
  | _ => false

/-- One of the expressions contains a call-expression. -/
def parser.Expression.hasCallList : List parser.Expression → Bool
  | [] => false
  | e :: rest => e.hasCall || parser.Expression.hasCallList rest

end

mutual

/-- The statement contains a call-expression. -/
def parser.Statement.hasCall : parser.Statement → Bool
  | .FunctionDefinition _ _ body => parser.Statement.hasCallList body
  | .IfStatement condition consequence (some alternative) =>
    condition.hasCall || parser.Statement.hasCallList consequence ||
      parser.Statement.hasCallList alternative
  | .IfStatement condition consequence none =>
    condition.hasCall || parser.Statement.hasCallList consequence
  | .ReturnStatement value => value.hasCall
  | .ExpressionStatement e => e.hasCall
  | .AssignmentStatement _ value => value.hasCall
  | _ => false

/-- One of the statements contains a call-expression. -/
def parser.Statement.hasCallList : List parser.Statement → Bool
  | [] => false
  | s :: rest => s.hasCall || parser.Statement.hasCallList rest

end

/-- The lexer state is one that `readChar` leaves: `readPosition` is one past
`position` and `ch` is the byte at `position` (0 past the end). -/
def lexer.Lexer.Wf (l : lexer.Lexer) : Prop :=
  l = lexer.atPos l.input l.position l.currentIndent

/-- A bound on the work left to the lexer: five units for every byte from `position`
to one past the end of the input, plus the indentation still to be closed. -/
def lexer.potential (l : lexer.Lexer) : Nat :=
  5 * (l.input.length + 1 - l.position) + l.currentIndent.toNat

/-- The weight of a token in the parser's measure: 0 for EOF, 1 for any other. -/
def tokenWeight (t : token.Token) : Nat := if t.Type_ = .EOF then 0 else 1

/-- A bound on the work left to the parser: the potential of its lexer plus the
weights of the two tokens it holds. -/
def parser.remaining (p : parser.Parser) : Nat :=
  lexer.potential p.l + tokenWeight p.peekTok + tokenWeight p.curTok

/-- The parser state `q` is reached from `p` by reading tokens: its lexer is in a
state that `readChar` leaves, the work left has not grown, and either it has shrunk or
the current token is the same. -/
def parser.Advances (p q : parser.Parser) : Prop :=
  q.l.Wf ∧ parser.remaining q ≤ parser.remaining p ∧
    (parser.remaining q < parser.remaining p ∨ q.curTok = p.curTok)

/-- The parser state `q` is reached from `p` by reading tokens, and the work left has
shrunk. -/
def parser.Below (p q : parser.Parser) : Prop :=
  q.l.Wf ∧ parser.remaining q < parser.remaining p

/-- The routine `g` (a function of the recursion depth it is granted) returns: from
some depth on it returns one and the same value and parser state, and that state
satisfies `R`. -/
def parser.HaltsWith {α : Type} (R : parser.Parser → Prop) (g : Nat → parser.Run α) : Prop :=
  ∃ (F : Nat) (a : α) (q : parser.Parser), (∀ fuel, F ≤ fuel → g fuel = .ret a q) ∧ R q

/-! ## Lemmas on the lexer -/

namespace lexer
open token

theorem getD_eq_headD_drop (s : Str) (k : Nat) : s.getD k 0 = (s.drop k).headD 0 := by
  induction s generalizing k with
  | nil => simp
  | cons c t ih =>
    cases k with
    | zero => simp
    | succ k => simp [ih k]

theorem drop_succ_of_drop_eq_cons {s : Str} {k : Nat} {c : Nat} {t : Str}
    (h : s.drop k = c :: t) : s.drop (k + 1) = t := by
  have : s.drop (k + 1) = (s.drop k).drop 1 := by simp [List.drop_drop, Nat.add_comm]
  rw [this, h]; rfl

theorem length_of_drop_eq_append {s : Str} {k : Nat} {a r : Str}
    (h : s.drop k = a ++ r) : k + a.length + r.length ≤ s.length ∨ (a = [] ∧ r = []) := by
  by_cases hk : k ≤ s.length
  · left
    have := congrArg List.length h
    simp at this
    omega
  · right
    have : s.drop k = [] := List.drop_eq_nil_of_le (by omega)
    rw [this] at h
    simpa using h.symm

theorem readChar_atPos (input : Str) (k : Nat) (ind : Int) :
    readChar (atPos input k ind) = atPos input (k + 1) ind := by
  simp only [readChar, atPos]
  congr 1
  split
  · rename_i h
    exact (List.getD_eq_default _ _ h).symm
  · rfl

theorem New_eq_atPos (input : Str) : New input = atPos input 0 0 := by
  simp only [New, readChar, atPos]
  congr 1
  split
  · rename_i h
    exact (List.getD_eq_default _ _ h).symm
  · rfl

theorem atPos_ch {input : Str} {k : Nat} {ind : Int} {c : Nat} {t : Str}
    (h : input.drop k = c :: t) : (atPos input k ind).ch = c := by
  show input.getD k 0 = c
  rw [getD_eq_headD_drop, h]; rfl

theorem atPos_ch_end {input : Str} {k : Nat} {ind : Int}
    (h : input.drop k = []) : (atPos input k ind).ch = 0 := by
  show input.getD k 0 = 0
  rw [getD_eq_headD_drop, h]; rfl

/-- The scanning loop run over a block of bytes that satisfy the condition, followed
by a byte that does not: the loop stops right after the block. -/
theorem readWhile_block (cond : Nat → Bool) (input : Str) (ind : Int) (rest : Str)
    (hrest : cond (rest.headD 0) = false) :
    ∀ (blk : Str) (k fuel : Nat), input.drop k = blk ++ rest → (∀ c ∈ blk, cond c = true) →
      blk.length < fuel →
      readWhile cond fuel (atPos input k ind) = atPos input (k + blk.length) ind := by
  intro blk
  induction blk with
  | nil =>
    intro k fuel hd _ hf
    obtain ⟨f, rfl⟩ : ∃ f, fuel = f + 1 := ⟨fuel - 1, by simp at hf; omega⟩
    have hch : (atPos input k ind).ch = rest.headD 0 := by
      show input.getD k 0 = rest.headD 0
      rw [getD_eq_headD_drop, hd]; rfl
    simp only [readWhile, hch, hrest]
    simp
  | cons c t ih =>
    intro k fuel hd hall hf
    obtain ⟨f, rfl⟩ : ∃ f, fuel = f + 1 := ⟨fuel - 1, by simp at hf; omega⟩
    have hch : (atPos input k ind).ch = c := atPos_ch (t := t ++ rest) (by simpa using hd)
    have hc : cond c = true := hall c (by simp)
    have hd2 : input.drop (k + 1) = t ++ rest :=
      drop_succ_of_drop_eq_cons (c := c) (by simpa using hd)
    simp only [readWhile, hch, hc, if_true, readChar_atPos]
    rw [ih (k + 1) f hd2 (fun x hx => hall x (by simp [hx])) (by simp at hf; omega)]
    simp [Nat.add_assoc, Nat.add_comm 1]

theorem slice_block {input : Str} {k : Nat} {blk rest : Str}
    (h : input.drop k = blk ++ rest) : slice input k (k + blk.length) = blk := by
  simp [slice, h]

theorem drop_add_of_drop_eq_append {s : Str} {k : Nat} {a r : Str}
    (h : s.drop k = a ++ r) : s.drop (k + a.length) = r := by
  have h2 := List.drop_drop a.length k s
  rw [h] at h2
  rw [← h2]
  simp

theorem block_length_lt_loopFuel {input : Str} {k : Nat} {blk rest : Str} (ind : Int)
    (h : input.drop k = blk ++ rest) : blk.length < loopFuel (atPos input k ind) := by
  show blk.length < input.length + 1
  rcases length_of_drop_eq_append h with h1 | ⟨h1, _⟩
  · omega
  · simp [h1]

/-- The lexer skips a block of blanks. -/
theorem skipWhitespace_atPos {input : Str} {k : Nat} (ind : Int) {sp rest : Str}
    (h : input.drop k = sp ++ rest) (hsp : ∀ c ∈ sp, c = 32 ∨ c = 9)
    (hrest : rest.headD 0 ≠ 32 ∧ rest.headD 0 ≠ 9) :
    skipWhitespace (atPos input k ind) = atPos input (k + sp.length) ind := by
  unfold skipWhitespace
  apply readWhile_block _ input ind rest _ sp k _ h
  · intro c hc
    rcases hsp c hc with h1 | h1 <;> simp [h1]
  · exact block_length_lt_loopFuel ind h
  · simpa using hrest

/-- When the current byte is not a newline, `NextToken` skips the blanks and runs the
`switch` on the first byte after them. -/
theorem NextToken_atPos {input : Str} {k : Nat} (ind : Int) {sp rest : Str}
    (h : input.drop k = sp ++ rest) (hsp : ∀ c ∈ sp, c = 32 ∨ c = 9)
    (hrest : rest.headD 0 ≠ 32 ∧ rest.headD 0 ≠ 9) (hnl : rest.headD 0 ≠ 10) :
    NextToken (atPos input k ind) = switchToken (atPos input (k + sp.length) ind) := by
  have hch : (atPos input k ind).ch ≠ 10 := by
    show input.getD k 0 ≠ 10
    rw [getD_eq_headD_drop, h]
    cases sp with
    | nil => simpa using hnl
    | cons c t =>
      rcases hsp c (by simp) with h1 | h1 <;> simp [h1]
  simp only [NextToken, hch, if_false]
  rw [skipWhitespace_atPos ind h hsp hrest]

/-- A token that starts right at the current byte. -/
theorem NextToken_atPos_here {input : Str} {k : Nat} (ind : Int) {rest : Str}
    (h : input.drop k = rest)
    (hrest : rest.headD 0 ≠ 32 ∧ rest.headD 0 ≠ 9) (hnl : rest.headD 0 ≠ 10) :
    NextToken (atPos input k ind) = switchToken (atPos input k ind) := by
  have := @NextToken_atPos input k ind [] rest (by simpa using h) (by simp) hrest hnl
  simpa using this

/-- A token that starts after one space. -/
theorem NextToken_atPos_space {input : Str} {k : Nat} (ind : Int) {rest : Str}
    (h : input.drop k = 32 :: rest)
    (hrest : rest.headD 0 ≠ 32 ∧ rest.headD 0 ≠ 9) (hnl : rest.headD 0 ≠ 10) :
    NextToken (atPos input k ind) = switchToken (atPos input (k + 1) ind) := by
  have := @NextToken_atPos input k ind [32] rest (by simpa using h) (by simp) hrest hnl
  simpa using this

theorem isDigit_iff (c : Nat) : isDigit c = true ↔ 48 ≤ c ∧ c ≤ 57 := by
  simp [isDigit]

theorem isLetter_iff (c : Nat) :
    isLetter c = true ↔ (97 ≤ c ∧ c ≤ 122) ∨ (65 ≤ c ∧ c ≤ 90) ∨ c = 95 := by
  simp [isLetter, or_assoc]

/-- The `switch` on a digit reads the whole run of digits as an INT token. -/
theorem switchToken_INT {input : Str} {k : Nat} (ind : Int) {a rest : Str}
    (h : input.drop k = a ++ rest) (ha : a ≠ []) (hd : ∀ c ∈ a, isDigit c = true)
    (hrest : isDigit (rest.headD 0) = false ∧ rest.headD 0 ≠ 46) :
    switchToken (atPos input k ind) =
      ({ Type_ := .INT, Literal := a }, atPos input (k + a.length) ind) := by
  obtain ⟨c, t, rfl⟩ := List.exists_cons_of_ne_nil ha
  have hch : (atPos input k ind).ch = c := atPos_ch (t := t ++ rest) (by simpa using h)
  have hc := (isDigit_iff c).1 (hd c (by simp))
  have hl : isLetter c = false := by
    rw [Bool.eq_false_iff]; intro hl; rw [isLetter_iff] at hl; omega
  have hdig : isDigit c = true := hd c (by simp)
  have hloop : readWhile (fun ch => isDigit ch || ch == 46) (loopFuel (atPos input k ind))
      (atPos input k ind) = atPos input (k + (c :: t).length) ind := by
    apply readWhile_block _ input ind rest _ (c :: t) k _ h
    · intro x hx; simp [hd x hx]
    · exact block_length_lt_loopFuel ind h
    · simpa using hrest
  simp only [switchToken, hch]
  rw [if_neg (by omega), if_neg (by omega), if_neg (by omega), if_neg (by omega),
    if_neg (by omega), if_neg (by omega), if_neg (by omega), if_neg (by omega),
    if_neg (by omega), if_neg (by omega), if_neg (by omega), if_neg (by omega),
    if_neg (by omega), if_neg (by omega), if_neg (by omega), if_neg (by omega),
    if_neg (by omega)]
  simp only [hl, hdig, if_true, Bool.false_eq_true, if_false, readNumber, hloop]
  have hs : slice (atPos input k ind).input (atPos input k ind).position
      (atPos input (k + (c :: t).length) ind).position = c :: t := slice_block h
  rw [hs]

/-- The `switch` on a letter reads the whole run of letters as an identifier or
keyword token. -/
theorem switchToken_letters {input : Str} {k : Nat} (ind : Int) {a rest : Str}
    (h : input.drop k = a ++ rest) (ha : a ≠ []) (hd : ∀ c ∈ a, isLetter c = true)
    (hrest : isLetter (rest.headD 0) = false) :
    switchToken (atPos input k ind) =
      ({ Type_ := LookupIdent a, Literal := a }, atPos input (k + a.length) ind) := by
  obtain ⟨c, t, rfl⟩ := List.exists_cons_of_ne_nil ha
  have hch : (atPos input k ind).ch = c := atPos_ch (t := t ++ rest) (by simpa using h)
  have hl : isLetter c = true := hd c (by simp)
  have hc := (isLetter_iff c).1 hl
  have hloop : readWhile isLetter (loopFuel (atPos input k ind))
      (atPos input k ind) = atPos input (k + (c :: t).length) ind := by
    apply readWhile_block _ input ind rest hrest (c :: t) k _ h hd
    exact block_length_lt_loopFuel ind h
  simp only [switchToken, hch]
  rw [if_neg (by omega), if_neg (by omega), if_neg (by omega), if_neg (by omega),
    if_neg (by omega), if_neg (by omega), if_neg (by omega), if_neg (by omega),
    if_neg (by omega), if_neg (by omega), if_neg (by omega), if_neg (by omega),
    if_neg (by omega), if_neg (by omega), if_neg (by omega), if_neg (by omega),
    if_neg (by omega)]
  simp only [hl, if_true, readIdentifier, hloop]
  have hs : slice (atPos input k ind).input (atPos input k ind).position
      (atPos input (k + (c :: t).length) ind).position = c :: t := slice_block h
  rw [hs]

/-- The `switch` on a double quote reads up to the closing quote. -/
theorem switchToken_STRING {input : Str} {k : Nat} (ind : Int) {s rest : Str}
    (h : input.drop k = 34 :: (s ++ 34 :: rest)) (hs : ∀ c ∈ s, c ≠ 34 ∧ c ≠ 0) :
    switchToken (atPos input k ind) =
      ({ Type_ := .STRING, Literal := s }, atPos input (k + s.length + 2) ind) := by
  have hch : (atPos input k ind).ch = 34 := atPos_ch h
  have h1 : input.drop (k + 1) = s ++ 34 :: rest := drop_succ_of_drop_eq_cons h
  have hlen : s.length < loopFuel (atPos input k ind) := by
    have := @block_length_lt_loopFuel input k (34 :: s) (34 :: rest) ind (by simpa using h)
    simp at this; omega
  have hloop : readWhile (fun ch => !(ch == 34 || ch == 0)) (loopFuel (atPos input k ind))
      (atPos input (k + 1) ind) = atPos input (k + 1 + s.length) ind := by
    apply readWhile_block _ input ind (34 :: rest) _ s (k + 1) _ h1
    · intro x hx; simp [(hs x hx).1, (hs x hx).2]
    · exact hlen
    · simp
  have hsl : slice (atPos input k ind).input ((atPos input k ind).position + 1)
      (atPos input (k + 1 + s.length) ind).position = s := slice_block h1
  simp only [switchToken, hch]
  simp only [readString, readChar_atPos, hloop, hsl]
  simp [Nat.add_assoc, Nat.add_comm 1]

/-- Past the end of the input with no pending indentation, `NextToken` returns EOF. -/
theorem NextToken_EOF {input : Str} {k : Nat} (ind : Int) (hk : input.length ≤ k)
    (hind : ind ≤ 0) :
    NextToken (atPos input k ind) = ({ Type_ := .EOF, Literal := [] }, atPos input (k + 1) ind) := by
  have hd : input.drop k = [] := List.drop_eq_nil_of_le hk
  rw [NextToken_atPos_here ind hd (by simp) (by simp)]
  have hch : (atPos input k ind).ch = 0 := atPos_ch_end hd
  have hci : ¬ (atPos input k ind).currentIndent > 0 := by
    show ¬ ind > 0
    omega
  simp only [switchToken, hch]
  simp [hci, readChar_atPos]

/-- Past the end of the input with pending indentation, `NextToken` returns DEDENT and
lowers the indentation by 4 without moving. -/
theorem NextToken_DEDENT {input : Str} {k : Nat} {ind : Int} (hk : input.length ≤ k)
    (hind : 0 < ind) :
    NextToken (atPos input k ind) = ({ Type_ := .DEDENT, Literal := [] }, atPos input k (ind - 4)) := by
  have hd : input.drop k = [] := List.drop_eq_nil_of_le hk
  rw [NextToken_atPos_here ind hd (by simp) (by simp)]
  have hch : (atPos input k ind).ch = 0 := atPos_ch_end hd
  have hci : (atPos input k ind).currentIndent > 0 := hind
  simp only [switchToken, hch]
  simp [handleEOF, atPos, hind]

/-- A token stream, one `NextToken` call at a time. -/
theorem tokens_succ_eq {n : Nat} {l : Lexer} {t : Token} {ts : List Token}
    (h : tokens (n + 1) l = t :: ts) : ∃ l1, NextToken l = (t, l1) ∧ tokens n l1 = ts := by
  simp only [tokens, List.cons.injEq] at h
  exact ⟨(NextToken l).2, Prod.ext h.1 rfl, h.2⟩

theorem digit_head {a : Str} (ha : IsDigits a) (rest : Str) :
    48 ≤ (a ++ rest).headD 0 ∧ (a ++ rest).headD 0 ≤ 57 := by
  obtain ⟨c, t, rfl⟩ := List.exists_cons_of_ne_nil ha.1
  exact (isDigit_iff c).1 (ha.2 c (by simp))

/-- An integer literal starting at the current byte. -/
theorem step_INT {input : Str} {k : Nat} (ind : Int) {a rest : Str}
    (h : input.drop k = a ++ rest) (ha : IsDigits a)
    (hrest : isDigit (rest.headD 0) = false ∧ rest.headD 0 ≠ 46) :
    NextToken (atPos input k ind) =
      ({ Type_ := .INT, Literal := a }, atPos input (k + a.length) ind) ∧
    input.drop (k + a.length) = rest := by
  have hh := digit_head ha rest
  refine ⟨?_, drop_add_of_drop_eq_append h⟩
  rw [NextToken_atPos_here ind h (by omega) (by omega)]
  exact switchToken_INT ind h ha.1 ha.2 hrest

/-- An integer literal after one space. -/
theorem step_space_INT {input : Str} {k : Nat} (ind : Int) {a rest : Str}
    (h : input.drop k = 32 :: (a ++ rest)) (ha : IsDigits a)
    (hrest : isDigit (rest.headD 0) = false ∧ rest.headD 0 ≠ 46) :
    NextToken (atPos input k ind) =
      ({ Type_ := .INT, Literal := a }, atPos input (k + 1 + a.length) ind) ∧
    input.drop (k + 1 + a.length) = rest := by
  have hh := digit_head ha rest
  have h1 : input.drop (k + 1) = a ++ rest := drop_succ_of_drop_eq_cons h
  refine ⟨?_, drop_add_of_drop_eq_append h1⟩
  rw [NextToken_atPos_space ind h (by omega) (by omega)]
  exact switchToken_INT ind h1 ha.1 ha.2 hrest

/-- One of the arithmetic operators `+ - * /` after one space. -/
theorem step_space_operator {input : Str} {k : Nat} (ind : Int) {op : Nat} {rest : Str}
    (h : input.drop k = 32 :: op :: rest) (hop : op = 43 ∨ op = 45 ∨ op = 42 ∨ op = 47) :
    NextToken (atPos input k ind) =
      ({ Type_ := operatorType op, Literal := [op] }, atPos input (k + 2) ind) ∧
    input.drop (k + 2) = rest := by
  have h1 : input.drop (k + 1) = op :: rest := drop_succ_of_drop_eq_cons h
  have h2 : input.drop (k + 1 + 1) = rest := drop_succ_of_drop_eq_cons h1
  have hch : (atPos input (k + 1) ind).ch = op := atPos_ch h1
  refine ⟨?_, h2⟩
  rw [NextToken_atPos_space ind h (by simp; omega) (by simp; omega)]
  rcases hop with rfl | rfl | rfl | rfl <;>
    simp [switchToken, hch, newToken, stringOfByte, readChar_atPos, operatorType]

/-- The token stream of the source `a op b`. -/
theorem tokens_binary {a b : Str} {op : Nat} (ha : IsDigits a) (hb : IsDigits b)
    (hop : op = 43 ∨ op = 45 ∨ op = 42 ∨ op = 47) :
    tokens 5 (New (a ++ 32 :: op :: 32 :: b)) =
      [⟨.INT, a⟩, ⟨operatorType op, [op]⟩, ⟨.INT, b⟩, ⟨.EOF, []⟩, ⟨.EOF, []⟩] := by
  have d0 : (a ++ 32 :: op :: 32 :: b).drop 0 = a ++ 32 :: op :: 32 :: (b ++ []) := by simp
  obtain ⟨e1, d1⟩ := step_INT 0 d0 ha (by simp [isDigit])
  obtain ⟨e2, d2⟩ := step_space_operator 0 d1 hop
  obtain ⟨e3, d3⟩ := step_space_INT 0 d2 hb (by simp [isDigit])
  have hlen : (a ++ 32 :: op :: 32 :: b).length ≤ 0 + a.length + 2 + 1 + b.length := by
    simp; omega
  have e4 := NextToken_EOF 0 hlen (le_refl 0)
  have e5 := NextToken_EOF 0 (Nat.le_succ_of_le hlen) (le_refl 0)
  simp only [tokens, New_eq_atPos, e1, e2, e3, e4, e5]

end lexer

/-! ## Lemmas on decimal texts -/

namespace strconv
open lexer

theorem natDecAux_acc : ∀ (fuel n : Nat) (acc : Str), n < fuel →
    natDecAux fuel n acc = natDecAux fuel n [] ++ acc := by
  intro fuel
  induction fuel with
  | zero => intro n acc h; omega
  | succ f ih =>
    intro n acc h
    by_cases hn : n < 10
    · simp [natDecAux, hn]
    · have hlt : n / 10 < f := by omega
      simp only [natDecAux, hn, if_false]
      rw [ih (n / 10) ((48 + n % 10) :: acc) hlt, ih (n / 10) [48 + n % 10] hlt]
      simp

theorem natDecAux_fuel : ∀ (n fuel : Nat), n < fuel →
    natDecAux fuel n [] = natDecAux (n + 1) n [] := by
  intro n
  induction n using Nat.strong_induction_on with
  | _ n ih =>
    intro fuel h
    obtain ⟨f, rfl⟩ : ∃ f, fuel = f + 1 := ⟨fuel - 1, by omega⟩
    by_cases hn : n < 10
    · simp [natDecAux, hn]
    · have hlt : n / 10 < n := by omega
      simp only [natDecAux, hn, if_false]
      rw [natDecAux_acc f (n / 10) _ (by omega), natDecAux_acc n (n / 10) _ hlt,
        ih (n / 10) hlt f (by omega), ih (n / 10) hlt n hlt]

/-- The recursion equation of the decimal rendering. -/
theorem natDec_eq (n : Nat) :
    natDec n = if n < 10 then [48 + n] else natDec (n / 10) ++ [48 + n % 10] := by
  by_cases hn : n < 10
  · simp [natDec, natDecAux, hn]
  · have hlt : n / 10 < n := by omega
    rw [if_neg hn]
    have e1 : natDec n = natDecAux n (n / 10) [48 + n % 10] := by
      simp only [natDec, natDecAux, hn, if_false]
    rw [e1, natDecAux_acc n (n / 10) _ hlt, natDecAux_fuel (n / 10) n hlt]
    rfl

theorem decValue_append (s : Str) (d : Nat) :
    decValue (s ++ [d]) = decValue s * 10 + (d - 48) := by
  simp [decValue, List.foldl_append]

theorem natDec_digits (n : Nat) : IsDigits (natDec n) := by
  induction n using Nat.strong_induction_on with
  | _ n ih =>
    rw [natDec_eq]
    by_cases hn : n < 10
    · simp only [hn, if_true]
      refine ⟨by simp, ?_⟩
      intro c hc
      simp at hc
      rw [isDigit_iff]; omega
    · simp only [hn, if_false]
      have h := ih (n / 10) (by omega)
      refine ⟨by simp, ?_⟩
      intro c hc
      rw [List.mem_append] at hc
      rcases hc with hc | hc
      · exact h.2 c hc
      · simp at hc
        rw [isDigit_iff]; omega

theorem decValue_natDec (n : Nat) : decValue (natDec n) = n := by
  induction n using Nat.strong_induction_on with
  | _ n ih =>
    rw [natDec_eq]
    by_cases hn : n < 10
    · simp [hn, decValue]
    · simp only [hn, if_false]
      rw [decValue_append, ih (n / 10) (by omega)]
      omega

theorem natDec_head (n : Nat) : natDec n = [48] ∨ (natDec n).head? ≠ some 48 := by
  induction n using Nat.strong_induction_on with
  | _ n ih =>
    by_cases hn : n < 10
    · rw [natDec_eq]
      simp only [hn, if_true]
      by_cases h0 : n = 0
      · left; simp [h0]
      · right; simp; omega
    · right
      have hlt : n / 10 < n := by omega
      have hne : natDec (n / 10) ≠ [] := (natDec_digits (n / 10)).1
      rw [natDec_eq]
      simp only [hn, if_false]
      rcases ih (n / 10) hlt with h | h
      · have hv := decValue_natDec (n / 10)
        rw [h] at hv
        simp [decValue] at hv
        omega
      · obtain ⟨c, t, hct⟩ := List.exists_cons_of_ne_nil hne
        rw [hct] at h ⊢
        simpa using h

theorem parseDigits_of_digits {a : Str} (ha : IsDigits a) : parseDigits a = some (decValue a) := by
  obtain ⟨c, t, rfl⟩ := List.exists_cons_of_ne_nil ha.1
  have hall : (c :: t).all isDigit = true := by
    rw [List.all_eq_true]; exact ha.2
  simp only [parseDigits, hall, if_true, decValue]

/-- On an unsigned digit string in range, `Atoi` returns its value. -/
theorem Atoi_of_digits {a : Str} (ha : IsDigits a) (hr : decValue a < 2 ^ 63) :
    Atoi a = some (decValue a : Int) := by
  have hp := parseDigits_of_digits ha
  obtain ⟨c, t, rfl⟩ := List.exists_cons_of_ne_nil ha.1
  have hc := (isDigit_iff c).1 (ha.2 c (by simp))
  unfold Atoi
  split
  · rename_i rest heq
    injection heq with h1 _
    omega
  · rename_i rest heq
    injection heq with h1 _
    omega
  · simp only [hp, hr, if_true]

/-- `Atoi` reads back what `Itoa` writes, for every 64-bit integer. -/
theorem Atoi_Itoa (v : Int) (hlo : -2 ^ 63 ≤ v) (hhi : v < 2 ^ 63) : Atoi (Itoa v) = some v := by
  by_cases hneg : v < 0
  · have hd := natDec_digits (-v).toNat
    have hp := parseDigits_of_digits hd
    rw [decValue_natDec] at hp
    have hle : (-v).toNat ≤ 2 ^ 63 := by omega
    have hcast : -(((-v).toNat : Nat) : Int) = v := by omega
    simp only [Itoa, hneg, if_true, Atoi, hp, hle, hcast]
  · have hd := natDec_digits v.toNat
    have hr : decValue (natDec v.toNat) < 2 ^ 63 := by
      rw [decValue_natDec]; omega
    have := Atoi_of_digits hd hr
    rw [decValue_natDec] at this
    simp only [Itoa, hneg, if_false, this]
    congr 1
    omega

/-- `Itoa` writes the canonical decimal rendering. -/
theorem Itoa_canonical (v : Int) : CanonicalDecimal (Itoa v) v := by
  by_cases hneg : v < 0
  · refine ⟨natDec (-v).toNat, by simp [Itoa, hneg], natDec_digits _, ?_, natDec_head _⟩
    rw [decValue_natDec, abs_of_neg hneg]
    omega
  · refine ⟨natDec v.toNat, by simp [Itoa, hneg], natDec_digits _, ?_, natDec_head _⟩
    rw [decValue_natDec, abs_of_nonneg (by omega)]
    omega

end strconv

namespace evaluator

theorem wrap64_range (x : Int) : -2 ^ 63 ≤ wrap64 x ∧ wrap64 x < 2 ^ 63 := by
  unfold wrap64
  have h1 := Int.emod_nonneg (x + 2 ^ 63) (b := 2 ^ 64) (by norm_num)
  have h2 := Int.emod_lt_of_pos (x + 2 ^ 63) (b := 2 ^ 64) (by norm_num)
  constructor <;> omega

theorem wrap64_of_range (x : Int) (hlo : -2 ^ 63 ≤ x) (hhi : x < 2 ^ 63) : wrap64 x = x := by
  unfold wrap64
  rw [Int.emod_eq_of_lt (by omega) (by omega)]
  omega

end evaluator

/-! ## Parsing and evaluating arithmetic -/

theorem bytes_plus : bytes "+" = [43] := by decide
theorem bytes_minus : bytes "-" = [45] := by decide
theorem bytes_asterisk : bytes "*" = [42] := by decide
theorem bytes_slash : bytes "/" = [47] := by decide

namespace parser
open token lexer

/-- The parse of the token stream `INT a, op, INT b, EOF`: one expression statement
holding the infix expression. -/
theorem parse_binary (l : Lexer) (a b : Str) (opTok : Token)
    (hop : opTok.Type_ = .PLUS ∨ opTok.Type_ = .MINUS ∨ opTok.Type_ = .ASTERISK ∨
      opTok.Type_ = .SLASH)
    (h : tokens 5 l = [⟨.INT, a⟩, opTok, ⟨.INT, b⟩, ⟨.EOF, []⟩, ⟨.EOF, []⟩])
    (fuel : Nat) (hf : 7 ≤ fuel) :
    ∃ p, ParseProgram fuel (New l) = .ret ⟨[.ExpressionStatement
      (.InfixExpression (.IntegerLiteral a) opTok.Literal (.IntegerLiteral b))]⟩ p ∧
      p.errors = [] := by
  obtain ⟨n, rfl⟩ : ∃ n, fuel = n + 7 := ⟨fuel - 7, by omega⟩
  obtain ⟨l1, h1, h⟩ := tokens_succ_eq h
  obtain ⟨l2, h2, h⟩ := tokens_succ_eq h
  obtain ⟨l3, h3, h⟩ := tokens_succ_eq h
  obtain ⟨l4, h4, h⟩ := tokens_succ_eq h
  obtain ⟨l5, h5, -⟩ := tokens_succ_eq h
  obtain ⟨ot, ol⟩ := opTok
  simp only at hop
  rcases hop with rfl | rfl | rfl | rfl <;>
  simp [ParseProgram, ParseProgramLoop, New, nextToken, h1, h2, h3, h4, h5, parseStatement,
    parseExpressionStatement, parseExpression, parseExpressionLoop, parseInfixExpression,
    Run.bind, parseIntegerLiteral, peekTokenIs, peekPrecedence, curPrecedence, precedenceOf,
    LOWEST, SUM, PRODUCT]

end parser

theorem operatorType_cases {op : Nat} (hop : op = 43 ∨ op = 45 ∨ op = 42 ∨ op = 47) :
    operatorType op = .PLUS ∨ operatorType op = .MINUS ∨ operatorType op = .ASTERISK ∨
      operatorType op = .SLASH := by
  rcases hop with rfl | rfl | rfl | rfl <;> simp [operatorType]

namespace evaluator
open parser

/-- Integer infix evaluation on two texts that `Atoi` accepts, for the four arithmetic
operators, the divisor not being zero. -/
theorem evalIntegerInfixExpression_arith (op : Nat) {l r : Str} {x y : Int}
    (hl : strconv.Atoi l = some x) (hr : strconv.Atoi r = some y)
    (hop : op = 43 ∨ op = 45 ∨ op = 42 ∨ op = 47) (hdiv : op = 47 → y ≠ 0) :
    evalIntegerInfixExpression [op] l r =
      .Integer (strconv.Itoa (wrap64 (applyOperator op x y))) := by
  rcases hop with rfl | rfl | rfl | rfl
  · simp [evalIntegerInfixExpression, hl, hr, bytes_plus, applyOperator]
  · simp [evalIntegerInfixExpression, hl, hr, bytes_plus, bytes_minus, applyOperator]
  · simp [evalIntegerInfixExpression, hl, hr, bytes_plus, bytes_minus, bytes_asterisk,
      applyOperator]
  · simp [evalIntegerInfixExpression, hl, hr, bytes_plus, bytes_minus, bytes_asterisk,
      bytes_slash, applyOperator, hdiv rfl]

end evaluator

/-- C1: for non-empty decimal digit strings `a` and `b` whose values fit in a signed
64-bit integer and an operator among `+ - * /` (the value of `b` not zero for `/`),
lexing, parsing and evaluating the source `a op b` in any environment returns, without
parser errors and leaving the environment as it was, an Integer value whose text is the
canonical decimal rendering of the 64-bit result of `a op b` (wrapping on overflow,
division truncating toward zero). -/
theorem C1_integer_infix_source (a b : Str) (op : Nat) (w : evaluator.World) (fuel : Nat)
    (ha : IsDigits a) (hb : IsDigits b)
    (hra : decValue a < 2 ^ 63) (hrb : decValue b < 2 ^ 63)
    (hop : op = 43 ∨ op = 45 ∨ op = 42 ∨ op = 47) (hdiv : op = 47 → decValue b ≠ 0)
    (hfuel : 7 ≤ fuel) :
    ∃ prog p text, parser.parseSource fuel (a ++ 32 :: op :: 32 :: b) = .ret prog p ∧
      p.errors = [] ∧
      evaluator.Eval (.program prog) w = some (.Integer text, w) ∧
      CanonicalDecimal text
        (evaluator.wrap64 (applyOperator op (decValue a : Int) (decValue b : Int))) := by
  obtain ⟨p, hp, herr⟩ := parser.parse_binary _ a b ⟨operatorType op, [op]⟩
    (operatorType_cases hop) (lexer.tokens_binary ha hb hop) fuel hfuel
  refine ⟨_, p, _, hp, herr, ?_, strconv.Itoa_canonical _⟩
  have hdiv2 : op = 47 → (decValue b : Int) ≠ 0 := by
    intro h; exact_mod_cast hdiv h
  simp [evaluator.Eval, evaluator.evalProgram, evaluator.evalProgramLoop,
    evaluator.EvalStatement, evaluator.EvalExpression, evaluator.isError,
    evaluator.evalInfixExpression,
    evaluator.evalIntegerInfixExpression_arith op (strconv.Atoi_of_digits ha hra)
      (strconv.Atoi_of_digits hb hrb) hop hdiv2]

/-- C1 at the source `9223372036854775807 + 1`, whose sum wraps around. -/
theorem C1_integer_infix_source_witness :
    ∃ prog p text, parser.parseSource 7 (bytes "9223372036854775807 + 1") = .ret prog p ∧
      p.errors = [] ∧
      evaluator.Eval (.program prog) ⟨evaluator.NewEnvironment, []⟩ =
        some (.Integer text, ⟨evaluator.NewEnvironment, []⟩) ∧
      CanonicalDecimal text
        (evaluator.wrap64 (applyOperator 43 (decValue (bytes "9223372036854775807") : Int)
          (decValue (bytes "1") : Int))) :=
  C1_integer_infix_source (bytes "9223372036854775807") (bytes "1") 43
    ⟨evaluator.NewEnvironment, []⟩ 7 (by decide) (by decide) (by decide) (by decide)
    (by decide) (by decide) (by decide)

/-- C2: integer infix evaluation with operator `/` on a left text that parses as a
64-bit integer and a right text that parses to zero returns the Error "division by
zero"; and evaluating the source `a / 0`, for an in-range digit string `a`, parses
without errors and returns that Error (a value, not a panic). -/
theorem C2_division_by_zero (l r : Str) (x : Int) (a : Str) (w : evaluator.World)
    (fuel : Nat) (hl : strconv.Atoi l = some x) (hr : strconv.Atoi r = some 0)
    (ha : IsDigits a) (hra : decValue a < 2 ^ 63) (hfuel : 7 ≤ fuel) :
    evaluator.evalIntegerInfixExpression (bytes "/") l r =
        .Error (bytes "division by zero") ∧
      ∃ prog p, parser.parseSource fuel (a ++ bytes " / 0") = .ret prog p ∧
        p.errors = [] ∧
        evaluator.Eval (.program prog) w = some (.Error (bytes "division by zero"), w) := by
  have hzero : strconv.Atoi [48] = some 0 := by decide
  have key : ∀ {l r : Str} {x : Int}, strconv.Atoi l = some x → strconv.Atoi r = some 0 →
      evaluator.evalIntegerInfixExpression [47] l r = .Error (bytes "division by zero") := by
    intro l r x hl hr
    simp [evaluator.evalIntegerInfixExpression, hl, hr, bytes_plus, bytes_minus,
      bytes_asterisk, bytes_slash, evaluator.newError]
  refine ⟨by rw [bytes_slash]; exact key hl hr, ?_⟩
  obtain ⟨p, hp, herr⟩ := parser.parse_binary _ a [48] ⟨operatorType 47, [47]⟩
    (operatorType_cases (Or.inr (Or.inr (Or.inr rfl))))
    (lexer.tokens_binary ha (by decide) (Or.inr (Or.inr (Or.inr rfl)))) fuel hfuel
  refine ⟨_, p, hp, herr, ?_⟩
  simp [evaluator.Eval, evaluator.evalProgram, evaluator.evalProgramLoop,
    evaluator.EvalStatement, evaluator.EvalExpression, evaluator.isError,
    evaluator.evalInfixExpression, key (strconv.Atoi_of_digits ha hra) hzero]

/-- C2 at the operands `-7` and `00`, and at the source `12 / 0`. -/
theorem C2_division_by_zero_witness :
    evaluator.evalIntegerInfixExpression (bytes "/") (bytes "-7") (bytes "00") =
        .Error (bytes "division by zero") ∧
      ∃ prog p, parser.parseSource 7 (bytes "12" ++ bytes " / 0") = .ret prog p ∧
        p.errors = [] ∧
        evaluator.Eval (.program prog) ⟨evaluator.NewEnvironment, []⟩ =
          some (.Error (bytes "division by zero"), ⟨evaluator.NewEnvironment, []⟩) :=
  C2_division_by_zero (bytes "-7") (bytes "00") (-7) (bytes "12")
    ⟨evaluator.NewEnvironment, []⟩ 7 (by decide) (by decide) (by decide) (by decide)
    (by decide)

/-- C3 (what the code does): the source `x = y = 5` parses, without errors, to the
single assignment of `5` to `x` (the inner assignment to `y` is parsed and its target
dropped); evaluated in a fresh environment it binds `x` to Integer 5 and leaves `y`
unbound. -/
theorem C3_chained_assignment_binds_only_first :
    ∃ p w, parser.parseSource 8 (bytes "x = y = 5") =
        .ret ⟨[.AssignmentStatement ⟨bytes "x"⟩ (.IntegerLiteral (bytes "5"))]⟩ p ∧
      p.errors = [] ∧
      evaluator.Eval
          (.program ⟨[.AssignmentStatement ⟨bytes "x"⟩ (.IntegerLiteral (bytes "5"))]⟩)
          ⟨evaluator.NewEnvironment, []⟩ = some (.Integer (bytes "5"), w) ∧
      w.env.Get (bytes "x") = some (.Integer (bytes "5")) ∧
      w.env.Get (bytes "y") = none :=
  ⟨_, _, rfl, rfl, rfl, by decide, by decide⟩

/-- C4 (what the code does): on the input of `TestParseFunctionDefinition`,
`def myFunc(x, y):` followed by an indented `return x + y`, the parser records two
errors and returns three statements, none of them a function definition: the nil
function-definition pointer, an expression statement without expression, and the
return statement. -/
theorem C4_function_definition_with_parameters_fails :
    ∃ p, parser.parseSource 12 (bytes "def myFunc(x, y):\n    return x + y") =
        .ret ⟨[.FunctionDefinitionNil, .ExpressionStatement .nil,
          .ReturnStatement (.InfixExpression (.Identifier (bytes "x")) (bytes "+")
            (.Identifier (bytes "y")))]⟩ p ∧
      p.errors = [bytes "expected ')', got IDENT", bytes "unexpected token: )"] :=
  ⟨_, rfl, by decide⟩

/-- C5 (what the code does): on the conditional source of the scenario the parser
records the error "expected ':', got INT" and returns a Program without statements. -/
theorem C5_if_statement_fails :
    ∃ p, parser.parseSource 12
        (bytes "if x > 10:\n    print(\"big\")\nelse:\n    print(\"small\")") =
        .ret ⟨[]⟩ p ∧
      p.errors = [bytes "expected ':', got INT"] :=
  ⟨_, rfl, by decide⟩

namespace lexer
open token

/-- The token stream of the source `a o1 b o2 c`. -/
theorem tokens_ternary {a b c : Str} {o1 o2 : Nat} (ha : IsDigits a) (hb : IsDigits b)
    (hc : IsDigits c) (h1 : o1 = 43 ∨ o1 = 45 ∨ o1 = 42 ∨ o1 = 47)
    (h2 : o2 = 43 ∨ o2 = 45 ∨ o2 = 42 ∨ o2 = 47) :
    tokens 7 (New (a ++ 32 :: o1 :: 32 :: (b ++ 32 :: o2 :: 32 :: c))) =
      [⟨.INT, a⟩, ⟨operatorType o1, [o1]⟩, ⟨.INT, b⟩, ⟨operatorType o2, [o2]⟩, ⟨.INT, c⟩,
        ⟨.EOF, []⟩, ⟨.EOF, []⟩] := by
  have d0 : (a ++ 32 :: o1 :: 32 :: (b ++ 32 :: o2 :: 32 :: c)).drop 0 =
      a ++ 32 :: o1 :: 32 :: (b ++ 32 :: o2 :: 32 :: (c ++ [])) := by simp
  obtain ⟨e1, d1⟩ := step_INT 0 d0 ha (by simp [isDigit])
  obtain ⟨e2, d2⟩ := step_space_operator 0 d1 h1
  obtain ⟨e3, d3⟩ := step_space_INT 0 d2 hb (by simp [isDigit])
  obtain ⟨e4, d4⟩ := step_space_operator 0 d3 h2
  obtain ⟨e5, d5⟩ := step_space_INT 0 d4 hc (by simp [isDigit])
  have hlen : (a ++ 32 :: o1 :: 32 :: (b ++ 32 :: o2 :: 32 :: c)).length ≤
      0 + a.length + 2 + 1 + b.length + 2 + 1 + c.length := by
    simp; omega
  have e6 := NextToken_EOF 0 hlen (le_refl 0)
  have e7 := NextToken_EOF 0 (Nat.le_succ_of_le hlen) (le_refl 0)
  simp only [tokens, New_eq_atPos, e1, e2, e3, e4, e5, e6, e7]

end lexer

namespace parser
open token lexer

/-- The parse of `INT a, additive, INT b, multiplicative, INT c, EOF`: the
multiplicative operator takes `b` and `c`. -/
theorem parse_additive_multiplicative (l : Lexer) (a b c : Str) (t1 t2 : Token)
    (h1 : t1.Type_ = .PLUS ∨ t1.Type_ = .MINUS) (h2 : t2.Type_ = .ASTERISK ∨ t2.Type_ = .SLASH)
    (h : tokens 7 l = [⟨.INT, a⟩, t1, ⟨.INT, b⟩, t2, ⟨.INT, c⟩, ⟨.EOF, []⟩, ⟨.EOF, []⟩])
    (fuel : Nat) (hf : 10 ≤ fuel) :
    ∃ p, ParseProgram fuel (New l) = .ret ⟨[.ExpressionStatement
      (.InfixExpression (.IntegerLiteral a) t1.Literal
        (.InfixExpression (.IntegerLiteral b) t2.Literal (.IntegerLiteral c)))]⟩ p ∧
      p.errors = [] := by
  obtain ⟨n, rfl⟩ : ∃ n, fuel = n + 10 := ⟨fuel - 10, by omega⟩
  obtain ⟨s1, e1, h⟩ := tokens_succ_eq h
  obtain ⟨s2, e2, h⟩ := tokens_succ_eq h
  obtain ⟨s3, e3, h⟩ := tokens_succ_eq h
  obtain ⟨s4, e4, h⟩ := tokens_succ_eq h
  obtain ⟨s5, e5, h⟩ := tokens_succ_eq h
  obtain ⟨s6, e6, h⟩ := tokens_succ_eq h
  obtain ⟨s7, e7, -⟩ := tokens_succ_eq h
  obtain ⟨ty1, l1⟩ := t1
  obtain ⟨ty2, l2⟩ := t2
  simp only at h1 h2
  rcases h1 with rfl | rfl <;> rcases h2 with rfl | rfl <;>
  simp [ParseProgram, ParseProgramLoop, New, nextToken, e1, e2, e3, e4, e5, e6, e7,
    parseStatement, parseExpressionStatement, parseExpression, parseExpressionLoop,
    parseInfixExpression, Run.bind, parseIntegerLiteral, peekTokenIs, peekPrecedence,
    curPrecedence, precedenceOf, LOWEST, SUM, PRODUCT]

end parser

/-- C6: multiplicative operators bind tighter than additive ones. For decimal digit
strings `a`, `b`, `c`, an additive operator `add` (`+` or `-`) and a multiplicative
operator `mul` (`*` or `/`), parsing the source `a add b mul c` records no errors and
returns exactly one expression statement, whose expression is
`Infix(IntegerLiteral a, add, Infix(IntegerLiteral b, mul, IntegerLiteral c))`. -/
theorem C6_multiplicative_binds_tighter (a b c : Str) (add mul : Nat) (fuel : Nat)
    (ha : IsDigits a) (hb : IsDigits b) (hc : IsDigits c)
    (hadd : add = 43 ∨ add = 45) (hmul : mul = 42 ∨ mul = 47) (hfuel : 10 ≤ fuel) :
    ∃ p, parser.parseSource fuel (a ++ 32 :: add :: 32 :: (b ++ 32 :: mul :: 32 :: c)) =
        .ret ⟨[.ExpressionStatement
          (.InfixExpression (.IntegerLiteral a) [add]
            (.InfixExpression (.IntegerLiteral b) [mul] (.IntegerLiteral c)))]⟩ p ∧
      p.errors = [] := by
  have h1 : add = 43 ∨ add = 45 ∨ add = 42 ∨ add = 47 := by omega
  have h2 : mul = 43 ∨ mul = 45 ∨ mul = 42 ∨ mul = 47 := by omega
  exact parser.parse_additive_multiplicative _ a b c ⟨operatorType add, [add]⟩
    ⟨operatorType mul, [mul]⟩
    (by rcases hadd with rfl | rfl <;> simp [operatorType])
    (by rcases hmul with rfl | rfl <;> simp [operatorType])
    (lexer.tokens_ternary ha hb hc h1 h2) fuel hfuel

/-- C6 at the source `5 + 3 * 2` of `TestInfixExpression`. -/
theorem C6_multiplicative_binds_tighter_witness :
    ∃ p, parser.parseSource 10 (bytes "5 + 3 * 2") =
        .ret ⟨[.ExpressionStatement
          (.InfixExpression (.IntegerLiteral (bytes "5")) (bytes "+")
            (.InfixExpression (.IntegerLiteral (bytes "3")) (bytes "*")
              (.IntegerLiteral (bytes "2"))))]⟩ p ∧
      p.errors = [] :=
  C6_multiplicative_binds_tighter (bytes "5") (bytes "3") (bytes "2") 43 42 10
    (by decide) (by decide) (by decide) (by decide) (by decide) (by decide)

namespace lexer
open token

theorem punctuationType_cases {c : Nat} {ty : TokenType} (h : punctuationType c = some ty) :
    c = 61 ∨ c = 43 ∨ c = 45 ∨ c = 42 ∨ c = 47 ∨ c = 40 ∨ c = 41 ∨ c = 123 ∨ c = 125 ∨
      c = 91 ∨ c = 93 ∨ c = 44 ∨ c = 58 ∨ c = 62 := by
  unfold punctuationType at h
  by_contra hc
  simp only [not_or] at hc
  obtain ⟨h1, h2, h3, h4, h5, h6, h7, h8, h9, h10, h11, h12, h13, h14⟩ := hc
  simp [h1, h2, h3, h4, h5, h6, h7, h8, h9, h10, h11, h12, h13, h14] at h

/-- The `switch` on a punctuation byte: a one-byte token. -/
theorem switchToken_punctuation {input : Str} {k : Nat} (ind : Int) {c : Nat} {rest : Str}
    {ty : TokenType} (h : input.drop k = c :: rest) (hty : punctuationType c = some ty) :
    switchToken (atPos input k ind) = ({ Type_ := ty, Literal := [c] }, atPos input (k + 1) ind) := by
  have hch : (atPos input k ind).ch = c := atPos_ch h
  rcases punctuationType_cases hty with
    rfl | rfl | rfl | rfl | rfl | rfl | rfl | rfl | rfl | rfl | rfl | rfl | rfl | rfl <;>
  · simp only [punctuationType] at hty
    simp at hty
    subst hty
    simp [switchToken, hch, newToken, stringOfByte, readChar_atPos]

/-- A punctuation token starting at the current byte. -/
theorem step_punctuation {input : Str} {k : Nat} (ind : Int) (ty : TokenType) {c : Nat}
    {rest : Str} (h : input.drop k = c :: rest) (hty : punctuationType c = some ty) :
    NextToken (atPos input k ind) = ({ Type_ := ty, Literal := [c] }, atPos input (k + 1) ind) ∧
    input.drop (k + 1) = rest := by
  refine ⟨?_, drop_succ_of_drop_eq_cons h⟩
  have hc := punctuationType_cases hty
  rw [NextToken_atPos_here ind h (by simp; omega) (by simp; omega)]
  exact switchToken_punctuation ind h hty

/-- A punctuation token after one space. -/
theorem step_space_punctuation {input : Str} {k : Nat} (ind : Int) (ty : TokenType) {c : Nat}
    {rest : Str} (h : input.drop k = 32 :: c :: rest) (hty : punctuationType c = some ty) :
    NextToken (atPos input k ind) = ({ Type_ := ty, Literal := [c] }, atPos input (k + 2) ind) ∧
    input.drop (k + 2) = rest := by
  have h1 : input.drop (k + 1) = c :: rest := drop_succ_of_drop_eq_cons h
  refine ⟨?_, drop_succ_of_drop_eq_cons h1⟩
  have hc := punctuationType_cases hty
  rw [NextToken_atPos_space ind h (by simp; omega) (by simp; omega)]
  exact switchToken_punctuation ind h1 hty

/-- The token stream of the source `(a + b) * c`. -/
theorem tokens_grouped {a b c : Str} (ha : IsDigits a) (hb : IsDigits b) (hc : IsDigits c) :
    tokens 9 (New (40 :: (a ++ 32 :: 43 :: 32 :: (b ++ 41 :: 32 :: 42 :: 32 :: c)))) =
      [⟨.LPAREN, [40]⟩, ⟨.INT, a⟩, ⟨.PLUS, [43]⟩, ⟨.INT, b⟩, ⟨.RPAREN, [41]⟩,
        ⟨.ASTERISK, [42]⟩, ⟨.INT, c⟩, ⟨.EOF, []⟩, ⟨.EOF, []⟩] := by
  have d0 : (40 :: (a ++ 32 :: 43 :: 32 :: (b ++ 41 :: 32 :: 42 :: 32 :: c))).drop 0 =
      40 :: (a ++ 32 :: 43 :: 32 :: (b ++ 41 :: 32 :: 42 :: 32 :: (c ++ []))) := by simp
  obtain ⟨e1, d1⟩ := step_punctuation 0 .LPAREN d0 (by decide)
  obtain ⟨e2, d2⟩ := step_INT 0 d1 ha (by simp [isDigit])
  obtain ⟨e3, d3⟩ := step_space_punctuation 0 .PLUS d2 (by decide)
  obtain ⟨e4, d4⟩ := step_space_INT 0 d3 hb (by simp [isDigit])
  obtain ⟨e5, d5⟩ := step_punctuation 0 .RPAREN d4 (by decide)
  obtain ⟨e6, d6⟩ := step_space_punctuation 0 .ASTERISK d5 (by decide)
  obtain ⟨e7, d7⟩ := step_space_INT 0 d6 hc (by simp [isDigit])
  have hlen : (40 :: (a ++ 32 :: 43 :: 32 :: (b ++ 41 :: 32 :: 42 :: 32 :: c))).length ≤
      0 + 1 + a.length + 2 + 1 + b.length + 1 + 2 + 1 + c.length := by
    simp; omega
  have e8 := NextToken_EOF 0 hlen (le_refl 0)
  have e9 := NextToken_EOF 0 (Nat.le_succ_of_le hlen) (le_refl 0)
  simp only [tokens, New_eq_atPos, e1, e2, e3, e4, e5, e6, e7, e8, e9]

end lexer

namespace parser
open token lexer

/-- The parse of `( INT a + INT b ) * INT c EOF`: the parenthesised sum is the left
operand of the product. -/
theorem parse_grouped (l : Lexer) (a b c : Str)
    (h : tokens 9 l = [⟨.LPAREN, [40]⟩, ⟨.INT, a⟩, ⟨.PLUS, [43]⟩, ⟨.INT, b⟩, ⟨.RPAREN, [41]⟩,
        ⟨.ASTERISK, [42]⟩, ⟨.INT, c⟩, ⟨.EOF, []⟩, ⟨.EOF, []⟩])
    (fuel : Nat) (hf : 12 ≤ fuel) :
    ∃ p, ParseProgram fuel (New l) = .ret ⟨[.ExpressionStatement
      (.InfixExpression (.InfixExpression (.IntegerLiteral a) [43] (.IntegerLiteral b)) [42]
        (.IntegerLiteral c))]⟩ p ∧
      p.errors = [] := by
  obtain ⟨n, rfl⟩ : ∃ n, fuel = n + 12 := ⟨fuel - 12, by omega⟩
  obtain ⟨s1, e1, h⟩ := tokens_succ_eq h
  obtain ⟨s2, e2, h⟩ := tokens_succ_eq h
  obtain ⟨s3, e3, h⟩ := tokens_succ_eq h
  obtain ⟨s4, e4, h⟩ := tokens_succ_eq h
  obtain ⟨s5, e5, h⟩ := tokens_succ_eq h
  obtain ⟨s6, e6, h⟩ := tokens_succ_eq h
  obtain ⟨s7, e7, h⟩ := tokens_succ_eq h
  obtain ⟨s8, e8, h⟩ := tokens_succ_eq h
  obtain ⟨s9, e9, -⟩ := tokens_succ_eq h
  simp [ParseProgram, ParseProgramLoop, New, nextToken, e1, e2, e3, e4, e5, e6, e7, e8, e9,
    parseStatement, parseExpressionStatement, parseExpression, parseExpressionLoop,
    parseInfixExpression, parseGroupedExpression, expectPeek, Run.bind, parseIntegerLiteral,
    peekTokenIs, peekPrecedence, curPrecedence, precedenceOf, LOWEST, SUM, PRODUCT]

end parser

namespace evaluator

/-- Wrapping an intermediate result does not change the wrapped product. -/
theorem wrap64_mul_left (x y : Int) : wrap64 (wrap64 x * y) = wrap64 (x * y) := by
  have h : wrap64 x = x - 2 ^ 64 * ((x + 2 ^ 63) / 2 ^ 64) := by
    unfold wrap64
    rw [Int.emod_def]
    ring
  have e : wrap64 x * y + 2 ^ 63 =
      (x * y + 2 ^ 63) + 2 ^ 64 * (-(((x + 2 ^ 63) / 2 ^ 64) * y)) := by
    rw [h]; ring
  unfold wrap64 at e ⊢
  rw [e, Int.add_mul_emod_self_left]

end evaluator

/-- C7: parentheses override precedence. For decimal digit strings `a`, `b`, `c`,
parsing the source `(a + b) * c` records no errors and returns exactly one expression
statement, whose expression is
`Infix(Infix(IntegerLiteral a, "+", IntegerLiteral b), "*", IntegerLiteral c)`; and when
the three values are in the 64-bit range, evaluating that program in any environment
returns the Integer whose text is the canonical decimal rendering of `(a + b) * c`
as a 64-bit integer (the product itself when it is in range). -/
theorem C7_parentheses_override (a b c : Str) (w : evaluator.World) (fuel : Nat)
    (ha : IsDigits a) (hb : IsDigits b) (hc : IsDigits c) (hfuel : 12 ≤ fuel) :
    ∃ p, parser.parseSource fuel
          (40 :: (a ++ 32 :: 43 :: 32 :: (b ++ 41 :: 32 :: 42 :: 32 :: c))) =
        .ret ⟨[.ExpressionStatement
          (.InfixExpression (.InfixExpression (.IntegerLiteral a) [43] (.IntegerLiteral b))
            [42] (.IntegerLiteral c))]⟩ p ∧
      p.errors = [] ∧
      (decValue a < 2 ^ 63 → decValue b < 2 ^ 63 → decValue c < 2 ^ 63 →
        ∃ text, evaluator.Eval (.program ⟨[.ExpressionStatement
            (.InfixExpression (.InfixExpression (.IntegerLiteral a) [43] (.IntegerLiteral b))
              [42] (.IntegerLiteral c))]⟩) w = some (.Integer text, w) ∧
          CanonicalDecimal text
            (evaluator.wrap64 (((decValue a : Int) + decValue b) * decValue c)) ∧
          (((decValue a : Int) + decValue b) * decValue c < 2 ^ 63 →
            CanonicalDecimal text (((decValue a : Int) + decValue b) * decValue c))) := by
  obtain ⟨p, hp, herr⟩ := parser.parse_grouped _ a b c (lexer.tokens_grouped ha hb hc)
    fuel hfuel
  refine ⟨p, hp, herr, ?_⟩
  intro hra hrb hrc
  have hsum : evaluator.evalIntegerInfixExpression [43] a b =
      .Integer (strconv.Itoa (evaluator.wrap64 ((decValue a : Int) + decValue b))) := by
    have := evaluator.evalIntegerInfixExpression_arith 43
      (strconv.Atoi_of_digits ha hra) (strconv.Atoi_of_digits hb hrb) (Or.inl rfl) (by simp)
    simpa [applyOperator] using this
  have hback := strconv.Atoi_Itoa _
    (evaluator.wrap64_range ((decValue a : Int) + decValue b)).1
    (evaluator.wrap64_range ((decValue a : Int) + decValue b)).2
  have hprod : evaluator.evalIntegerInfixExpression [42]
      (strconv.Itoa (evaluator.wrap64 ((decValue a : Int) + decValue b))) c =
      .Integer (strconv.Itoa
        (evaluator.wrap64 (((decValue a : Int) + decValue b) * decValue c))) := by
    have := evaluator.evalIntegerInfixExpression_arith 42 hback
      (strconv.Atoi_of_digits hc hrc) (Or.inr (Or.inr (Or.inl rfl))) (by simp)
    simpa [applyOperator, evaluator.wrap64_mul_left] using this
  refine ⟨_, ?_, strconv.Itoa_canonical _, ?_⟩
  · simp [evaluator.Eval, evaluator.evalProgram, evaluator.evalProgramLoop,
      evaluator.EvalStatement, evaluator.EvalExpression, evaluator.isError,
      evaluator.evalInfixExpression, hsum, hprod]
  · intro hlt
    have hnn : (0 : Int) ≤ ((decValue a : Int) + decValue b) * decValue c := by positivity
    have hw := evaluator.wrap64_of_range _ (le_trans (by norm_num) hnn) hlt
    rw [hw]
    exact strconv.Itoa_canonical _

/-- C7 at the source `(5 + 3) * 2` of `TestGroupedExpression`, which evaluates to 16. -/
theorem C7_parentheses_override_witness :
    ∃ p, parser.parseSource 12 (bytes "(5 + 3) * 2") =
        .ret ⟨[.ExpressionStatement
          (.InfixExpression
            (.InfixExpression (.IntegerLiteral (bytes "5")) (bytes "+")
              (.IntegerLiteral (bytes "3")))
            (bytes "*") (.IntegerLiteral (bytes "2")))]⟩ p ∧
      p.errors = [] ∧
      evaluator.Eval (.program ⟨[.ExpressionStatement
          (.InfixExpression
            (.InfixExpression (.IntegerLiteral (bytes "5")) (bytes "+")
              (.IntegerLiteral (bytes "3")))
            (bytes "*") (.IntegerLiteral (bytes "2")))]⟩) ⟨evaluator.NewEnvironment, []⟩ =
        some (.Integer (bytes "16"), ⟨evaluator.NewEnvironment, []⟩) := by
  obtain ⟨p, hp, herr, -⟩ := C7_parentheses_override (bytes "5") (bytes "3") (bytes "2")
    ⟨evaluator.NewEnvironment, []⟩ 12 (by decide) (by decide) (by decide) (by decide)
  exact ⟨p, hp, herr, rfl⟩

namespace lexer
open token

/-- A double-quoted string literal starting at the current byte. -/
theorem step_STRING {input : Str} {k : Nat} (ind : Int) {s rest : Str}
    (h : input.drop k = 34 :: (s ++ 34 :: rest)) (hs : ∀ c ∈ s, c ≠ 34 ∧ c ≠ 0) :
    NextToken (atPos input k ind) =
      ({ Type_ := .STRING, Literal := s }, atPos input (k + s.length + 2) ind) ∧
    input.drop (k + s.length + 2) = rest := by
  have h1 : input.drop (k + 1) = s ++ 34 :: rest := drop_succ_of_drop_eq_cons h
  have h2 : input.drop (k + 1 + s.length) = 34 :: rest := drop_add_of_drop_eq_append h1
  have h3 : input.drop (k + 1 + s.length + 1) = rest := drop_succ_of_drop_eq_cons h2
  have e : k + 1 + s.length + 1 = k + s.length + 2 := by omega
  refine ⟨?_, e ▸ h3⟩
  rw [NextToken_atPos_here ind h (by simp) (by simp)]
  exact switchToken_STRING ind h hs

/-- A double-quoted string literal after one space. -/
theorem step_space_STRING {input : Str} {k : Nat} (ind : Int) {s rest : Str}
    (h : input.drop k = 32 :: 34 :: (s ++ 34 :: rest)) (hs : ∀ c ∈ s, c ≠ 34 ∧ c ≠ 0) :
    NextToken (atPos input k ind) =
      ({ Type_ := .STRING, Literal := s }, atPos input (k + 1 + s.length + 2) ind) ∧
    input.drop (k + 1 + s.length + 2) = rest := by
  have h0 : input.drop (k + 1) = 34 :: (s ++ 34 :: rest) := drop_succ_of_drop_eq_cons h
  have h1 : input.drop (k + 1 + 1) = s ++ 34 :: rest := drop_succ_of_drop_eq_cons h0
  have h2 : input.drop (k + 1 + 1 + s.length) = 34 :: rest := drop_add_of_drop_eq_append h1
  have h3 : input.drop (k + 1 + 1 + s.length + 1) = rest := drop_succ_of_drop_eq_cons h2
  have e : k + 1 + 1 + s.length + 1 = k + 1 + s.length + 2 := by omega
  refine ⟨?_, e ▸ h3⟩
  rw [NextToken_atPos_space ind h (by simp) (by simp)]
  exact switchToken_STRING ind h0 hs

/-- The token stream of the source `"s1" + "s2" + "s3"`. -/
theorem tokens_three_strings {s1 s2 s3 : Str} (h1 : ∀ c ∈ s1, c ≠ 34 ∧ c ≠ 0)
    (h2 : ∀ c ∈ s2, c ≠ 34 ∧ c ≠ 0) (h3 : ∀ c ∈ s3, c ≠ 34 ∧ c ≠ 0) :
    tokens 7 (New (34 :: (s1 ++ 34 :: 32 :: 43 :: 32 :: 34 ::
        (s2 ++ 34 :: 32 :: 43 :: 32 :: 34 :: (s3 ++ [34]))))) =
      [⟨.STRING, s1⟩, ⟨.PLUS, [43]⟩, ⟨.STRING, s2⟩, ⟨.PLUS, [43]⟩, ⟨.STRING, s3⟩,
        ⟨.EOF, []⟩, ⟨.EOF, []⟩] := by
  have d0 : (34 :: (s1 ++ 34 :: 32 :: 43 :: 32 :: 34 ::
        (s2 ++ 34 :: 32 :: 43 :: 32 :: 34 :: (s3 ++ [34])))).drop 0 =
      34 :: (s1 ++ 34 :: 32 :: 43 :: 32 :: 34 ::
        (s2 ++ 34 :: 32 :: 43 :: 32 :: 34 :: (s3 ++ [34]))) := by simp
  obtain ⟨e1, d1⟩ := step_STRING 0 d0 h1
  obtain ⟨e2, d2⟩ := step_space_punctuation 0 .PLUS d1 (by decide)
  obtain ⟨e3, d3⟩ := step_space_STRING 0 d2 h2
  obtain ⟨e4, d4⟩ := step_space_punctuation 0 .PLUS d3 (by decide)
  obtain ⟨e5, d5⟩ := step_space_STRING 0 d4 h3
  have hlen : (34 :: (s1 ++ 34 :: 32 :: 43 :: 32 :: 34 ::
        (s2 ++ 34 :: 32 :: 43 :: 32 :: 34 :: (s3 ++ [34])))).length ≤
      0 + s1.length + 2 + 2 + 1 + s2.length + 2 + 2 + 1 + s3.length + 2 := by
    simp; omega
  have e6 := NextToken_EOF 0 hlen (le_refl 0)
  have e7 := NextToken_EOF 0 (Nat.le_succ_of_le hlen) (le_refl 0)
  simp only [tokens, New_eq_atPos, e1, e2, e3, e4, e5, e6, e7]

end lexer

namespace parser
open token lexer

/-- The parse of `STRING s1 + STRING s2 + STRING s3 EOF`: the sum associates to the
left. -/
theorem parse_three_strings (l : Lexer) (s1 s2 s3 : Str)
    (h : tokens 7 l = [⟨.STRING, s1⟩, ⟨.PLUS, [43]⟩, ⟨.STRING, s2⟩, ⟨.PLUS, [43]⟩,
        ⟨.STRING, s3⟩, ⟨.EOF, []⟩, ⟨.EOF, []⟩])
    (fuel : Nat) (hf : 8 ≤ fuel) :
    ∃ p, ParseProgram fuel (New l) = .ret ⟨[.ExpressionStatement
      (.InfixExpression (.InfixExpression (.StringLiteral s1) [43] (.StringLiteral s2)) [43]
        (.StringLiteral s3))]⟩ p ∧
      p.errors = [] := by
  obtain ⟨n, rfl⟩ : ∃ n, fuel = n + 8 := ⟨fuel - 8, by omega⟩
  obtain ⟨t1, e1, h⟩ := tokens_succ_eq h
  obtain ⟨t2, e2, h⟩ := tokens_succ_eq h
  obtain ⟨t3, e3, h⟩ := tokens_succ_eq h
  obtain ⟨t4, e4, h⟩ := tokens_succ_eq h
  obtain ⟨t5, e5, h⟩ := tokens_succ_eq h
  obtain ⟨t6, e6, h⟩ := tokens_succ_eq h
  obtain ⟨t7, e7, -⟩ := tokens_succ_eq h
  simp [ParseProgram, ParseProgramLoop, New, nextToken, e1, e2, e3, e4, e5, e6, e7,
    parseStatement, parseExpressionStatement, parseExpression, parseExpressionLoop,
    parseInfixExpression, Run.bind, parseStringLiteral, peekTokenIs, peekPrecedence,
    curPrecedence, precedenceOf, LOWEST, SUM, PRODUCT]

end parser

/-- C8: for strings `s1`, `s2`, `s3` without double quote and without NUL byte, lexing,
parsing and evaluating the source `"s1" + "s2" + "s3"` records no parser errors and
returns the String value whose text is the concatenation `s1 ++ s2 ++ s3`. -/
theorem C8_string_concatenation (s1 s2 s3 : Str) (w : evaluator.World) (fuel : Nat)
    (h1 : ∀ c ∈ s1, c ≠ 34 ∧ c ≠ 0) (h2 : ∀ c ∈ s2, c ≠ 34 ∧ c ≠ 0)
    (h3 : ∀ c ∈ s3, c ≠ 34 ∧ c ≠ 0) (hfuel : 8 ≤ fuel) :
    ∃ prog p, parser.parseSource fuel (34 :: (s1 ++ 34 :: 32 :: 43 :: 32 :: 34 ::
          (s2 ++ 34 :: 32 :: 43 :: 32 :: 34 :: (s3 ++ [34])))) = .ret prog p ∧
      p.errors = [] ∧
      evaluator.Eval (.program prog) w = some (.String (s1 ++ s2 ++ s3), w) := by
  obtain ⟨p, hp, herr⟩ := parser.parse_three_strings _ s1 s2 s3
    (lexer.tokens_three_strings h1 h2 h3) fuel hfuel
  refine ⟨_, p, hp, herr, ?_⟩
  simp [evaluator.Eval, evaluator.evalProgram, evaluator.evalProgramLoop,
    evaluator.EvalStatement, evaluator.EvalExpression, evaluator.isError,
    evaluator.evalInfixExpression, evaluator.evalStringInfixExpression, bytes_plus]

/-- C8 at the source `"a" + "b" + "c"`. -/
theorem C8_string_concatenation_witness :
    ∃ prog p, parser.parseSource 8 (bytes "\"a\" + \"b\" + \"c\"") = .ret prog p ∧
      p.errors = [] ∧
      evaluator.Eval (.program prog) ⟨evaluator.NewEnvironment, []⟩ =
        some (.String (bytes "a" ++ bytes "b" ++ bytes "c"), ⟨evaluator.NewEnvironment, []⟩) :=
  C8_string_concatenation (bytes "a") (bytes "b") (bytes "c") ⟨evaluator.NewEnvironment, []⟩ 8
    (by decide) (by decide) (by decide) (by decide)

/-! ## Indentation -/

namespace lexer
open token

/-- The loop of `handleIndentation` over a run of blanks: it stops right after the run,
having added its width. -/
theorem indentLoop_block (input : Str) (ind : Int) (rest : Str)
    (hrest : rest.headD 0 ≠ 32 ∧ rest.headD 0 ≠ 9) :
    ∀ (sp : Str) (k fuel : Nat) (acc : Int), input.drop k = sp ++ rest →
      (∀ c ∈ sp, c = 32 ∨ c = 9) → sp.length < fuel →
      indentLoop fuel (atPos input k ind) acc =
        (atPos input (k + sp.length) ind, acc + indentWidth sp) := by
  intro sp
  induction sp with
  | nil =>
    intro k fuel acc hd _ hf
    obtain ⟨f, rfl⟩ : ∃ f, fuel = f + 1 := ⟨fuel - 1, by simp at hf; omega⟩
    have hch : (atPos input k ind).ch = rest.headD 0 := by
      show input.getD k 0 = rest.headD 0
      rw [getD_eq_headD_drop, hd]; rfl
    have hno : ¬ (rest.headD 0 = 32 ∨ rest.headD 0 = 9) := by
      rintro (h1 | h1)
      · exact hrest.1 h1
      · exact hrest.2 h1
    simp only [indentLoop, hch, hno, if_false]
    simp [indentWidth]
  | cons c t ih =>
    intro k fuel acc hd hall hf
    obtain ⟨f, rfl⟩ : ∃ f, fuel = f + 1 := ⟨fuel - 1, by simp at hf; omega⟩
    have hch : (atPos input k ind).ch = c := atPos_ch (t := t ++ rest) (by simpa using hd)
    have hd2 : input.drop (k + 1) = t ++ rest :=
      drop_succ_of_drop_eq_cons (c := c) (by simpa using hd)
    have hc : c = 32 ∨ c = 9 := hall c (by simp)
    simp only [indentLoop, hch, hc, if_true, readChar_atPos]
    rw [ih (k + 1) f _ hd2 (fun x hx => hall x (by simp [hx])) (by simp at hf; omega)]
    have e : k + 1 + t.length = k + (c :: t).length := by simp; omega
    rw [e]
    rcases hc with rfl | rfl <;> simp [indentWidth, add_assoc]

/-- `NextToken` on a newline: it measures the blanks that follow and returns INDENT
when the width exceeds the current indentation (which becomes that width), DEDENT when
it is smaller (the indentation is lowered by 4), and otherwise goes on to the token
after the blanks. -/
theorem NextToken_newline {input : Str} {k : Nat} (ind : Int) {sp rest : Str}
    (h : input.drop k = 10 :: (sp ++ rest)) (hsp : ∀ c ∈ sp, c = 32 ∨ c = 9)
    (hrest : rest.headD 0 ≠ 32 ∧ rest.headD 0 ≠ 9) :
    NextToken (atPos input k ind) =
      if indentWidth sp > ind then
        ({ Type_ := .INDENT, Literal := [] }, atPos input (k + 1 + sp.length) (indentWidth sp))
      else if indentWidth sp < ind then
        ({ Type_ := .DEDENT, Literal := [] }, atPos input (k + 1 + sp.length) (ind - 4))
      else switchToken (atPos input (k + 1 + sp.length) ind) := by
  have hch : (atPos input k ind).ch = 10 := atPos_ch h
  have h1 : input.drop (k + 1) = sp ++ rest := drop_succ_of_drop_eq_cons h
  have h2 : input.drop (k + 1 + sp.length) = [] ++ rest := by
    simpa using drop_add_of_drop_eq_append h1
  have hloop := indentLoop_block input ind rest hrest sp (k + 1)
    (loopFuel (atPos input (k + 1) ind)) 0 h1 hsp (block_length_lt_loopFuel ind h1)
  have hskip := @skipWhitespace_atPos input (k + 1 + sp.length) ind [] rest h2 (by simp) hrest
  simp only [NextToken, hch, if_true, readChar_atPos, handleIndentation, hloop, zero_add]
  by_cases hgt : indentWidth sp > ind
  · have hgt2 : indentWidth sp > (atPos input (k + 1 + sp.length) ind).currentIndent := hgt
    simp [hgt, hgt2, atPos]
  · by_cases hlt : indentWidth sp < ind
    · have hgt2 : ¬ indentWidth sp > (atPos input (k + 1 + sp.length) ind).currentIndent := hgt
      have hlt2 : indentWidth sp < (atPos input (k + 1 + sp.length) ind).currentIndent := hlt
      simp only [hgt, hgt2, hlt, hlt2, if_true, if_false]
      simp [atPos]
    · have hgt2 : ¬ indentWidth sp > (atPos input (k + 1 + sp.length) ind).currentIndent := hgt
      have hlt2 : ¬ indentWidth sp < (atPos input (k + 1 + sp.length) ind).currentIndent := hlt
      simp only [hgt, hgt2, hlt, hlt2, if_false]
      simp only [ne_eq, not_true_eq_false, if_false]
      rw [hskip]
      simp

/-- An identifier starting at the current byte. -/
theorem step_IDENT {input : Str} {k : Nat} (ind : Int) {x rest : Str}
    (h : input.drop k = x ++ rest) (hx : IsIdentifier x)
    (hrest : isLetter (rest.headD 0) = false) :
    NextToken (atPos input k ind) =
      ({ Type_ := .IDENT, Literal := x }, atPos input (k + x.length) ind) ∧
    input.drop (k + x.length) = rest := by
  refine ⟨?_, drop_add_of_drop_eq_append h⟩
  obtain ⟨c, t, rfl⟩ := List.exists_cons_of_ne_nil hx.1
  have hc := (isLetter_iff c).1 (hx.2.1 c (by simp))
  have hhead : ((c :: t) ++ rest).headD 0 = c := rfl
  rw [NextToken_atPos_here ind h (by rw [hhead]; omega) (by rw [hhead]; omega)]
  rw [switchToken_letters ind h (by simp) hx.2.1 hrest]
  simp [LookupIdent, hx.2.2]

end lexer

namespace lexer
open token

theorem skipWhitespace_AtEnd {l : Lexer} (h : AtEnd l) : skipWhitespace l = l := by
  simp [skipWhitespace, loopFuel, readWhile, h.1]

theorem switchToken_AtEnd {l : Lexer} (h : AtEnd l) :
    switchToken l = if l.currentIndent > 0 then handleEOF l
      else ({ Type_ := .EOF, Literal := [] }, readChar l) := by
  simp [switchToken, h.1]

/-- With all input consumed and a positive indentation, `NextToken` returns DEDENT and
lowers the indentation by 4. -/
theorem NextToken_AtEnd_pos {l : Lexer} (h : AtEnd l) (hpos : 0 < l.currentIndent) :
    NextToken l =
      ({ Type_ := .DEDENT, Literal := [] }, { l with currentIndent := l.currentIndent - 4 }) := by
  have hch : l.ch ≠ 10 := by rw [h.1]; decide
  simp only [NextToken, hch, if_false, skipWhitespace_AtEnd h, switchToken_AtEnd h]
  simp [handleEOF, hpos]

/-- With all input consumed and no positive indentation, `NextToken` returns EOF and
the lexer stays at the end with the same indentation. -/
theorem NextToken_AtEnd_nonpos {l : Lexer} (h : AtEnd l) (hle : l.currentIndent ≤ 0) :
    NextToken l = ({ Type_ := .EOF, Literal := [] }, readChar l) ∧ AtEnd (readChar l) ∧
      (readChar l).currentIndent = l.currentIndent := by
  have hch : l.ch ≠ 10 := by rw [h.1]; decide
  have hnot : ¬ l.currentIndent > 0 := by omega
  refine ⟨?_, ⟨?_, ?_⟩, rfl⟩
  · simp only [NextToken, hch, if_false, skipWhitespace_AtEnd h, switchToken_AtEnd h]
    simp [hnot]
  · show (if l.readPosition ≥ l.input.length then 0 else l.input.getD l.readPosition 0) = 0
    rw [if_pos h.2]
  · show l.input.length ≤ l.readPosition + 1
    have := h.2
    omega

/-- Once EOF is reached it is returned forever. -/
theorem tokens_AtEnd_nonpos : ∀ (m : Nat) (l : Lexer), AtEnd l → l.currentIndent ≤ 0 →
    tokens m l = List.replicate m { Type_ := .EOF, Literal := [] } := by
  intro m
  induction m with
  | zero => intro l _ _; rfl
  | succ m ih =>
    intro l h hle
    obtain ⟨e, h2, hci⟩ := NextToken_AtEnd_nonpos h hle
    simp only [tokens, e, List.replicate_succ]
    rw [ih (readChar l) h2 (by rw [hci]; exact hle)]

/-- The pending DEDENT tokens, then EOF forever. -/
theorem tokens_AtEnd : ∀ (k : Nat) (l : Lexer), AtEnd l →
    ((l.currentIndent + 3) / 4).toNat = k → ∀ m : Nat,
    tokens (k + m) l = List.replicate k { Type_ := .DEDENT, Literal := [] } ++
      List.replicate m { Type_ := .EOF, Literal := [] } := by
  intro k
  induction k with
  | zero =>
    intro l h hk m
    have hle : l.currentIndent ≤ 0 := by omega
    simpa using tokens_AtEnd_nonpos m l h hle
  | succ k ih =>
    intro l h hk m
    have hpos : 0 < l.currentIndent := by omega
    have e := NextToken_AtEnd_pos h hpos
    have h2 : AtEnd { l with currentIndent := l.currentIndent - 4 } := h
    have hk2 : (((({ l with currentIndent := l.currentIndent - 4 } : Lexer).currentIndent + 3) / 4).toNat) = k := by
      show ((l.currentIndent - 4 + 3) / 4).toNat = k
      omega
    have e2 : k + 1 + m = (k + m) + 1 := by omega
    rw [e2]
    simp only [tokens, e, List.replicate_succ, List.cons_append]
    rw [ih _ h2 hk2 m]

theorem atPos_AtEnd {input : Str} {k : Nat} (ind : Int) (hk : input.length ≤ k) :
    AtEnd (atPos input k ind) := by
  refine ⟨atPos_ch_end (List.drop_eq_nil_of_le hk), ?_⟩
  show input.length ≤ k + 1
  omega

theorem tokens_add (n m : Nat) : ∀ l : Lexer, tokens (n + m) l = tokens n l ++ tokens m (after n l) := by
  induction n with
  | zero => intro l; simp [tokens, after]
  | succ n ih =>
    intro l
    have e : n + 1 + m = (n + m) + 1 := by omega
    rw [e]
    simp only [tokens, after, ih, List.cons_append]

/-- The token stream of the three-line source `A`, newline, four spaces and `B`,
newline, `C`, with the lexer state it ends in. -/
theorem tokens_indented_block {A B C : Str} (hA : IsIdentifier A) (hB : IsIdentifier B)
    (hC : IsIdentifier C) :
    tokens 5 (New (A ++ 10 :: 32 :: 32 :: 32 :: 32 :: (B ++ 10 :: C))) =
      [⟨.IDENT, A⟩, ⟨.INDENT, []⟩, ⟨.IDENT, B⟩, ⟨.DEDENT, []⟩, ⟨.IDENT, C⟩] ∧
    ∃ k, (A ++ 10 :: 32 :: 32 :: 32 :: 32 :: (B ++ 10 :: C)).length ≤ k ∧
      after 5 (New (A ++ 10 :: 32 :: 32 :: 32 :: 32 :: (B ++ 10 :: C))) =
        atPos (A ++ 10 :: 32 :: 32 :: 32 :: 32 :: (B ++ 10 :: C)) k 0 := by
  have d0 : (A ++ 10 :: 32 :: 32 :: 32 :: 32 :: (B ++ 10 :: C)).drop 0 =
      A ++ 10 :: ([32, 32, 32, 32] ++ (B ++ 10 :: ([] ++ (C ++ [])))) := by simp
  obtain ⟨e1, d1⟩ := step_IDENT 0 d0 hA rfl
  have hBh : ∀ r : Str, (B ++ r).headD 0 ≠ 32 ∧ (B ++ r).headD 0 ≠ 9 := by
    intro r
    obtain ⟨c, t, rfl⟩ := List.exists_cons_of_ne_nil hB.1
    have hc := (isLetter_iff c).1 (hB.2.1 c (by simp))
    show c ≠ 32 ∧ c ≠ 9
    omega
  have hCh : ∀ r : Str, (C ++ r).headD 0 ≠ 32 ∧ (C ++ r).headD 0 ≠ 9 := by
    intro r
    obtain ⟨c, t, rfl⟩ := List.exists_cons_of_ne_nil hC.1
    have hc := (isLetter_iff c).1 (hC.2.1 c (by simp))
    show c ≠ 32 ∧ c ≠ 9
    omega
  have e2 := NextToken_newline 0 d1 (by simp) (hBh _)
  have d2 := drop_add_of_drop_eq_append (drop_succ_of_drop_eq_cons d1)
  rw [if_pos (by decide)] at e2
  obtain ⟨e3, d3⟩ := step_IDENT (indentWidth [32, 32, 32, 32]) d2 hB rfl
  have e4 := NextToken_newline (indentWidth [32, 32, 32, 32]) d3 (by simp) (hCh _)
  have d4 := drop_add_of_drop_eq_append (drop_succ_of_drop_eq_cons d3)
  rw [if_neg (by decide), if_pos (by decide)] at e4
  obtain ⟨e5, d5⟩ := step_IDENT (indentWidth [32, 32, 32, 32] - 4) d4 hC rfl
  have hz : indentWidth [32, 32, 32, 32] - 4 = 0 := by decide
  rw [hz] at e4 e5
  refine ⟨by simp only [tokens, New_eq_atPos, e1, e2, e3, e4, e5],
    0 + A.length + 1 + [32, 32, 32, 32].length + B.length + 1 + ([] : Str).length + C.length,
    ?_, ?_⟩
  · simp; omega
  · simp only [after, New_eq_atPos, e1, e2, e3, e4, e5]

end lexer

/-- C9: for identifiers `A`, `B`, `C`, tokenizing the three-line source `A`, newline,
four spaces and `B`, newline, `C` yields exactly IDENT A, INDENT, IDENT B, DEDENT,
IDENT C and then EOF (on every further call): one INDENT at the transition to the
indented line and one DEDENT at the return to indentation 0. -/
theorem C9_indent_dedent_tokens (A B C : Str) (m : Nat) (hA : IsIdentifier A)
    (hB : IsIdentifier B) (hC : IsIdentifier C) :
    lexer.tokens (5 + m) (lexer.New (A ++ 10 :: 32 :: 32 :: 32 :: 32 :: (B ++ 10 :: C))) =
      [⟨.IDENT, A⟩, ⟨.INDENT, []⟩, ⟨.IDENT, B⟩, ⟨.DEDENT, []⟩, ⟨.IDENT, C⟩] ++
        List.replicate m ⟨.EOF, []⟩ := by
  obtain ⟨h5, k, hk, hafter⟩ := lexer.tokens_indented_block hA hB hC
  rw [lexer.tokens_add, h5, hafter,
    lexer.tokens_AtEnd_nonpos m _ (lexer.atPos_AtEnd 0 hk) (le_refl _)]

/-- C9 at the source `a`, newline, four spaces and `b`, newline, `c`. -/
theorem C9_indent_dedent_tokens_witness :
    lexer.tokens (5 + 1) (lexer.New (bytes "a\n    b\nc")) =
      [⟨.IDENT, bytes "a"⟩, ⟨.INDENT, []⟩, ⟨.IDENT, bytes "b"⟩, ⟨.DEDENT, []⟩,
        ⟨.IDENT, bytes "c"⟩] ++ List.replicate 1 ⟨.EOF, []⟩ :=
  C9_indent_dedent_tokens (bytes "a") (bytes "b") (bytes "c") 1 (by decide) (by decide)
    (by decide)

/-- C10: once the lexer has consumed all input with current indentation `n`: while
`n > 0` a `NextToken` call returns DEDENT with empty literal and lowers the indentation
by 4 (nothing else changes); when the indentation is not positive the call returns EOF
with empty literal and leaves the lexer at the end with the same indentation; so the
token stream from there is exactly `ceil(n/4)` DEDENT tokens (none when `n ≤ 0`)
followed by EOF tokens, however many are requested. -/
theorem C10_dedents_then_eof_forever (l : lexer.Lexer) (m : Nat) (h : AtEnd l) :
    (0 < l.currentIndent →
      lexer.NextToken l = (⟨.DEDENT, []⟩, { l with currentIndent := l.currentIndent - 4 }) ∧
        AtEnd (lexer.NextToken l).2) ∧
    (l.currentIndent ≤ 0 →
      (lexer.NextToken l).1 = ⟨.EOF, []⟩ ∧ AtEnd (lexer.NextToken l).2 ∧
        (lexer.NextToken l).2.currentIndent = l.currentIndent) ∧
    lexer.tokens (((l.currentIndent + 3) / 4).toNat + m) l =
      List.replicate ((l.currentIndent + 3) / 4).toNat ⟨.DEDENT, []⟩ ++
        List.replicate m ⟨.EOF, []⟩ := by
  refine ⟨?_, ?_, lexer.tokens_AtEnd _ l h rfl m⟩
  · intro hpos
    have e := lexer.NextToken_AtEnd_pos h hpos
    refine ⟨e, ?_⟩
    rw [e]
    exact h
  · intro hle
    obtain ⟨e, h2, hci⟩ := lexer.NextToken_AtEnd_nonpos h hle
    rw [e]
    exact ⟨rfl, h2, hci⟩

set_option maxRecDepth 100000 in
/-- C10 on the input of `TestNextToken`: after its 24 first tokens the lexer has
consumed all input with indentation 8, and the next tokens are DEDENT, DEDENT, EOF. -/
theorem C10_dedents_then_eof_forever_witness :
    AtEnd (lexer.after 24 (lexer.New testNextTokenInput)) ∧
    (lexer.after 24 (lexer.New testNextTokenInput)).currentIndent = 8 ∧
    lexer.tokens (2 + 1) (lexer.after 24 (lexer.New testNextTokenInput)) =
      [⟨.DEDENT, []⟩, ⟨.DEDENT, []⟩, ⟨.EOF, []⟩] := by
  have hEnd : AtEnd (lexer.after 24 (lexer.New testNextTokenInput)) := ⟨rfl, by decide⟩
  have hci : (lexer.after 24 (lexer.New testNextTokenInput)).currentIndent = 8 := rfl
  have h := (C10_dedents_then_eof_forever (lexer.after 24 (lexer.New testNextTokenInput)) 1
    hEnd).2.2
  rw [hci] at h
  exact ⟨hEnd, hci, h⟩

/-! ## String literals -/

namespace lexer
open token

/-- The `switch` on a quote reads up to the next byte that is that quote or the 0 of
the end of input, whichever closes the literal. -/
theorem switchToken_quoted {input : Str} {k : Nat} (ind : Int) (q : Nat) {s tail : Str}
    (hq : q = 34 ∨ q = 39) (h : input.drop k = q :: (s ++ tail))
    (hs : ∀ c ∈ s, c ≠ q ∧ c ≠ 0) (ht : tail.headD 0 = q ∨ tail.headD 0 = 0) :
    switchToken (atPos input k ind) =
      ({ Type_ := .STRING, Literal := s }, atPos input (k + s.length + 2) ind) := by
  have hch : (atPos input k ind).ch = q := atPos_ch h
  have h1 : input.drop (k + 1) = s ++ tail := drop_succ_of_drop_eq_cons h
  have hlen : s.length < loopFuel (atPos input k ind) := by
    have := @block_length_lt_loopFuel input k (q :: s) tail ind (by simpa using h)
    simp at this; omega
  have hloop : readWhile (fun ch => !(ch == q || ch == 0)) (loopFuel (atPos input k ind))
      (atPos input (k + 1) ind) = atPos input (k + 1 + s.length) ind := by
    apply readWhile_block _ input ind tail _ s (k + 1) _ h1
    · intro x hx; simp [(hs x hx).1, (hs x hx).2]
    · exact hlen
    · show (!(tail.headD 0 == q || tail.headD 0 == 0)) = false
      rcases ht with h2 | h2 <;> rw [h2] <;> simp
  have hsl : slice (atPos input k ind).input ((atPos input k ind).position + 1)
      (atPos input (k + 1 + s.length) ind).position = s := slice_block h1
  rcases hq with rfl | rfl
  · simp only [switchToken, hch]
    simp only [readString, readChar_atPos, hloop, hsl]
    simp [Nat.add_assoc, Nat.add_comm 1]
  · simp only [switchToken, hch]
    simp only [readString, readChar_atPos, hloop, hsl]
    simp [Nat.add_assoc, Nat.add_comm 1]

end lexer

/-- C11: for a quote character `q` (double or single) and a string `s` containing
neither `q` nor a NUL byte, when the lexer is positioned at `q` followed by `s` and
then either a closing `q` or the end of the input, `NextToken` returns a STRING token
whose literal is exactly `s` (no ILLEGAL token, no error), and leaves the lexer two
bytes after the end of `s`: just after the closing quote when there is one. -/
theorem C11_string_literal_token (input : Str) (k : Nat) (ind : Int) (q : Nat)
    (s tail : Str) (hq : q = 34 ∨ q = 39) (h : input.drop k = q :: (s ++ tail))
    (hs : ∀ c ∈ s, c ≠ q ∧ c ≠ 0) (ht : tail = [] ∨ ∃ rest, tail = q :: rest) :
    lexer.NextToken (lexer.atPos input k ind) =
      (⟨.STRING, s⟩, lexer.atPos input (k + s.length + 2) ind) := by
  have hh : (q :: (s ++ tail)).headD 0 = q := rfl
  have hq2 : q ≠ 32 ∧ q ≠ 9 ∧ q ≠ 10 := by omega
  rw [lexer.NextToken_atPos_here ind h (by rw [hh]; exact ⟨hq2.1, hq2.2.1⟩)
    (by rw [hh]; exact hq2.2.2)]
  apply lexer.switchToken_quoted ind q hq h hs
  rcases ht with rfl | ⟨rest, rfl⟩
  · right; rfl
  · left; rfl

/-- C11 at the terminated single-quoted literal of `'ab' c` and at the unterminated
double-quoted literal of `"ab`. -/
theorem C11_string_literal_token_witness :
    lexer.NextToken (lexer.atPos (bytes "'ab' c") 0 0) =
        (⟨.STRING, bytes "ab"⟩, lexer.atPos (bytes "'ab' c") (0 + (bytes "ab").length + 2) 0) ∧
      lexer.NextToken (lexer.atPos (bytes "\"ab") 0 0) =
        (⟨.STRING, bytes "ab"⟩, lexer.atPos (bytes "\"ab") (0 + (bytes "ab").length + 2) 0) :=
  ⟨C11_string_literal_token (bytes "'ab' c") 0 0 39 (bytes "ab") (bytes "' c")
      (by decide) (by decide) (by decide) (Or.inr ⟨bytes " c", by decide⟩),
    C11_string_literal_token (bytes "\"ab") 0 0 34 (bytes "ab") [] (by decide) (by decide)
      (by decide) (Or.inl rfl)⟩

set_option maxRecDepth 100000 in
/-- C12 (what the code does): on the input of `TestNextToken` the 27 tokens returned
have the kinds the test lists, but the STRING token after `print` `(` has the literal
`Hello, World!` (13 bytes, the text between the quotes), not the 15 bytes with both
quotes that the test expects. -/
theorem C12_string_token_literal_has_no_quotes :
    lexer.tokens 27 (lexer.New testNextTokenInput) =
      [⟨.DEF, bytes "def"⟩, ⟨.IDENT, bytes "myFunc"⟩, ⟨.LPAREN, bytes "("⟩,
        ⟨.RPAREN, bytes ")"⟩, ⟨.COLON, bytes ":"⟩, ⟨.INDENT, []⟩, ⟨.IDENT, bytes "x"⟩,
        ⟨.ASSIGN, bytes "="⟩, ⟨.INT, bytes "42"⟩, ⟨.IF, bytes "if"⟩, ⟨.IDENT, bytes "x"⟩,
        ⟨.GT, bytes ">"⟩, ⟨.INT, bytes "10"⟩, ⟨.COLON, bytes ":"⟩, ⟨.INDENT, []⟩,
        ⟨.IDENT, bytes "print"⟩, ⟨.LPAREN, bytes "("⟩, ⟨.STRING, bytes "Hello, World!"⟩,
        ⟨.RPAREN, bytes ")"⟩, ⟨.DEDENT, []⟩, ⟨.ELSE, bytes "else"⟩, ⟨.COLON, bytes ":"⟩,
        ⟨.INDENT, []⟩, ⟨.PASS, bytes "pass"⟩, ⟨.DEDENT, []⟩, ⟨.DEDENT, []⟩, ⟨.EOF, []⟩] ∧
    (lexer.tokens 27 (lexer.New testNextTokenInput)).get? 17 ≠
      some ⟨.STRING, bytes "\"Hello, World!\""⟩ := by
  have h : lexer.tokens 27 (lexer.New testNextTokenInput) =
      [⟨.DEF, bytes "def"⟩, ⟨.IDENT, bytes "myFunc"⟩, ⟨.LPAREN, bytes "("⟩,
        ⟨.RPAREN, bytes ")"⟩, ⟨.COLON, bytes ":"⟩, ⟨.INDENT, []⟩, ⟨.IDENT, bytes "x"⟩,
        ⟨.ASSIGN, bytes "="⟩, ⟨.INT, bytes "42"⟩, ⟨.IF, bytes "if"⟩, ⟨.IDENT, bytes "x"⟩,
        ⟨.GT, bytes ">"⟩, ⟨.INT, bytes "10"⟩, ⟨.COLON, bytes ":"⟩, ⟨.INDENT, []⟩,
        ⟨.IDENT, bytes "print"⟩, ⟨.LPAREN, bytes "("⟩, ⟨.STRING, bytes "Hello, World!"⟩,
        ⟨.RPAREN, bytes ")"⟩, ⟨.DEDENT, []⟩, ⟨.ELSE, bytes "else"⟩, ⟨.COLON, bytes ":"⟩,
        ⟨.INDENT, []⟩, ⟨.PASS, bytes "pass"⟩, ⟨.DEDENT, []⟩, ⟨.DEDENT, []⟩, ⟨.EOF, []⟩] := rfl
  refine ⟨h, ?_⟩
  rw [h]
  decide

/-! ## Environments and identifiers -/

namespace evaluator

/-- `Get` is the outward lookup over the scopes of the chain. -/
theorem Get_eq_lookupOutward : ∀ (env : Environment) (name : Str),
    env.Get name = lookupOutward env.scopes name
  | .mk store none, name => by
    simp only [Environment.Get, Environment.scopes, lookupOutward, List.findSome?]
    cases store name <;> rfl
  | .mk store (some outer), name => by
    have ih := Get_eq_lookupOutward outer name
    simp only [Environment.Get, Environment.scopes, lookupOutward, List.findSome?] at ih ⊢
    cases store name with
    | none => simpa using ih
    | some v => rfl

theorem lookupOutward_eq_none (scopes : List (Str → Option Object)) (name : Str) :
    lookupOutward scopes name = none ↔ ∀ store ∈ scopes, store name = none := by
  simp [lookupOutward]

theorem Get_Set_same (env : Environment) (name : Str) (val : Object) :
    (env.Set name val).2.Get name = some val := by
  obtain ⟨store, outer⟩ := env
  cases outer <;> simp [Environment.Set, Environment.Get]

end evaluator

/-- C13: for every name of the builtin table and every environment, whatever it binds,
evaluating the identifier returns the builtin-function value (and changes nothing); in
particular the source `print = 5` parses to an assignment whose evaluation binds
`print` to Integer 5 in the environment, and evaluating the source `print` afterwards
still returns the builtin, not Integer 5. -/
theorem C13_builtin_resolves_first (name : Str) (b : evaluator.Object) (w : evaluator.World)
    (hb : evaluator.builtins name = some b) :
    evaluator.Eval (.expression (.Identifier name)) w = some (b, w) ∧
    (∃ f, b = .Builtin f) ∧
    ∃ p1 p2 w1,
      parser.parseSource 8 (bytes "print = 5") =
        .ret ⟨[.AssignmentStatement ⟨bytes "print"⟩ (.IntegerLiteral (bytes "5"))]⟩ p1 ∧
      p1.errors = [] ∧
      evaluator.Eval
          (.program ⟨[.AssignmentStatement ⟨bytes "print"⟩ (.IntegerLiteral (bytes "5"))]⟩) w =
        some (.Integer (bytes "5"), w1) ∧
      w1.env.Get (bytes "print") = some (.Integer (bytes "5")) ∧
      parser.parseSource 8 (bytes "print") =
        .ret ⟨[.ExpressionStatement (.Identifier (bytes "print"))]⟩ p2 ∧
      p2.errors = [] ∧
      evaluator.Eval (.program ⟨[.ExpressionStatement (.Identifier (bytes "print"))]⟩) w1 =
        some (.Builtin .print, w1) := by
  have hprint : evaluator.builtins (bytes "print") = some (.Builtin .print) := by decide
  refine ⟨?_, ?_, _, _, { w with env := (w.env.Set (bytes "print") (.Integer (bytes "5"))).2 },
    rfl, rfl, ?_, evaluator.Get_Set_same _ _ _, rfl, rfl, ?_⟩
  · simp [evaluator.Eval, evaluator.EvalExpression, evaluator.evalIdentifier, hb]
  · unfold evaluator.builtins at hb
    split at hb
    · exact ⟨.print, by injection hb with h; exact h.symm⟩
    · exact absurd hb (by simp)
  · obtain ⟨⟨store, outer⟩, out⟩ := w
    simp [evaluator.Eval, evaluator.evalProgram, evaluator.evalProgramLoop,
      evaluator.EvalStatement, evaluator.EvalExpression, evaluator.isError,
      evaluator.Environment.Set]
  · simp [evaluator.Eval, evaluator.evalProgram, evaluator.evalProgramLoop,
      evaluator.EvalStatement, evaluator.EvalExpression, evaluator.isError,
      evaluator.evalIdentifier, hprint]

/-- C13 in an environment whose own store binds `print` to Integer 5. -/
theorem C13_builtin_resolves_first_witness :
    evaluator.Eval (.expression (.Identifier (bytes "print")))
        ⟨.mk (fun n => if n = bytes "print" then some (.Integer (bytes "5")) else none) none, []⟩ =
      some (.Builtin .print,
        ⟨.mk (fun n => if n = bytes "print" then some (.Integer (bytes "5")) else none) none, []⟩) :=
  (C13_builtin_resolves_first (bytes "print") (.Builtin .print)
    ⟨.mk (fun n => if n = bytes "print" then some (.Integer (bytes "5")) else none) none, []⟩
    (by decide)).1

/-- C14: for a name that is not a builtin and that no scope of the environment chain
binds, evaluating the identifier returns the Error whose message is
"identifier not found: " followed by the name (so the message ends with the name),
and leaves the environment unchanged. -/
theorem C14_unknown_identifier (n : Str) (w : evaluator.World)
    (hb : evaluator.builtins n = none) (hs : ∀ store ∈ w.env.scopes, store n = none) :
    evaluator.Eval (.expression (.Identifier n)) w =
        some (.Error (bytes "identifier not found: " ++ n), w) ∧
      n <:+ bytes "identifier not found: " ++ n := by
  have hg : w.env.Get n = none := by
    rw [evaluator.Get_eq_lookupOutward, evaluator.lookupOutward_eq_none]
    exact hs
  refine ⟨?_, List.suffix_append _ _⟩
  simp [evaluator.Eval, evaluator.EvalExpression, evaluator.evalIdentifier, hb, hg,
    evaluator.newError]

/-- C14 at the name `y` in an environment that binds only `x`, inside an empty scope. -/
theorem C14_unknown_identifier_witness :
    evaluator.Eval (.expression (.Identifier (bytes "y")))
        ⟨.mk (fun _ => none)
          (some (.mk (fun n => if n = bytes "x" then some (.Integer (bytes "5")) else none)
            none)), []⟩ =
      some (.Error (bytes "identifier not found: " ++ bytes "y"),
        ⟨.mk (fun _ => none)
          (some (.mk (fun n => if n = bytes "x" then some (.Integer (bytes "5")) else none)
            none)), []⟩) ∧
      bytes "y" <:+ bytes "identifier not found: " ++ bytes "y" :=
  C14_unknown_identifier (bytes "y")
    ⟨.mk (fun _ => none)
      (some (.mk (fun n => if n = bytes "x" then some (.Integer (bytes "5")) else none) none)),
      []⟩
    (by decide) (by decide)

/-- C15: lookups walk outward from the innermost scope. On every environment chain
`Get` is the outward lookup over its scopes: it returns the binding of the name in the
innermost scope that binds it, whatever the scopes further out bind; it reports
not-found exactly when no scope of the chain binds the name; and an environment made
by `NewEnclosedEnvironment` has an empty innermost scope in front of the scopes of its
outer environment, so it looks names up there. -/
theorem C15_lookup_walks_outward (env : evaluator.Environment) (n : Str) :
    env.Get n = lookupOutward env.scopes n ∧
    (∀ (inner : List (Str → Option evaluator.Object)) (store : Str → Option evaluator.Object)
        (outer : List (Str → Option evaluator.Object)) (v : evaluator.Object),
      env.scopes = inner ++ store :: outer → (∀ s ∈ inner, s n = none) → store n = some v →
        env.Get n = some v) ∧
    (env.Get n = none ↔ ∀ store ∈ env.scopes, store n = none) ∧
    (evaluator.NewEnclosedEnvironment env).scopes = (fun _ => none) :: env.scopes ∧
    (evaluator.NewEnclosedEnvironment env).Get n = env.Get n := by
  refine ⟨evaluator.Get_eq_lookupOutward env n, ?_, ?_, rfl, ?_⟩
  · intro inner store outer v hsc hin hv
    have h0 : List.findSome? (fun st : Str → Option evaluator.Object => st n) inner = none := by
      rw [List.findSome?_eq_none_iff]
      exact hin
    rw [evaluator.Get_eq_lookupOutward, hsc]
    simp [lookupOutward, List.findSome?_append, h0, hv]
  · rw [evaluator.Get_eq_lookupOutward, evaluator.lookupOutward_eq_none]
  · simp [evaluator.NewEnclosedEnvironment, evaluator.Environment.Get]

/-- C15 on a chain of two scopes that both bind `x`: the inner binding is returned. -/
theorem C15_lookup_walks_outward_witness :
    (evaluator.Environment.mk (fun n => if n = bytes "x" then some (.Integer (bytes "1")) else none)
        (some (.mk (fun n => if n = bytes "x" then some (.Integer (bytes "2")) else none)
          none))).Get (bytes "x") = some (.Integer (bytes "1")) :=
  (C15_lookup_walks_outward
    (.mk (fun n => if n = bytes "x" then some (.Integer (bytes "1")) else none)
      (some (.mk (fun n => if n = bytes "x" then some (.Integer (bytes "2")) else none) none)))
    (bytes "x")).2.1 []
    (fun n => if n = bytes "x" then some (.Integer (bytes "1")) else none)
    [fun n => if n = bytes "x" then some (.Integer (bytes "2")) else none]
    (.Integer (bytes "1")) rfl (by simp) (by decide)

/-- C16: writes target only the innermost scope. For every environment, name and
value, `Set` returns the value, makes `Get` of that name return it, changes the
environment's own store at that name only, and leaves the outer environment (hence
every lookup in it) as it was, also when the name is bound there. -/
theorem C16_set_writes_innermost (e : evaluator.Environment) (n : Str) (v : evaluator.Object) :
    (e.Set n v).1 = v ∧
    (e.Set n v).2.Get n = some v ∧
    (∀ m, (e.Set n v).2.store m = if m = n then some v else e.store m) ∧
    (e.Set n v).2.outer = e.outer ∧
    (e.Set n v).2.scopes.tail = e.scopes.tail := by
  refine ⟨?_, evaluator.Get_Set_same e n v, ?_, ?_, ?_⟩
  · obtain ⟨store, outer⟩ := e
    rfl
  · obtain ⟨store, outer⟩ := e
    intro m
    rfl
  · obtain ⟨store, outer⟩ := e
    rfl
  · obtain ⟨store, outer⟩ := e
    cases outer <;> rfl

/-! ## Evaluation of statements and programs -/

namespace evaluator
open parser

/-- Evaluating a statement that is not the nil assignment pointer returns a value. -/
theorem EvalStatement_returns (s : Statement) (w : World) (h : s.isNilAssignment = false) :
    ∃ r w1, EvalStatement s w = some (r, w1) := by
  cases s with
  | AssignmentStatementNil => simp [Statement.isNilAssignment] at h
  | AssignmentStatement name value =>
    simp only [EvalStatement]
    split <;> exact ⟨_, _, rfl⟩
  | ExpressionStatement e => exact ⟨_, _, rfl⟩
  | FunctionDefinition a b c => exact ⟨_, _, rfl⟩
  | FunctionDefinitionNil => exact ⟨_, _, rfl⟩
  | IfStatement a b c => exact ⟨_, _, rfl⟩
  | IfStatementNil => exact ⟨_, _, rfl⟩
  | ReturnStatement v => exact ⟨_, _, rfl⟩

/-- The loop of `evalProgram` computes what the specification says, starting from any
initial result. -/
theorem evalProgramLoop_eq : ∀ (stmts : List Statement) (w : World) (r0 : Object),
    (∀ s ∈ stmts, s.isNilAssignment = false) →
    evalProgramLoop stmts w r0 =
      some (match (runAll stmts w).find? (fun r => isError r.1) with
        | some r => r
        | none => (runAll stmts w).getLast?.getD (r0, w)) := by
  intro stmts
  induction stmts with
  | nil => intro w r0 _; rfl
  | cons s rest ih =>
    intro w r0 h
    obtain ⟨r, w1, hs⟩ := EvalStatement_returns s w (h s (by simp))
    have ih2 := ih w1 r (fun x hx => h x (by simp [hx]))
    by_cases he : isError r = true
    · simp [evalProgramLoop, runAll, hs, he]
    · simp only [evalProgramLoop, runAll, hs, he, List.find?_cons]
      simp only [Bool.false_eq_true, if_false, ih2]
      cases hf : List.find? (fun r => isError r.1) (runAll rest w1) with
      | some x => rfl
      | none =>
        cases hl : runAll rest w1 with
        | nil => simp
        | cons y ys =>
          rw [List.getLast?_eq_getLast _ (List.cons_ne_nil y ys)]
          rfl

end evaluator

/-- C17: `Eval` is total and never raises. For every node built from the parser's node
types (no nil assignment pointer; child expressions may be nil) and every environment,
`Eval` returns a runtime value; and for the node kinds without a dispatch case (a
function definition, an if-statement, a return statement, a float literal, a list
literal, an absent expression) that value is the Error "unknown node type", the
environment being left as it was. -/
theorem C17_eval_total (node : evaluator.Node) (w : evaluator.World) (h : node.WellFormed) :
    (∃ obj w1, evaluator.Eval node w = some (obj, w1)) ∧
    (∀ name params body, evaluator.Eval (.statement (.FunctionDefinition name params body)) w =
      some (.Error (bytes "unknown node type"), w)) ∧
    (∀ c t a, evaluator.Eval (.statement (.IfStatement c t a)) w =
      some (.Error (bytes "unknown node type"), w)) ∧
    (∀ v, evaluator.Eval (.statement (.ReturnStatement v)) w =
      some (.Error (bytes "unknown node type"), w)) ∧
    (∀ v, evaluator.Eval (.expression (.FloatLiteral v)) w =
      some (.Error (bytes "unknown node type"), w)) ∧
    (∀ es, evaluator.Eval (.expression (.ListLiteral es)) w =
      some (.Error (bytes "unknown node type"), w)) ∧
    evaluator.Eval (.expression .nil) w = some (.Error (bytes "unknown node type"), w) ∧
    evaluator.Eval (.statement (.ExpressionStatement .nil)) w =
      some (.Error (bytes "unknown node type"), w) := by
  refine ⟨?_, fun _ _ _ => rfl, fun _ _ _ => rfl, fun _ => rfl, fun _ => rfl, fun _ => rfl,
    rfl, rfl⟩
  cases node with
  | expression e => exact ⟨_, _, rfl⟩
  | statement s => exact evaluator.EvalStatement_returns s w h
  | program p =>
    obtain ⟨stmts⟩ := p
    exact ⟨_, _, evaluator.evalProgramLoop_eq stmts w evaluator.NULL h⟩

/-- C17 at the program of the source `def myFunc(x, y):` with its indented return
line, as the parser returns it: evaluation returns a value. -/
theorem C17_eval_total_witness :
    ∃ obj w1, evaluator.Eval (.program ⟨[.FunctionDefinitionNil, .ExpressionStatement .nil,
        .ReturnStatement (.InfixExpression (.Identifier (bytes "x")) (bytes "+")
          (.Identifier (bytes "y")))]⟩) ⟨evaluator.NewEnvironment, []⟩ = some (obj, w1) :=
  (C17_eval_total (.program ⟨[.FunctionDefinitionNil, .ExpressionStatement .nil,
        .ReturnStatement (.InfixExpression (.Identifier (bytes "x")) (bytes "+")
          (.Identifier (bytes "y")))]⟩) ⟨evaluator.NewEnvironment, []⟩ (by decide)).1

/-- C18: evaluating a Program returns the null value if it has no statements;
otherwise the result of the first statement, in order, whose evaluation is an Error,
the world being as that statement left it (no later statement is evaluated);
otherwise the result of the last statement. -/
theorem C18_program_short_circuits (stmts : List parser.Statement) (w : evaluator.World)
    (h : ∀ s ∈ stmts, s.isNilAssignment = false) :
    evaluator.Eval (.program ⟨stmts⟩) w = some (programResult stmts w) ∧
    evaluator.Eval (.program ⟨[]⟩) w = some (evaluator.NULL, w) :=
  ⟨evaluator.evalProgramLoop_eq stmts w evaluator.NULL h, rfl⟩

/-- C18 at the program `x = 1`, `y`, `x = 2`: the unbound `y` yields the Error, and
`x` is still bound to 1 afterwards. -/
theorem C18_program_short_circuits_witness :
    ∃ w1, evaluator.Eval (.program ⟨[.AssignmentStatement ⟨bytes "x"⟩ (.IntegerLiteral (bytes "1")),
          .ExpressionStatement (.Identifier (bytes "y")),
          .AssignmentStatement ⟨bytes "x"⟩ (.IntegerLiteral (bytes "2"))]⟩)
        ⟨evaluator.NewEnvironment, []⟩ =
      some (.Error (bytes "identifier not found: y"), w1) ∧
      w1.env.Get (bytes "x") = some (.Integer (bytes "1")) := by
  have h := (C18_program_short_circuits
    [.AssignmentStatement ⟨bytes "x"⟩ (.IntegerLiteral (bytes "1")),
      .ExpressionStatement (.Identifier (bytes "y")),
      .AssignmentStatement ⟨bytes "x"⟩ (.IntegerLiteral (bytes "2"))]
    ⟨evaluator.NewEnvironment, []⟩ (by decide)).1
  exact ⟨_, h, by decide⟩

/-! ## Assignment and return statements -/

namespace lexer
open token

/-- A run of letters starting at the current byte: an identifier or keyword token. -/
theorem step_letters {input : Str} {k : Nat} (ind : Int) {x rest : Str}
    (h : input.drop k = x ++ rest) (hne : x ≠ []) (hx : ∀ c ∈ x, isLetter c = true)
    (hrest : isLetter (rest.headD 0) = false) :
    NextToken (atPos input k ind) =
      ({ Type_ := LookupIdent x, Literal := x }, atPos input (k + x.length) ind) ∧
    input.drop (k + x.length) = rest := by
  refine ⟨?_, drop_add_of_drop_eq_append h⟩
  obtain ⟨c, t, rfl⟩ := List.exists_cons_of_ne_nil hne
  have hc := (isLetter_iff c).1 (hx c (by simp))
  have hhead : ((c :: t) ++ rest).headD 0 = c := rfl
  rw [NextToken_atPos_here ind h (by rw [hhead]; omega) (by rw [hhead]; omega)]
  exact switchToken_letters ind h (by simp) hx hrest

/-- The token stream of the source `x = d`. -/
theorem tokens_assignment {x d : Str} (hx : IsIdentifier x) (hd : IsDigits d) :
    tokens 5 (New (x ++ 32 :: 61 :: 32 :: d)) =
      [⟨.IDENT, x⟩, ⟨.ASSIGN, [61]⟩, ⟨.INT, d⟩, ⟨.EOF, []⟩, ⟨.EOF, []⟩] := by
  have d0 : (x ++ 32 :: 61 :: 32 :: d).drop 0 = x ++ 32 :: 61 :: 32 :: (d ++ []) := by simp
  obtain ⟨e1, d1⟩ := step_IDENT 0 d0 hx rfl
  obtain ⟨e2, d2⟩ := step_space_punctuation 0 .ASSIGN d1 (by decide)
  obtain ⟨e3, d3⟩ := step_space_INT 0 d2 hd (by simp [isDigit])
  have hlen : (x ++ 32 :: 61 :: 32 :: d).length ≤ 0 + x.length + 2 + 1 + d.length := by
    simp; omega
  have e4 := NextToken_EOF 0 hlen (le_refl 0)
  have e5 := NextToken_EOF 0 (Nat.le_succ_of_le hlen) (le_refl 0)
  simp only [tokens, New_eq_atPos, e1, e2, e3, e4, e5]

/-- The token stream of the source `return d`. -/
theorem tokens_return {d : Str} (hd : IsDigits d) :
    tokens 4 (New (bytes "return" ++ 32 :: d)) =
      [⟨.RETURN, bytes "return"⟩, ⟨.INT, d⟩, ⟨.EOF, []⟩, ⟨.EOF, []⟩] := by
  have d0 : (bytes "return" ++ 32 :: d).drop 0 = bytes "return" ++ 32 :: (d ++ []) := by simp
  obtain ⟨e1, d1⟩ := step_letters 0 d0 (by decide) (by decide) rfl
  have hk : LookupIdent (bytes "return") = .RETURN := by decide
  rw [hk] at e1
  obtain ⟨e2, d2⟩ := step_space_INT 0 d1 hd (by simp [isDigit])
  have hlen : (bytes "return" ++ 32 :: d).length ≤ 0 + (bytes "return").length + 1 + d.length := by
    simp; omega
  have e3 := NextToken_EOF 0 hlen (le_refl 0)
  have e4 := NextToken_EOF 0 (Nat.le_succ_of_le hlen) (le_refl 0)
  simp only [tokens, New_eq_atPos, e1, e2, e3, e4]

end lexer

namespace parser
open token lexer

/-- The parse of `IDENT x = INT d EOF`: one assignment statement. -/
theorem parse_assignment (l : Lexer) (x d : Str)
    (h : tokens 5 l = [⟨.IDENT, x⟩, ⟨.ASSIGN, [61]⟩, ⟨.INT, d⟩, ⟨.EOF, []⟩, ⟨.EOF, []⟩])
    (fuel : Nat) (hf : 6 ≤ fuel) :
    ∃ p, ParseProgram fuel (New l) =
        .ret ⟨[.AssignmentStatement ⟨x⟩ (.IntegerLiteral d)]⟩ p ∧ p.errors = [] := by
  obtain ⟨n, rfl⟩ : ∃ n, fuel = n + 6 := ⟨fuel - 6, by omega⟩
  obtain ⟨s1, e1, h⟩ := tokens_succ_eq h
  obtain ⟨s2, e2, h⟩ := tokens_succ_eq h
  obtain ⟨s3, e3, h⟩ := tokens_succ_eq h
  obtain ⟨s4, e4, h⟩ := tokens_succ_eq h
  obtain ⟨s5, e5, -⟩ := tokens_succ_eq h
  simp [ParseProgram, ParseProgramLoop, New, nextToken, e1, e2, e3, e4, e5, parseStatement,
    parseAssignmentStatement, AssignmentStatement.toStatement, parseExpression,
    parseExpressionLoop, Run.bind, parseIntegerLiteral, peekTokenIs, peekPrecedence,
    precedenceOf, LOWEST]

/-- The parse of `RETURN INT d EOF`: one return statement. -/
theorem parse_return (l : Lexer) (d : Str)
    (h : tokens 4 l = [⟨.RETURN, bytes "return"⟩, ⟨.INT, d⟩, ⟨.EOF, []⟩, ⟨.EOF, []⟩])
    (fuel : Nat) (hf : 6 ≤ fuel) :
    ∃ p, ParseProgram fuel (New l) = .ret ⟨[.ReturnStatement (.IntegerLiteral d)]⟩ p ∧
      p.errors = [] := by
  obtain ⟨n, rfl⟩ : ∃ n, fuel = n + 6 := ⟨fuel - 6, by omega⟩
  obtain ⟨s1, e1, h⟩ := tokens_succ_eq h
  obtain ⟨s2, e2, h⟩ := tokens_succ_eq h
  obtain ⟨s3, e3, h⟩ := tokens_succ_eq h
  obtain ⟨s4, e4, -⟩ := tokens_succ_eq h
  simp [ParseProgram, ParseProgramLoop, New, nextToken, e1, e2, e3, e4, parseStatement,
    parseReturnStatement, parseExpression, parseExpressionLoop, Run.bind,
    parseIntegerLiteral, peekTokenIs, peekPrecedence, precedenceOf, LOWEST]

end parser

/-- C19: for every identifier name `x` (letters and underscores, not a keyword) and
every non-empty decimal digit string `d`, parsing the source `x = d` records no parser
errors and returns a Program with exactly one statement, the assignment statement
whose target identifier has Value `x` and whose Value is the integer literal `d`. -/
theorem C19_parse_assignment (x d : Str) (fuel : Nat) (hx : IsIdentifier x) (hd : IsDigits d)
    (hfuel : 6 ≤ fuel) :
    ∃ p, parser.parseSource fuel (x ++ 32 :: 61 :: 32 :: d) =
        .ret ⟨[.AssignmentStatement ⟨x⟩ (.IntegerLiteral d)]⟩ p ∧ p.errors = [] :=
  parser.parse_assignment _ x d (lexer.tokens_assignment hx hd) fuel hfuel

/-- C19 at the source `x = 42` of `TestParseAssignmentStatement`. -/
theorem C19_parse_assignment_witness :
    ∃ p, parser.parseSource 6 (bytes "x = 42") =
        .ret ⟨[.AssignmentStatement ⟨bytes "x"⟩ (.IntegerLiteral (bytes "42"))]⟩ p ∧
      p.errors = [] :=
  C19_parse_assignment (bytes "x") (bytes "42") 6 (by decide) (by decide) (by decide)

/-- C20: for every non-empty decimal digit string `d`, parsing the source `return d`
records no parser errors and returns a Program with exactly one statement, the return
statement whose Value is the integer literal `d`. -/
theorem C20_parse_return (d : Str) (fuel : Nat) (hd : IsDigits d) (hfuel : 6 ≤ fuel) :
    ∃ p, parser.parseSource fuel (bytes "return" ++ 32 :: d) =
        .ret ⟨[.ReturnStatement (.IntegerLiteral d)]⟩ p ∧ p.errors = [] :=
  parser.parse_return _ d (lexer.tokens_return hd) fuel hfuel

/-- C20 at the source `return 42` of `TestParseReturnStatement`. -/
theorem C20_parse_return_witness :
    ∃ p, parser.parseSource 6 (bytes "return 42") =
        .ret ⟨[.ReturnStatement (.IntegerLiteral (bytes "42"))]⟩ p ∧ p.errors = [] :=
  C20_parse_return (bytes "42") 6 (by decide) (by decide)

/-! ## Literals, associativity and relational operators -/

namespace lexer
open token

/-- The token stream of a source that is one integer literal. -/
theorem tokens_integer {d : Str} (hd : IsDigits d) :
    tokens 3 (New d) = [⟨.INT, d⟩, ⟨.EOF, []⟩, ⟨.EOF, []⟩] := by
  have d0 : d.drop 0 = d ++ [] := by simp
  obtain ⟨e1, d1⟩ := step_INT 0 d0 hd (by simp [isDigit])
  have hlen : d.length ≤ 0 + d.length := by omega
  have e2 := NextToken_EOF 0 hlen (le_refl 0)
  have e3 := NextToken_EOF 0 (Nat.le_succ_of_le hlen) (le_refl 0)
  simp only [tokens, New_eq_atPos, e1, e2, e3]

end lexer

namespace parser
open token lexer

/-- The parse of `INT d EOF`: one expression statement holding the literal. -/
theorem parse_integer (l : Lexer) (d : Str)
    (h : tokens 3 l = [⟨.INT, d⟩, ⟨.EOF, []⟩, ⟨.EOF, []⟩]) (fuel : Nat) (hf : 4 ≤ fuel) :
    ∃ p, ParseProgram fuel (New l) = .ret ⟨[.ExpressionStatement (.IntegerLiteral d)]⟩ p ∧
      p.errors = [] := by
  obtain ⟨n, rfl⟩ : ∃ n, fuel = n + 4 := ⟨fuel - 4, by omega⟩
  obtain ⟨s1, e1, h⟩ := tokens_succ_eq h
  obtain ⟨s2, e2, h⟩ := tokens_succ_eq h
  obtain ⟨s3, e3, -⟩ := tokens_succ_eq h
  simp [ParseProgram, ParseProgramLoop, New, nextToken, e1, e2, e3, parseStatement,
    parseExpressionStatement, parseExpression, parseExpressionLoop, Run.bind,
    parseIntegerLiteral, peekTokenIs, peekPrecedence, precedenceOf, LOWEST]

/-- The parse of `INT a, o1, INT b, o2, INT c, EOF` for two operators of the same
precedence level: the first operator takes `a` and `b`. -/
theorem parse_same_level (l : Lexer) (a b c : Str) (t1 t2 : Token)
    (hl : ((t1.Type_ = .PLUS ∨ t1.Type_ = .MINUS) ∧ (t2.Type_ = .PLUS ∨ t2.Type_ = .MINUS)) ∨
      ((t1.Type_ = .ASTERISK ∨ t1.Type_ = .SLASH) ∧ (t2.Type_ = .ASTERISK ∨ t2.Type_ = .SLASH)))
    (h : tokens 7 l = [⟨.INT, a⟩, t1, ⟨.INT, b⟩, t2, ⟨.INT, c⟩, ⟨.EOF, []⟩, ⟨.EOF, []⟩])
    (fuel : Nat) (hf : 8 ≤ fuel) :
    ∃ p, ParseProgram fuel (New l) = .ret ⟨[.ExpressionStatement
      (.InfixExpression (.InfixExpression (.IntegerLiteral a) t1.Literal (.IntegerLiteral b))
        t2.Literal (.IntegerLiteral c))]⟩ p ∧
      p.errors = [] := by
  obtain ⟨n, rfl⟩ : ∃ n, fuel = n + 8 := ⟨fuel - 8, by omega⟩
  obtain ⟨s1, e1, h⟩ := tokens_succ_eq h
  obtain ⟨s2, e2, h⟩ := tokens_succ_eq h
  obtain ⟨s3, e3, h⟩ := tokens_succ_eq h
  obtain ⟨s4, e4, h⟩ := tokens_succ_eq h
  obtain ⟨s5, e5, h⟩ := tokens_succ_eq h
  obtain ⟨s6, e6, h⟩ := tokens_succ_eq h
  obtain ⟨s7, e7, -⟩ := tokens_succ_eq h
  obtain ⟨ty1, l1⟩ := t1
  obtain ⟨ty2, l2⟩ := t2
  simp only at hl
  rcases hl with ⟨h1 | h1, h2 | h2⟩ | ⟨h1 | h1, h2 | h2⟩ <;> subst h1 <;> subst h2 <;>
  simp [ParseProgram, ParseProgramLoop, New, nextToken, e1, e2, e3, e4, e5, e6, e7,
    parseStatement, parseExpressionStatement, parseExpression, parseExpressionLoop,
    parseInfixExpression, Run.bind, parseIntegerLiteral, peekTokenIs, peekPrecedence,
    curPrecedence, precedenceOf, LOWEST, SUM, PRODUCT]

end parser

/-- C21: for every non-empty decimal digit string `d` (any length, leading zeros
allowed), parsing the source `d` records no parser errors and returns a Program with
exactly one statement, an expression statement wrapping the integer literal whose Value
is the text `d` unchanged; evaluating it returns the Integer value with that text, in
any environment, which it leaves unchanged. -/
theorem C21_integer_literal (d : Str) (w : evaluator.World) (fuel : Nat) (hd : IsDigits d)
    (hfuel : 4 ≤ fuel) :
    ∃ p, parser.parseSource fuel d = .ret ⟨[.ExpressionStatement (.IntegerLiteral d)]⟩ p ∧
      p.errors = [] ∧
      evaluator.Eval (.program ⟨[.ExpressionStatement (.IntegerLiteral d)]⟩) w =
        some (.Integer d, w) := by
  obtain ⟨p, hp, herr⟩ := parser.parse_integer _ d (lexer.tokens_integer hd) fuel hfuel
  exact ⟨p, hp, herr, rfl⟩

/-- C21 at the source `5` of `TestIntegerLiteralExpression` and at a literal of forty
digits with leading zeros. -/
theorem C21_integer_literal_witness :
    (∃ p, parser.parseSource 4 (bytes "5") =
        .ret ⟨[.ExpressionStatement (.IntegerLiteral (bytes "5"))]⟩ p ∧
      p.errors = [] ∧
      evaluator.Eval (.program ⟨[.ExpressionStatement (.IntegerLiteral (bytes "5"))]⟩)
          ⟨evaluator.NewEnvironment, []⟩ =
        some (.Integer (bytes "5"), ⟨evaluator.NewEnvironment, []⟩)) ∧
    (∃ p, parser.parseSource 4 (bytes "0000000000000000000000000000000000000042") =
        .ret ⟨[.ExpressionStatement
          (.IntegerLiteral (bytes "0000000000000000000000000000000000000042"))]⟩ p ∧
      p.errors = [] ∧
      evaluator.Eval (.program ⟨[.ExpressionStatement
            (.IntegerLiteral (bytes "0000000000000000000000000000000000000042"))]⟩)
          ⟨evaluator.NewEnvironment, []⟩ =
        some (.Integer (bytes "0000000000000000000000000000000000000042"),
          ⟨evaluator.NewEnvironment, []⟩)) :=
  ⟨C21_integer_literal (bytes "5") ⟨evaluator.NewEnvironment, []⟩ 4 (by decide) (by decide),
    C21_integer_literal (bytes "0000000000000000000000000000000000000042")
      ⟨evaluator.NewEnvironment, []⟩ 4 (by decide) (by decide)⟩

/-- C23: operators of equal precedence associate to the left. For decimal digit strings
`a`, `b`, `c` and operators `o1`, `o2` of the same precedence level (both among `+ -`
or both among `* /`), parsing the source `a o1 b o2 c` records no errors and returns
one expression statement whose expression is
`Infix(Infix(IntegerLiteral a, o1, IntegerLiteral b), o2, IntegerLiteral c)`; so
`8 - 3 - 2` evaluates to 3 and `8 / 4 / 2` to 1. -/
theorem C23_left_associative (a b c : Str) (o1 o2 : Nat) (fuel : Nat)
    (ha : IsDigits a) (hb : IsDigits b) (hc : IsDigits c)
    (hlevel : ((o1 = 43 ∨ o1 = 45) ∧ (o2 = 43 ∨ o2 = 45)) ∨
      ((o1 = 42 ∨ o1 = 47) ∧ (o2 = 42 ∨ o2 = 47)))
    (hfuel : 8 ≤ fuel) :
    (∃ p, parser.parseSource fuel (a ++ 32 :: o1 :: 32 :: (b ++ 32 :: o2 :: 32 :: c)) =
        .ret ⟨[.ExpressionStatement
          (.InfixExpression (.InfixExpression (.IntegerLiteral a) [o1] (.IntegerLiteral b))
            [o2] (.IntegerLiteral c))]⟩ p ∧
      p.errors = []) ∧
    (∃ prog p, parser.parseSource 8 (bytes "8 - 3 - 2") = .ret prog p ∧ p.errors = [] ∧
      evaluator.Eval (.program prog) ⟨evaluator.NewEnvironment, []⟩ =
        some (.Integer (bytes "3"), ⟨evaluator.NewEnvironment, []⟩)) ∧
    (∃ prog p, parser.parseSource 8 (bytes "8 / 4 / 2") = .ret prog p ∧ p.errors = [] ∧
      evaluator.Eval (.program prog) ⟨evaluator.NewEnvironment, []⟩ =
        some (.Integer (bytes "1"), ⟨evaluator.NewEnvironment, []⟩)) := by
  have h1 : o1 = 43 ∨ o1 = 45 ∨ o1 = 42 ∨ o1 = 47 := by omega
  have h2 : o2 = 43 ∨ o2 = 45 ∨ o2 = 42 ∨ o2 = 47 := by omega
  refine ⟨?_, ⟨_, _, rfl, rfl, rfl⟩, ⟨_, _, rfl, rfl, rfl⟩⟩
  refine parser.parse_same_level _ a b c ⟨operatorType o1, [o1]⟩ ⟨operatorType o2, [o2]⟩ ?_
    (lexer.tokens_ternary ha hb hc h1 h2) fuel hfuel
  rcases hlevel with ⟨h3 | h3, h4 | h4⟩ | ⟨h3 | h3, h4 | h4⟩ <;> subst h3 <;> subst h4 <;>
    simp [operatorType]

/-- C23 at the source `8 - 3 + 2`. -/
theorem C23_left_associative_witness :
    ∃ p, parser.parseSource 8 (bytes "8 - 3 + 2") =
        .ret ⟨[.ExpressionStatement
          (.InfixExpression
            (.InfixExpression (.IntegerLiteral (bytes "8")) (bytes "-")
              (.IntegerLiteral (bytes "3")))
            (bytes "+") (.IntegerLiteral (bytes "2")))]⟩ p ∧
      p.errors = [] :=
  (C23_left_associative (bytes "8") (bytes "3") (bytes "2") 45 43 8 (by decide) (by decide)
    (by decide) (by decide) (by decide)).1

/-- C22 (what the code does): the lexer has a case for `>` and none for `<`. The source
`1 > 2 + 3` parses to the single statement `Infix(1, ">", Infix(2, "+", 3))`, but in
`1 < 2 + 3` the byte `<` becomes an ILLEGAL token: the parser records the error
"unexpected token: ILLEGAL" and returns three statements, the literal `1`, an
expression statement without expression, and `2 + 3`. -/
theorem C22_less_than_is_not_lexed :
    (∃ p, parser.parseSource 10 (bytes "1 > 2 + 3") =
        .ret ⟨[.ExpressionStatement
          (.InfixExpression (.IntegerLiteral (bytes "1")) (bytes ">")
            (.InfixExpression (.IntegerLiteral (bytes "2")) (bytes "+")
              (.IntegerLiteral (bytes "3"))))]⟩ p ∧
      p.errors = []) ∧
    lexer.tokens 6 (lexer.New (bytes "1 < 2 + 3")) =
      [⟨.INT, bytes "1"⟩, ⟨.ILLEGAL, bytes "<"⟩, ⟨.INT, bytes "2"⟩, ⟨.PLUS, bytes "+"⟩,
        ⟨.INT, bytes "3"⟩, ⟨.EOF, []⟩] ∧
    ∃ p, parser.parseSource 10 (bytes "1 < 2 + 3") =
        .ret ⟨[.ExpressionStatement (.IntegerLiteral (bytes "1")),
          .ExpressionStatement .nil,
          .ExpressionStatement
            (.InfixExpression (.IntegerLiteral (bytes "2")) (bytes "+")
              (.IntegerLiteral (bytes "3")))]⟩ p ∧
      p.errors = [bytes "unexpected token: ILLEGAL"] :=
  ⟨⟨_, rfl, rfl⟩, by decide, ⟨_, rfl, by decide⟩⟩

/-- C29: `current_indent` is not kept non-negative. On the four lines `a`, two spaces
and `b`, `c`, `d` the DEDENT at the return to width 0 sets `current_indent` to -2, and
the line `d`, whose width 0 equals that of the line before, is preceded by an INDENT:
the tokens are IDENT a, INDENT, IDENT b, DEDENT, IDENT c, INDENT, IDENT d, EOF. -/
theorem C29_negative_indent_spurious_indent :
    lexer.tokens 8 (lexer.New (bytes "a\n  b\nc\nd")) =
      [⟨.IDENT, bytes "a"⟩, ⟨.INDENT, []⟩, ⟨.IDENT, bytes "b"⟩, ⟨.DEDENT, []⟩,
        ⟨.IDENT, bytes "c"⟩, ⟨.INDENT, []⟩, ⟨.IDENT, bytes "d"⟩, ⟨.EOF, []⟩] ∧
    (lexer.after 3 (lexer.New (bytes "a\n  b\nc\nd"))).currentIndent = 2 ∧
    (lexer.after 4 (lexer.New (bytes "a\n  b\nc\nd"))).currentIndent = -2 ∧
    (lexer.after 6 (lexer.New (bytes "a\n  b\nc\nd"))).currentIndent = 0 :=
  ⟨by decide, by decide, by decide, by decide⟩

/-! ## Dedents -/

namespace lexer
open token

/-- The five first tokens of the source `A`, newline, eight spaces and `B`, newline,
`C`, and the lexer state after them: at the end of the input with indentation 4. -/
theorem tokens_deep_block {A B C : Str} (hA : IsIdentifier A) (hB : IsIdentifier B)
    (hC : IsIdentifier C) :
    tokens 5 (New (A ++ 10 :: 32 :: 32 :: 32 :: 32 :: 32 :: 32 :: 32 :: 32 :: (B ++ 10 :: C))) =
      [⟨.IDENT, A⟩, ⟨.INDENT, []⟩, ⟨.IDENT, B⟩, ⟨.DEDENT, []⟩, ⟨.IDENT, C⟩] ∧
    ∃ k, (A ++ 10 :: 32 :: 32 :: 32 :: 32 :: 32 :: 32 :: 32 :: 32 :: (B ++ 10 :: C)).length ≤ k ∧
      after 5 (New (A ++ 10 :: 32 :: 32 :: 32 :: 32 :: 32 :: 32 :: 32 :: 32 :: (B ++ 10 :: C))) =
        atPos (A ++ 10 :: 32 :: 32 :: 32 :: 32 :: 32 :: 32 :: 32 :: 32 :: (B ++ 10 :: C)) k 4 := by
  have d0 : (A ++ 10 :: 32 :: 32 :: 32 :: 32 :: 32 :: 32 :: 32 :: 32 :: (B ++ 10 :: C)).drop 0 =
      A ++ 10 :: ([32, 32, 32, 32, 32, 32, 32, 32] ++ (B ++ 10 :: ([] ++ (C ++ [])))) := by simp
  obtain ⟨e1, d1⟩ := step_IDENT 0 d0 hA rfl
  have hBh : ∀ r : Str, (B ++ r).headD 0 ≠ 32 ∧ (B ++ r).headD 0 ≠ 9 := by
    intro r
    obtain ⟨c, t, rfl⟩ := List.exists_cons_of_ne_nil hB.1
    have hc := (isLetter_iff c).1 (hB.2.1 c (by simp))
    show c ≠ 32 ∧ c ≠ 9
    omega
  have hCh : ∀ r : Str, (C ++ r).headD 0 ≠ 32 ∧ (C ++ r).headD 0 ≠ 9 := by
    intro r
    obtain ⟨c, t, rfl⟩ := List.exists_cons_of_ne_nil hC.1
    have hc := (isLetter_iff c).1 (hC.2.1 c (by simp))
    show c ≠ 32 ∧ c ≠ 9
    omega
  have hw : indentWidth [32, 32, 32, 32, 32, 32, 32, 32] = 8 := by decide
  have e2 := NextToken_newline 0 d1 (by simp) (hBh _)
  have d2 := drop_add_of_drop_eq_append (drop_succ_of_drop_eq_cons d1)
  rw [hw, if_pos (by decide)] at e2
  obtain ⟨e3, d3⟩ := step_IDENT 8 d2 hB rfl
  have e4 := NextToken_newline 8 d3 (by simp) (hCh _)
  have d4 := drop_add_of_drop_eq_append (drop_succ_of_drop_eq_cons d3)
  rw [if_neg (by decide), if_pos (by decide)] at e4
  have hz : (8 : Int) - 4 = 4 := by decide
  rw [hz] at e4
  obtain ⟨e5, d5⟩ := step_IDENT 4 d4 hC rfl
  refine ⟨by simp only [tokens, New_eq_atPos, e1, e2, e3, e4, e5],
    0 + A.length + 1 + [32, 32, 32, 32, 32, 32, 32, 32].length + B.length + 1 +
      ([] : Str).length + C.length, ?_, ?_⟩
  · simp; omega
  · simp only [after, New_eq_atPos, e1, e2, e3, e4, e5]

end lexer

/-- C26: a dedent retracts by a fixed step of 4 and emits one token per newline. For
every lexer state with `current_indent = n` positioned at a newline whose following
line has leading width `w < n` (each space counting 1, each tab 4), `NextToken`
returns one DEDENT and sets `current_indent` to `n - 4`, whatever `n - w` is, leaving
the lexer at the first byte after the leading blanks; so for identifiers `A`, `B`, `C`
the source `A`, newline, eight spaces and `B`, newline, `C` tokenizes to IDENT A,
INDENT, IDENT B, DEDENT, IDENT C, DEDENT and then EOF (the second DEDENT coming only at
the end of the input). -/
theorem C26_dedent_fixed_step (input : Str) (k : Nat) (n : Int) (sp rest : Str)
    (A B C : Str) (m : Nat)
    (h : input.drop k = 10 :: (sp ++ rest)) (hsp : ∀ c ∈ sp, c = 32 ∨ c = 9)
    (hrest : rest.headD 0 ≠ 32 ∧ rest.headD 0 ≠ 9) (hw : indentWidth sp < n)
    (hA : IsIdentifier A) (hB : IsIdentifier B) (hC : IsIdentifier C) :
    lexer.NextToken (lexer.atPos input k n) =
      (⟨.DEDENT, []⟩, lexer.atPos input (k + 1 + sp.length) (n - 4)) ∧
    lexer.tokens (5 + (1 + m))
        (lexer.New (A ++ 10 :: 32 :: 32 :: 32 :: 32 :: 32 :: 32 :: 32 :: 32 :: (B ++ 10 :: C))) =
      [⟨.IDENT, A⟩, ⟨.INDENT, []⟩, ⟨.IDENT, B⟩, ⟨.DEDENT, []⟩, ⟨.IDENT, C⟩] ++
        (⟨.DEDENT, []⟩ :: List.replicate m ⟨.EOF, []⟩) := by
  constructor
  · rw [lexer.NextToken_newline n h hsp hrest, if_neg (by omega), if_pos hw]
  · obtain ⟨h5, j, hj, hafter⟩ := lexer.tokens_deep_block hA hB hC
    rw [lexer.tokens_add, h5, hafter]
    have hone : (((4 : Int) + 3) / 4).toNat = 1 := by decide
    have := lexer.tokens_AtEnd 1 _ (lexer.atPos_AtEnd 4 hj) hone m
    rw [this]
    rfl

/-- C26 at the lexer state of indentation 8 on the newline before a line indented by
two spaces, and at the source `a`, newline, eight spaces and `b`, newline, `c`. -/
theorem C26_dedent_fixed_step_witness :
    lexer.NextToken (lexer.atPos (bytes "x\n  y") 1 8) =
      (⟨.DEDENT, []⟩, lexer.atPos (bytes "x\n  y") (1 + 1 + (bytes "  ").length) (8 - 4)) ∧
    lexer.tokens (5 + (1 + 1)) (lexer.New (bytes "a\n        b\nc")) =
      [⟨.IDENT, bytes "a"⟩, ⟨.INDENT, []⟩, ⟨.IDENT, bytes "b"⟩, ⟨.DEDENT, []⟩,
        ⟨.IDENT, bytes "c"⟩] ++ (⟨.DEDENT, []⟩ :: List.replicate 1 ⟨.EOF, []⟩) :=
  C26_dedent_fixed_step (bytes "x\n  y") 1 8 (bytes "  ") (bytes "y") (bytes "a") (bytes "b")
    (bytes "c") 1 (by decide) (by decide) (by decide) (by decide) (by decide) (by decide)
    (by decide)

/-! ## Call syntax -/

namespace lexer
open token

/-- The token stream of the source `f(d)` for an integer literal `d`. -/
theorem tokens_call_integer {f d : Str} (hf : IsIdentifier f) (hd : IsDigits d) :
    tokens 6 (New (f ++ 40 :: (d ++ [41]))) =
      [⟨.IDENT, f⟩, ⟨.LPAREN, [40]⟩, ⟨.INT, d⟩, ⟨.RPAREN, [41]⟩, ⟨.EOF, []⟩, ⟨.EOF, []⟩] := by
  have d0 : (f ++ 40 :: (d ++ [41])).drop 0 = f ++ 40 :: (d ++ [41]) := by simp
  obtain ⟨e1, d1⟩ := step_IDENT 0 d0 hf rfl
  obtain ⟨e2, d2⟩ := step_punctuation 0 .LPAREN d1 (by decide)
  obtain ⟨e3, d3⟩ := step_INT 0 d2 hd (by simp [isDigit])
  obtain ⟨e4, d4⟩ := step_punctuation 0 .RPAREN d3 (by decide)
  have hlen : (f ++ 40 :: (d ++ [41])).length ≤ 0 + f.length + 1 + d.length + 1 := by
    simp; omega
  have e5 := NextToken_EOF 0 hlen (le_refl 0)
  have e6 := NextToken_EOF 0 (Nat.le_succ_of_le hlen) (le_refl 0)
  simp only [tokens, New_eq_atPos, e1, e2, e3, e4, e5, e6]

/-- The token stream of the source `f("s")` for a string literal `s`. -/
theorem tokens_call_string {f s : Str} (hf : IsIdentifier f) (hs : ∀ c ∈ s, c ≠ 34 ∧ c ≠ 0) :
    tokens 6 (New (f ++ 40 :: 34 :: (s ++ 34 :: [41]))) =
      [⟨.IDENT, f⟩, ⟨.LPAREN, [40]⟩, ⟨.STRING, s⟩, ⟨.RPAREN, [41]⟩, ⟨.EOF, []⟩, ⟨.EOF, []⟩] := by
  have d0 : (f ++ 40 :: 34 :: (s ++ 34 :: [41])).drop 0 = f ++ 40 :: 34 :: (s ++ 34 :: [41]) := by
    simp
  obtain ⟨e1, d1⟩ := step_IDENT 0 d0 hf rfl
  obtain ⟨e2, d2⟩ := step_punctuation 0 .LPAREN d1 (by decide)
  obtain ⟨e3, d3⟩ := step_STRING 0 d2 hs
  obtain ⟨e4, d4⟩ := step_punctuation 0 .RPAREN d3 (by decide)
  have hlen : (f ++ 40 :: 34 :: (s ++ 34 :: [41])).length ≤ 0 + f.length + 1 + s.length + 2 + 1 := by
    simp; omega
  have e5 := NextToken_EOF 0 hlen (le_refl 0)
  have e6 := NextToken_EOF 0 (Nat.le_succ_of_le hlen) (le_refl 0)
  simp only [tokens, New_eq_atPos, e1, e2, e3, e4, e5, e6]

end lexer

namespace parser
open token lexer

/-- The parse of `IDENT f ( INT d ) EOF`: two expression statements. -/
theorem parse_call_integer (l : Lexer) (f d : Str)
    (h : tokens 6 l =
      [⟨.IDENT, f⟩, ⟨.LPAREN, [40]⟩, ⟨.INT, d⟩, ⟨.RPAREN, [41]⟩, ⟨.EOF, []⟩, ⟨.EOF, []⟩])
    (fuel : Nat) (hf : 8 ≤ fuel) :
    ∃ p, ParseProgram fuel (New l) = .ret ⟨[.ExpressionStatement (.Identifier f),
        .ExpressionStatement (.IntegerLiteral d)]⟩ p ∧ p.errors = [] := by
  obtain ⟨n, rfl⟩ : ∃ n, fuel = n + 8 := ⟨fuel - 8, by omega⟩
  obtain ⟨s1, e1, h⟩ := tokens_succ_eq h
  obtain ⟨s2, e2, h⟩ := tokens_succ_eq h
  obtain ⟨s3, e3, h⟩ := tokens_succ_eq h
  obtain ⟨s4, e4, h⟩ := tokens_succ_eq h
  obtain ⟨s5, e5, h⟩ := tokens_succ_eq h
  obtain ⟨s6, e6, -⟩ := tokens_succ_eq h
  simp [ParseProgram, ParseProgramLoop, New, nextToken, e1, e2, e3, e4, e5, e6,
    parseStatement, parseExpressionStatement, parseExpression, parseExpressionLoop,
    parseGroupedExpression, expectPeek, Run.bind, parseIntegerLiteral, peekTokenIs,
    peekPrecedence, precedenceOf, LOWEST]

/-- The parse of `IDENT f ( STRING s ) EOF`: two expression statements. -/
theorem parse_call_string (l : Lexer) (f s : Str)
    (h : tokens 6 l =
      [⟨.IDENT, f⟩, ⟨.LPAREN, [40]⟩, ⟨.STRING, s⟩, ⟨.RPAREN, [41]⟩, ⟨.EOF, []⟩, ⟨.EOF, []⟩])
    (fuel : Nat) (hf : 8 ≤ fuel) :
    ∃ p, ParseProgram fuel (New l) = .ret ⟨[.ExpressionStatement (.Identifier f),
        .ExpressionStatement (.StringLiteral s)]⟩ p ∧ p.errors = [] := by
  obtain ⟨n, rfl⟩ : ∃ n, fuel = n + 8 := ⟨fuel - 8, by omega⟩
  obtain ⟨s1, e1, h⟩ := tokens_succ_eq h
  obtain ⟨s2, e2, h⟩ := tokens_succ_eq h
  obtain ⟨s3, e3, h⟩ := tokens_succ_eq h
  obtain ⟨s4, e4, h⟩ := tokens_succ_eq h
  obtain ⟨s5, e5, h⟩ := tokens_succ_eq h
  obtain ⟨s6, e6, -⟩ := tokens_succ_eq h
  simp [ParseProgram, ParseProgramLoop, New, nextToken, e1, e2, e3, e4, e5, e6,
    parseStatement, parseExpressionStatement, parseExpression, parseExpressionLoop,
    parseGroupedExpression, expectPeek, Run.bind, parseStringLiteral, peekTokenIs,
    peekPrecedence, precedenceOf, LOWEST]

end parser

namespace parser
open token lexer

theorem Run.bind_eq_ret {α β : Type} {r : Run α} {f : α → Parser → Run β} {b : β}
    {p2 : Parser} (h : r.bind f = .ret b p2) :
    ∃ a p1, r = .ret a p1 ∧ f a p1 = .ret b p2 := by
  cases r with
  | ret a p1 => exact ⟨a, p1, rfl, h⟩
  | panic => simp [Run.bind] at h
  | outOfFuel => simp [Run.bind] at h

theorem hasCallList_append (xs ys : List Statement) :
    Statement.hasCallList (xs ++ ys) = (Statement.hasCallList xs || Statement.hasCallList ys) := by
  induction xs with
  | nil => simp [Statement.hasCallList]
  | cons x t ih => simp [Statement.hasCallList, ih, Bool.or_assoc]

/-- No expression routine builds a call-expression. -/
theorem expression_routines_call_free : ∀ fuel : Nat,
    (∀ prec p e p2, parseExpression fuel prec p = .ret e p2 → e.hasCall = false) ∧
    (∀ prec p left e p2, left.hasCall = false →
      parseExpressionLoop fuel prec p left = .ret e p2 → e.hasCall = false) ∧
    (∀ p e p2, parseGroupedExpression fuel p = .ret e p2 → e.hasCall = false) ∧
    (∀ p left e p2, left.hasCall = false →
      parseInfixExpression fuel p left = .ret e p2 → e.hasCall = false) := by
  intro fuel
  induction fuel with
  | zero =>
    refine ⟨?_, ?_, ?_, ?_⟩
    · intro prec p e p2 h; simp [parseExpression] at h
    · intro prec p left e p2 _ h; simp [parseExpressionLoop] at h
    · intro p e p2 h; simp [parseGroupedExpression] at h
    · intro p left e p2 _ h; simp [parseInfixExpression] at h
  | succ n ih =>
    obtain ⟨ihE, ihL, ihG, ihI⟩ := ih
    refine ⟨?_, ?_, ?_, ?_⟩
    · intro prec p e p2 h
      simp only [parseExpression] at h
      split at h
      · exact ihL _ _ _ _ _ (by rfl) h
      · exact ihL _ _ _ _ _ (by rfl) h
      · exact ihL _ _ _ _ _ (by rfl) h
      · exact ihL _ _ _ _ _ (by rfl) h
      · obtain ⟨a, p1, h1, h2⟩ := Run.bind_eq_ret h
        exact ihL _ _ _ _ _ (ihG _ _ _ h1) h2
      · injection h with h1 _
        rw [← h1]; rfl
    · intro prec p left e p2 hleft h
      simp only [parseExpressionLoop] at h
      split at h
      · split at h
        all_goals first
          | (obtain ⟨a, p1, h1, h2⟩ := Run.bind_eq_ret h
             exact ihL _ _ _ _ _ (ihI _ _ _ _ hleft h1) h2)
          | (injection h with h1 _
             rw [← h1]; exact hleft)
      · injection h with h1 _
        rw [← h1]; exact hleft
    · intro p e p2 h
      simp only [parseGroupedExpression] at h
      obtain ⟨a, p1, h1, h2⟩ := Run.bind_eq_ret h
      split at h2
      · injection h2 with h3 _
        rw [← h3]; exact ihE _ _ _ _ h1
      · injection h2 with h3 _
        rw [← h3]; rfl
    · intro p left e p2 hleft h
      simp only [parseInfixExpression] at h
      obtain ⟨a, p1, h1, h2⟩ := Run.bind_eq_ret h
      injection h2 with h3 _
      rw [← h3]
      simp [Expression.hasCall, hleft, ihE _ _ _ _ h1]

end parser

namespace parser
open token lexer

theorem parseExpression_call_free {fuel prec : Nat} {p p2 : Parser} {e : Expression}
    (h : parseExpression fuel prec p = .ret e p2) : e.hasCall = false :=
  (expression_routines_call_free fuel).1 prec p e p2 h

theorem parseAssignmentStatement_call_free : ∀ (fuel : Nat) (p p2 : Parser)
    (a : Option AssignmentStatement), parseAssignmentStatement fuel p = .ret a p2 →
    (AssignmentStatement.toStatement a).hasCall = false := by
  intro fuel
  induction fuel with
  | zero => intro p p2 a h; simp [parseAssignmentStatement] at h
  | succ n ih =>
    intro p p2 a h
    simp only [parseAssignmentStatement] at h
    split at h
    · injection h with h1 _
      rw [← h1]; rfl
    · split at h
      · split at h
        · rename_i ra p3 heq
          injection h with h1 _
          rw [← h1]
          exact ih _ _ (some ra) heq
        · simp at h
        · simp at h
        · simp at h
      · obtain ⟨v, p1, h1, h2⟩ := Run.bind_eq_ret h
        injection h2 with h3 _
        rw [← h3]
        exact parseExpression_call_free h1

/-- No statement routine builds a call-expression. -/
theorem statement_routines_call_free : ∀ fuel : Nat,
    (∀ p s p2, parseStatement fuel p = .ret (some s) p2 → s.hasCall = false) ∧
    (∀ p s p2, parseFunctionDefinition fuel p = .ret s p2 → s.hasCall = false) ∧
    (∀ p b p2, parseBlock fuel p = .ret b p2 → Statement.hasCallList b = false) ∧
    (∀ p acc b p2, Statement.hasCallList acc = false →
      parseBlockLoop fuel p acc = .ret b p2 → Statement.hasCallList b = false) ∧
    (∀ p s p2, parseIfStatement fuel p = .ret s p2 → s.hasCall = false) := by
  intro fuel
  induction fuel with
  | zero =>
    refine ⟨?_, ?_, ?_, ?_, ?_⟩
    · intro p s p2 h; simp [parseStatement] at h
    · intro p s p2 h; simp [parseFunctionDefinition] at h
    · intro p b p2 h; simp [parseBlock] at h
    · intro p acc b p2 _ h; simp [parseBlockLoop] at h
    · intro p s p2 h; simp [parseIfStatement] at h
  | succ n ih =>
    obtain ⟨ihS, ihF, ihB, ihL, ihI⟩ := ih
    refine ⟨?_, ?_, ?_, ?_, ?_⟩
    · intro p s p2 h
      simp only [parseStatement] at h
      split at h
      · obtain ⟨a, p1, h1, h2⟩ := Run.bind_eq_ret h
        injection h2 with h3 _
        injection h3 with h4
        rw [← h4]; exact ihF _ _ _ h1
      · obtain ⟨a, p1, h1, h2⟩ := Run.bind_eq_ret h
        injection h2 with h3 _
        injection h3 with h4
        rw [← h4]; exact ihI _ _ _ h1
      · obtain ⟨a, p1, h1, h2⟩ := Run.bind_eq_ret h
        injection h2 with h3 _
        injection h3 with h4
        rw [← h4]
        obtain ⟨v, p3, h5, h6⟩ := Run.bind_eq_ret h1
        injection h6 with h7 _
        rw [← h7]; exact parseExpression_call_free h5
      · split at h
        · obtain ⟨a, p1, h1, h2⟩ := Run.bind_eq_ret h
          injection h2 with h3 _
          injection h3 with h4
          rw [← h4]; exact parseAssignmentStatement_call_free _ _ _ _ h1
        · obtain ⟨a, p1, h1, h2⟩ := Run.bind_eq_ret h
          injection h2 with h3 _
          injection h3 with h4
          rw [← h4]
          obtain ⟨v, p3, h5, h6⟩ := Run.bind_eq_ret h1
          injection h6 with h7 _
          rw [← h7]; exact parseExpression_call_free h5
      · simp at h
      · simp at h
      · simp at h
      · split at h
        · simp at h
        · obtain ⟨a, p1, h1, h2⟩ := Run.bind_eq_ret h
          injection h2 with h3 _
          injection h3 with h4
          rw [← h4]
          obtain ⟨v, p3, h5, h6⟩ := Run.bind_eq_ret h1
          injection h6 with h7 _
          rw [← h7]; exact parseExpression_call_free h5
    · intro p s p2 h
      simp only [parseFunctionDefinition] at h
      split at h
      · injection h with h1 _
        rw [← h1]; rfl
      · obtain ⟨ps, p3, h1, h2⟩ := Run.bind_eq_ret h
        split at h2
        · injection h2 with h3 _
          rw [← h3]; rfl
        · split at h2
          · injection h2 with h3 _
            rw [← h3]; rfl
          · obtain ⟨body, p5, h4, h5⟩ := Run.bind_eq_ret h2
            injection h5 with h6 _
            rw [← h6]
            exact ihB _ _ _ h4
    · intro p b p2 h
      simp only [parseBlock] at h
      split at h
      · injection h with h1 _
        rw [← h1]; rfl
      · obtain ⟨blk, p1, h1, h2⟩ := Run.bind_eq_ret h
        injection h2 with h3 _
        rw [← h3]
        exact ihL _ _ _ _ (by rfl) h1
    · intro p acc b p2 hacc h
      simp only [parseBlockLoop] at h
      split at h
      · obtain ⟨st, p1, h1, h2⟩ := Run.bind_eq_ret h
        refine ihL _ _ _ _ ?_ h2
        cases st with
        | none => exact hacc
        | some s0 =>
          simp only [hasCallList_append, hacc, Statement.hasCallList, ihS _ _ _ h1]
          rfl
      · injection h with h1 _
        rw [← h1]; exact hacc
    · intro p s p2 h
      simp only [parseIfStatement] at h
      obtain ⟨cond, p1, h1, h2⟩ := Run.bind_eq_ret h
      have hc := parseExpression_call_free h1
      split at h2
      · injection h2 with h3 _
        rw [← h3]; rfl
      · split at h2
        · injection h2 with h3 _
          rw [← h3]; rfl
        · obtain ⟨cons, p3, h4, h5⟩ := Run.bind_eq_ret h2
          have hcons := ihB _ _ _ h4
          split at h5
          · split at h5
            · injection h5 with h6 _
              rw [← h6]; rfl
            · obtain ⟨alt, p4, h7, h8⟩ := Run.bind_eq_ret h5
              injection h8 with h9 _
              rw [← h9]
              simp [Statement.hasCall, hc, hcons, ihB _ _ _ h7]
          · injection h5 with h6 _
            rw [← h6]
            simp [Statement.hasCall, hc, hcons]

theorem ParseProgramLoop_call_free : ∀ (fuel : Nat) (p p2 : Parser) (acc : List Statement)
    (prog : Program), Statement.hasCallList acc = false →
    ParseProgramLoop fuel p acc = .ret prog p2 → Statement.hasCallList prog.Statements = false := by
  intro fuel
  induction fuel with
  | zero => intro p p2 acc prog _ h; simp [ParseProgramLoop] at h
  | succ n ih =>
    intro p p2 acc prog hacc h
    simp only [ParseProgramLoop] at h
    split at h
    · obtain ⟨st, p1, h1, h2⟩ := Run.bind_eq_ret h
      refine ih _ _ _ _ ?_ h2
      cases st with
      | none => exact hacc
      | some s0 =>
        simp only [hasCallList_append, hacc, Statement.hasCallList,
          (statement_routines_call_free n).1 _ _ _ h1]
        rfl
    · injection h with h1 _
      rw [← h1]; exact hacc

/-- The parser never builds a call-expression: no statement of a parsed program
contains one. -/
theorem ParseProgram_call_free (fuel : Nat) (p p2 : Parser) (prog : Program)
    (h : ParseProgram fuel p = .ret prog p2) : Statement.hasCallList prog.Statements = false := by
  simp only [ParseProgram] at h
  split at h
  · obtain ⟨st, p1, h1, h2⟩ := Run.bind_eq_ret h
    have hs := (statement_routines_call_free fuel).2.2.2.2 _ _ _ h1
    split at h2
    · injection h2 with h3 _
      rw [← h3]; rfl
    · injection h2 with h3 _
      rw [← h3]
      simp [Statement.hasCallList, hs]
  · exact ParseProgramLoop_call_free fuel p p2 [] prog rfl h

end parser

/-- C28: the parser never builds a call-expression. No statement of a program returned
by `ParseProgram`, on any input, contains one; for every identifier `f` and every
integer literal `d` or string literal `s`, the source `f(d)` (or `f("s")`) parses
without errors to exactly two statements, an expression statement wrapping
`Identifier f` followed by one wrapping the literal; and evaluating the program of the
source `print("hi")` returns the String value `hi`, the world (environment and printed
lines) being left as it was: `print` is not invoked. -/
theorem C28_no_call_expression (input : Str) (fuel0 : Nat) (prog : parser.Program)
    (p0 : parser.Parser) (f d s : Str) (fuel : Nat)
    (hparse : parser.parseSource fuel0 input = .ret prog p0)
    (hf : IsIdentifier f) (hd : IsDigits d) (hs : ∀ c ∈ s, c ≠ 34 ∧ c ≠ 0) (hfuel : 8 ≤ fuel) :
    parser.Statement.hasCallList prog.Statements = false ∧
    (∃ p, parser.parseSource fuel (f ++ 40 :: (d ++ [41])) =
        .ret ⟨[.ExpressionStatement (.Identifier f),
          .ExpressionStatement (.IntegerLiteral d)]⟩ p ∧ p.errors = []) ∧
    (∃ p, parser.parseSource fuel (f ++ 40 :: 34 :: (s ++ 34 :: [41])) =
        .ret ⟨[.ExpressionStatement (.Identifier f),
          .ExpressionStatement (.StringLiteral s)]⟩ p ∧ p.errors = []) ∧
    (∃ p, parser.parseSource 8 (bytes "print(\"hi\")") =
        .ret ⟨[.ExpressionStatement (.Identifier (bytes "print")),
          .ExpressionStatement (.StringLiteral (bytes "hi"))]⟩ p ∧ p.errors = []) ∧
    ∀ w : evaluator.World,
      evaluator.Eval (.program ⟨[.ExpressionStatement (.Identifier (bytes "print")),
          .ExpressionStatement (.StringLiteral (bytes "hi"))]⟩) w =
        some (.String (bytes "hi"), w) := by
  refine ⟨parser.ParseProgram_call_free _ _ _ _ hparse,
    parser.parse_call_integer _ f d (lexer.tokens_call_integer hf hd) fuel hfuel,
    parser.parse_call_string _ f s (lexer.tokens_call_string hf hs) fuel hfuel,
    ⟨_, rfl, rfl⟩, ?_⟩
  intro w
  have hprint : evaluator.builtins (bytes "print") = some (.Builtin .print) := by decide
  simp [evaluator.Eval, evaluator.evalProgram, evaluator.evalProgramLoop,
    evaluator.EvalStatement, evaluator.EvalExpression, evaluator.isError,
    evaluator.evalIdentifier, hprint]

/-- C28 at the sources `print(5)` and `print("hi")`. -/
theorem C28_no_call_expression_witness :
    parser.Statement.hasCallList
        [.ExpressionStatement (.Identifier (bytes "print")),
          .ExpressionStatement (.StringLiteral (bytes "hi"))] = false ∧
    (∃ p, parser.parseSource 8 (bytes "print" ++ 40 :: (bytes "5" ++ [41])) =
        .ret ⟨[.ExpressionStatement (.Identifier (bytes "print")),
          .ExpressionStatement (.IntegerLiteral (bytes "5"))]⟩ p ∧ p.errors = []) := by
  obtain ⟨p, hp⟩ : ∃ p, parser.parseSource 8 (bytes "print(\"hi\")") =
      .ret ⟨[.ExpressionStatement (.Identifier (bytes "print")),
        .ExpressionStatement (.StringLiteral (bytes "hi"))]⟩ p := ⟨_, rfl⟩
  obtain ⟨h1, h2, -⟩ := C28_no_call_expression (bytes "print(\"hi\")") 8
    ⟨[.ExpressionStatement (.Identifier (bytes "print")),
      .ExpressionStatement (.StringLiteral (bytes "hi"))]⟩ p
    (bytes "print") (bytes "5") (bytes "hi") 8 hp (by decide) (by decide) (by decide)
    (by decide)
  exact ⟨h1, h2⟩

/-! ## Lines that keep the indentation -/

namespace lexer
open token

theorem readChar_currentIndent (l : Lexer) : (readChar l).currentIndent = l.currentIndent := rfl

theorem readChar_input (l : Lexer) : (readChar l).input = l.input := rfl

theorem readWhile_currentIndent (cond : Nat → Bool) : ∀ (fuel : Nat) (l : Lexer),
    (readWhile cond fuel l).currentIndent = l.currentIndent := by
  intro fuel
  induction fuel with
  | zero => intro l; rfl
  | succ n ih =>
    intro l
    simp only [readWhile]
    split
    · rw [ih]; rfl
    · rfl

theorem lookup_mem_values {α β : Type} [BEq α] (a : α) (b : β) :
    ∀ l : List (α × β), l.lookup a = some b → b ∈ l.map Prod.snd := by
  intro l
  induction l with
  | nil => intro h; simp [List.lookup] at h
  | cons kv t ih =>
    intro h
    obtain ⟨k, v⟩ := kv
    simp only [List.lookup] at h
    split at h
    · injection h with h1
      simp [h1]
    · simp [ih h]

/-- An identifier or keyword token is never INDENT or DEDENT. -/
theorem LookupIdent_not_structural (x : Str) :
    LookupIdent x ≠ .INDENT ∧ LookupIdent x ≠ .DEDENT := by
  unfold LookupIdent
  cases h : keywords.lookup x with
  | none => exact ⟨by decide, by decide⟩
  | some t =>
    have hm := lookup_mem_values x t keywords h
    constructor
    · intro heq
      change t = .INDENT at heq
      rw [heq] at hm
      revert hm
      decide
    · intro heq
      change t = .DEDENT at heq
      rw [heq] at hm
      revert hm
      decide

theorem ite_ind {α : Type} (P : α → Prop) (c : Prop) [Decidable c] (a b : α)
    (ha : c → P a) (hb : ¬c → P b) : P (if c then a else b) := by
  by_cases h : c
  · rw [if_pos h]; exact ha h
  · rw [if_neg h]; exact hb h

/-- The `switch` returns neither INDENT nor DEDENT and keeps the indentation, unless
it is at a 0 byte with a positive indentation (where it returns the DEDENT of the end
of input). -/
theorem switchToken_not_structural (l : Lexer) (h : l.ch ≠ 0 ∨ l.currentIndent ≤ 0) :
    (switchToken l).1.Type_ ≠ .INDENT ∧ (switchToken l).1.Type_ ≠ .DEDENT ∧
      (switchToken l).2.currentIndent = l.currentIndent := by
  have hid := LookupIdent_not_structural
  let P : Token × Lexer → Prop := fun r =>
    r.1.Type_ ≠ .INDENT ∧ r.1.Type_ ≠ .DEDENT ∧ r.2.currentIndent = l.currentIndent
  suffices hs : P (switchToken l) from hs
  unfold switchToken
  dsimp only
  have hnew : ∀ (ty : TokenType) (c : Nat), ty ≠ .INDENT → ty ≠ .DEDENT →
      P (newToken ty c, readChar l) := fun ty c h1 h2 => ⟨h1, h2, rfl⟩
  have hstr : ∀ q : Nat, P (⟨.STRING, (readString l q).1⟩, (readString l q).2) := fun q =>
    ⟨(by intro e; cases e), (by intro e; cases e),
      by simp only [readString, readChar_currentIndent, readWhile_currentIndent]⟩
  refine ite_ind P _ _ _ (fun _ => hnew _ _ (by decide) (by decide)) (fun _ => ?_)
  refine ite_ind P _ _ _ (fun _ => hnew _ _ (by decide) (by decide)) (fun _ => ?_)
  refine ite_ind P _ _ _ (fun _ => hnew _ _ (by decide) (by decide)) (fun _ => ?_)
  refine ite_ind P _ _ _ (fun _ => hnew _ _ (by decide) (by decide)) (fun _ => ?_)
  refine ite_ind P _ _ _ (fun _ => hnew _ _ (by decide) (by decide)) (fun _ => ?_)
  refine ite_ind P _ _ _ (fun _ => hnew _ _ (by decide) (by decide)) (fun _ => ?_)
  refine ite_ind P _ _ _ (fun _ => hnew _ _ (by decide) (by decide)) (fun _ => ?_)
  refine ite_ind P _ _ _ (fun _ => hnew _ _ (by decide) (by decide)) (fun _ => ?_)
  refine ite_ind P _ _ _ (fun _ => hnew _ _ (by decide) (by decide)) (fun _ => ?_)
  refine ite_ind P _ _ _ (fun _ => hnew _ _ (by decide) (by decide)) (fun _ => ?_)
  refine ite_ind P _ _ _ (fun _ => hnew _ _ (by decide) (by decide)) (fun _ => ?_)
  refine ite_ind P _ _ _ (fun _ => hnew _ _ (by decide) (by decide)) (fun _ => ?_)
  refine ite_ind P _ _ _ (fun _ => hnew _ _ (by decide) (by decide)) (fun _ => ?_)
  refine ite_ind P _ _ _ (fun _ => hnew _ _ (by decide) (by decide)) (fun _ => ?_)
  refine ite_ind P _ _ _ (fun _ => hstr 34) (fun _ => ?_)
  refine ite_ind P _ _ _ (fun _ => hstr 39) (fun _ => ?_)
  refine ite_ind P _ _ _ (fun h0 => ?_) (fun _ => ?_)
  · refine ite_ind P _ _ _ (fun hpos => ?_) (fun _ => ⟨(by intro e; cases e), (by intro e; cases e), rfl⟩)
    rcases h with h | h
    · exact absurd h0 h
    · exact absurd hpos (not_lt.mpr h)
  refine ite_ind P _ _ _ (fun _ => ?_) (fun _ => ?_)
  · exact ⟨(hid _).1, (hid _).2, by simp only [readIdentifier, readWhile_currentIndent]⟩
  refine ite_ind P _ _ _ (fun _ => ?_) (fun _ => hnew _ _ (by decide) (by decide))
  exact ⟨(by intro e; cases e), (by intro e; cases e),
    by simp only [readNumber, readWhile_currentIndent]⟩

end lexer

set_option maxRecDepth 100000 in
/-- C24 (as stated, refuted): a blank line inside an indented block does produce a
structural token. In the source `a`, newline, four spaces and `b`, newline, newline,
`c` the lexer, after three tokens, stands on the newline that ends the line of `b` with
indentation 4, and the next byte is a newline (a blank line); the `NextToken` call that
consumes that newline returns DEDENT and lowers the indentation to 0. Likewise a line
of whitespace whose width equals the indentation, when it ends the input (`a`, newline,
four spaces and `b`, newline, four spaces), gives DEDENT. -/
theorem C24_blank_line_emits_dedent :
    (lexer.after 3 (lexer.New (bytes "a\n    b\n\nc"))).ch = 10 ∧
    (lexer.after 3 (lexer.New (bytes "a\n    b\n\nc"))).currentIndent = 4 ∧
    (bytes "a\n    b\n\nc").drop (lexer.after 3 (lexer.New (bytes "a\n    b\n\nc"))).position =
      [10, 10, 99] ∧
    (lexer.NextToken (lexer.after 3 (lexer.New (bytes "a\n    b\n\nc")))).1 = ⟨.DEDENT, []⟩ ∧
    (lexer.NextToken (lexer.after 3 (lexer.New (bytes "a\n    b\n\nc")))).2.currentIndent = 0 ∧
    (lexer.after 3 (lexer.New (bytes "a\n    b\n    "))).ch = 10 ∧
    (lexer.after 3 (lexer.New (bytes "a\n    b\n    "))).currentIndent = 4 ∧
    (bytes "a\n    b\n    ").drop (lexer.after 3 (lexer.New (bytes "a\n    b\n    "))).position =
      [10, 32, 32, 32, 32] ∧
    (lexer.NextToken (lexer.after 3 (lexer.New (bytes "a\n    b\n    ")))).1 = ⟨.DEDENT, []⟩ ∧
    (lexer.NextToken (lexer.after 3 (lexer.New (bytes "a\n    b\n    ")))).2.currentIndent = 0 := by
  refine ⟨?_, ?_, ?_, ?_, ?_, ?_, ?_, ?_, ?_, ?_⟩ <;> rfl

/-- C24 (amended): for a lexer that stands on a newline at offset `k` with indentation
`ind`, the following line starting with the blanks `sp` (spaces and tabs) and then a
byte that is not a blank: when the width of `sp` equals `ind`, and the line does not
end the input with a positive indentation, the `NextToken` call that consumes the
newline is the `switch` at the line's content, returns neither INDENT nor DEDENT and
leaves the indentation unchanged; when the width differs from `ind` the call returns
INDENT or DEDENT. A blank line is treated like any other line. -/
theorem C24_matching_width_no_structural_token (input : Str) (k : Nat) (ind : Int)
    (sp rest : Str) (h : input.drop k = 10 :: (sp ++ rest)) (hsp : ∀ c ∈ sp, c = 32 ∨ c = 9)
    (hrest : rest.headD 0 ≠ 32 ∧ rest.headD 0 ≠ 9) :
    (lexer.atPos input k ind).ch = 10 ∧
    (indentWidth sp = ind → (rest.headD 0 ≠ 0 ∨ ind ≤ 0) →
      lexer.NextToken (lexer.atPos input k ind) =
        lexer.switchToken (lexer.atPos input (k + 1 + sp.length) ind) ∧
      (lexer.NextToken (lexer.atPos input k ind)).1.Type_ ≠ .INDENT ∧
      (lexer.NextToken (lexer.atPos input k ind)).1.Type_ ≠ .DEDENT ∧
      (lexer.NextToken (lexer.atPos input k ind)).2.currentIndent = ind) ∧
    (indentWidth sp ≠ ind →
      (lexer.NextToken (lexer.atPos input k ind)).1.Type_ = .INDENT ∨
      (lexer.NextToken (lexer.atPos input k ind)).1.Type_ = .DEDENT) := by
  have hnl := lexer.NextToken_newline ind h hsp hrest
  refine ⟨lexer.atPos_ch h, ?_, ?_⟩
  · intro hw hend
    have hgt : ¬ indentWidth sp > ind := by omega
    have hlt : ¬ indentWidth sp < ind := by omega
    rw [if_neg hgt, if_neg hlt] at hnl
    have h1 : input.drop (k + 1) = sp ++ rest := lexer.drop_succ_of_drop_eq_cons h
    have h2 : input.drop (k + 1 + sp.length) = rest := lexer.drop_add_of_drop_eq_append h1
    have hch : (lexer.atPos input (k + 1 + sp.length) ind).ch = rest.headD 0 := by
      show input.getD (k + 1 + sp.length) 0 = rest.headD 0
      rw [lexer.getD_eq_headD_drop, h2]
    have hs := lexer.switchToken_not_structural (lexer.atPos input (k + 1 + sp.length) ind)
      (by rw [hch]; exact hend)
    rw [hnl]
    exact ⟨rfl, hs⟩
  · intro hw
    by_cases hgt : indentWidth sp > ind
    · rw [if_pos hgt] at hnl
      left
      rw [hnl]
    · have hlt : indentWidth sp < ind := by omega
      rw [if_neg hgt, if_pos hlt] at hnl
      right
      rw [hnl]

/-- C24 (amended) at the source `a`, newline, newline, `b`, on its first newline with
indentation 0: the blank line has width 0, and the call returns the ILLEGAL token of
the second newline. -/
theorem C24_matching_width_no_structural_token_witness :
    (bytes "a\n\nb").drop 1 = 10 :: ([] ++ bytes "\nb") ∧
    (lexer.atPos (bytes "a\n\nb") 1 0).ch = 10 ∧
    (indentWidth [] = 0 → ((bytes "\nb").headD 0 ≠ 0 ∨ (0 : Int) ≤ 0) →
      lexer.NextToken (lexer.atPos (bytes "a\n\nb") 1 0) =
        lexer.switchToken (lexer.atPos (bytes "a\n\nb") (1 + 1 + ([] : Str).length) 0) ∧
      (lexer.NextToken (lexer.atPos (bytes "a\n\nb") 1 0)).1.Type_ ≠ .INDENT ∧
      (lexer.NextToken (lexer.atPos (bytes "a\n\nb") 1 0)).1.Type_ ≠ .DEDENT ∧
      (lexer.NextToken (lexer.atPos (bytes "a\n\nb") 1 0)).2.currentIndent = 0) ∧
    (indentWidth [] ≠ 0 →
      (lexer.NextToken (lexer.atPos (bytes "a\n\nb") 1 0)).1.Type_ = .INDENT ∨
      (lexer.NextToken (lexer.atPos (bytes "a\n\nb") 1 0)).1.Type_ = .DEDENT) :=
  ⟨by decide, C24_matching_width_no_structural_token (bytes "a\n\nb") 1 0 [] (bytes "\nb")
    (by decide) (by simp) (by decide)⟩

/-! ## Errors recorded for a missing token -/

namespace lexer
open token

/-- The token stream of the source `(a`. -/
theorem tokens_unclosed {a : Str} (ha : IsDigits a) :
    tokens 4 (New (40 :: a)) = [⟨.LPAREN, [40]⟩, ⟨.INT, a⟩, ⟨.EOF, []⟩, ⟨.EOF, []⟩] := by
  have d0 : (40 :: a).drop 0 = 40 :: (a ++ []) := by simp
  obtain ⟨e1, d1⟩ := step_punctuation 0 .LPAREN d0 (by decide)
  obtain ⟨e2, d2⟩ := step_INT 0 d1 ha (by simp [isDigit])
  have hlen : (40 :: a).length ≤ 0 + 1 + a.length := by simp; omega
  have e3 := NextToken_EOF 0 hlen (le_refl 0)
  have e4 := NextToken_EOF 0 (Nat.le_succ_of_le hlen) (le_refl 0)
  simp only [tokens, New_eq_atPos, e1, e2, e3, e4]

end lexer

namespace parser
open token lexer

/-- The parse of `LPAREN, INT a, EOF`: the missing `)` is reported twice, by
`expectPeek` and by `parseGroupedExpression`. -/
theorem parse_unclosed (l : Lexer) (a : Str)
    (h : tokens 4 l = [⟨.LPAREN, [40]⟩, ⟨.INT, a⟩, ⟨.EOF, []⟩, ⟨.EOF, []⟩])
    (fuel : Nat) (hf : 8 ≤ fuel) :
    ∃ p, ParseProgram fuel (New l) = .ret ⟨[.ExpressionStatement .nil]⟩ p ∧
      p.errors = [bytes "expected next token to be ), got EOF instead",
        bytes "expected ')', got INT"] := by
  obtain ⟨n, rfl⟩ : ∃ n, fuel = n + 8 := ⟨fuel - 8, by omega⟩
  obtain ⟨s1, e1, h⟩ := tokens_succ_eq h
  obtain ⟨s2, e2, h⟩ := tokens_succ_eq h
  obtain ⟨s3, e3, h⟩ := tokens_succ_eq h
  obtain ⟨s4, e4, -⟩ := tokens_succ_eq h
  simp [ParseProgram, ParseProgramLoop, New, nextToken, e1, e2, e3, e4, parseStatement,
    parseExpressionStatement, parseExpression, parseExpressionLoop, parseGroupedExpression,
    expectPeek, addError, Run.bind, parseIntegerLiteral, peekTokenIs, peekPrecedence,
    precedenceOf, LOWEST, TokenType.text]
  decide

end parser

/-- C25 (as stated, refuted): parsing the unclosed parenthesised source `(5` records
two errors, not one: the message of `expectPeek` and the message that
`parseGroupedExpression` adds after it; the program is one expression statement
without expression. -/
theorem C25_unclosed_parenthesis_records_two_errors :
    ∃ p, parser.parseSource 8 (bytes "(5") = .ret ⟨[.ExpressionStatement .nil]⟩ p ∧
      p.errors = [bytes "expected next token to be ), got EOF instead",
        bytes "expected ')', got INT"] ∧
      p.errors.length = 2 :=
  ⟨_, rfl, by decide, by decide⟩

/-- C25 (amended): a required token missing at a check of `parseBlock` (the INDENT),
of `parseFunctionDefinition` (the `(`, the `)` or the `:`) or of `parseIfStatement`
(the `:` after the condition) appends exactly one string to the error list; a missing
`)` of a parenthesised expression appends two strings, the message of `expectPeek` and
the message of `parseGroupedExpression`. So for every decimal digit string `a` parsing
the source `(a` records exactly two errors, while the sources `def f`, `def f(a`,
`def f()`, `def f():` followed by an unindented line, and `if x` record one each. -/
theorem C25_missing_token_errors (a : Str) (fuel n : Nat) (p : parser.Parser)
    (ha : IsDigits a) (hf : 8 ≤ fuel) :
    (∃ q, parser.parseSource fuel (40 :: a) = .ret ⟨[.ExpressionStatement .nil]⟩ q ∧
      q.errors = [bytes "expected next token to be ), got EOF instead",
        bytes "expected ')', got INT"]) ∧
    (∀ e p1, parser.parseExpression n parser.LOWEST (parser.nextToken p) = .ret e p1 →
      p1.peekTok.Type_ ≠ .RPAREN →
      ∃ q, parser.parseGroupedExpression (n + 1) p = .ret .nil q ∧
        q.errors = p1.errors ++
          [bytes "expected next token to be ), got " ++ p1.peekTok.Type_.text ++
              bytes " instead",
            bytes "expected ')', got " ++ p1.curTok.Type_.text]) ∧
    (p.curTok.Type_ ≠ .INDENT →
      ∃ q, parser.parseBlock (n + 1) p = .ret [] q ∧
        q.errors = p.errors ++ [bytes "expected INDENT, got " ++ p.curTok.Type_.text]) ∧
    ((parser.nextToken (parser.nextToken p)).curTok.Type_ ≠ .LPAREN →
      ∃ q, parser.parseFunctionDefinition (n + 1) p = .ret .FunctionDefinitionNil q ∧
        q.errors = p.errors ++ [bytes "expected '(', got " ++
          (parser.nextToken (parser.nextToken p)).curTok.Type_.text]) ∧
    (∀ ps p3, (parser.nextToken (parser.nextToken p)).curTok.Type_ = .LPAREN →
      parser.parseFunctionParameters n
        (parser.nextToken (parser.nextToken (parser.nextToken p))) = .ret ps p3 →
      p3.curTok.Type_ ≠ .RPAREN →
      ∃ q, parser.parseFunctionDefinition (n + 1) p = .ret .FunctionDefinitionNil q ∧
        q.errors = p3.errors ++ [bytes "expected ')', got " ++ p3.curTok.Type_.text]) ∧
    (∀ ps p3, (parser.nextToken (parser.nextToken p)).curTok.Type_ = .LPAREN →
      parser.parseFunctionParameters n
        (parser.nextToken (parser.nextToken (parser.nextToken p))) = .ret ps p3 →
      p3.curTok.Type_ = .RPAREN → (parser.nextToken p3).curTok.Type_ ≠ .COLON →
      ∃ q, parser.parseFunctionDefinition (n + 1) p = .ret .FunctionDefinitionNil q ∧
        q.errors = p3.errors ++
          [bytes "expected ':', got " ++ (parser.nextToken p3).curTok.Type_.text]) ∧
    (∀ c p1, parser.parseExpression n parser.LOWEST (parser.nextToken p) = .ret c p1 →
      c ≠ .nil → p1.curTok.Type_ ≠ .COLON →
      ∃ q, parser.parseIfStatement (n + 1) p = .ret .IfStatementNil q ∧
        q.errors = p1.errors ++ [bytes "expected ':', got " ++ p1.curTok.Type_.text]) ∧
    (∃ q, parser.parseSource 8 (bytes "def f") = .ret ⟨[.FunctionDefinitionNil]⟩ q ∧
      q.errors = [bytes "expected '(', got EOF"]) ∧
    (∃ q, parser.parseSource 8 (bytes "def f(a") = .ret ⟨[.FunctionDefinitionNil]⟩ q ∧
      q.errors = [bytes "expected ')', got IDENT"]) ∧
    (∃ q, parser.parseSource 8 (bytes "def f()") = .ret ⟨[.FunctionDefinitionNil]⟩ q ∧
      q.errors = [bytes "expected ':', got EOF"]) ∧
    (∃ q, parser.parseSource 8 (bytes "def f():\nx") =
        .ret ⟨[.FunctionDefinition (bytes "f") [] []]⟩ q ∧
      q.errors = [bytes "expected INDENT, got IDENT"]) ∧
    (∃ q, parser.parseSource 8 (bytes "if x") = .ret ⟨[]⟩ q ∧
      q.errors = [bytes "expected ':', got IDENT"]) := by
  refine ⟨?_, ?_, ?_, ?_, ?_, ?_, ?_, ⟨_, rfl, by decide⟩, ⟨_, rfl, by decide⟩,
    ⟨_, rfl, by decide⟩, ⟨_, rfl, by decide⟩, ⟨_, rfl, by decide⟩⟩
  · exact parser.parse_unclosed _ a (lexer.tokens_unclosed ha) fuel hf
  · intro e p1 he hpk
    have hb : parser.peekTokenIs p1 .RPAREN = false := by
      simp [parser.peekTokenIs, hpk]
    have hv : parser.parseGroupedExpression (n + 1) p = .ret .nil
        (parser.addError (parser.addError p1
          (bytes "expected next token to be " ++ token.TokenType.RPAREN.text ++ bytes ", got " ++
            p1.peekTok.Type_.text ++ bytes " instead"))
          (bytes "expected ')', got " ++ p1.curTok.Type_.text)) := by
      simp only [parser.parseGroupedExpression, he, parser.Run.bind, parser.expectPeek, hb]
      rfl
    have hm : bytes "expected next token to be " ++ token.TokenType.RPAREN.text ++
        bytes ", got " = bytes "expected next token to be ), got " := by decide
    rw [hm] at hv
    refine ⟨_, hv, ?_⟩
    simp [parser.addError]
  · intro h
    have hv : parser.parseBlock (n + 1) p = .ret []
        (parser.addError p (bytes "expected INDENT, got " ++ p.curTok.Type_.text)) := by
      simp only [parser.parseBlock, if_pos h]
    exact ⟨_, hv, rfl⟩
  · intro h
    have hv : parser.parseFunctionDefinition (n + 1) p = .ret .FunctionDefinitionNil
        (parser.addError (parser.nextToken (parser.nextToken p)) (bytes "expected '(', got " ++
          (parser.nextToken (parser.nextToken p)).curTok.Type_.text)) := by
      simp only [parser.parseFunctionDefinition, if_pos h]
    exact ⟨_, hv, rfl⟩
  · intro ps p3 h hps hne
    have h1 : ¬ (parser.nextToken (parser.nextToken p)).curTok.Type_ ≠ .LPAREN := by
      simp [h]
    have hv : parser.parseFunctionDefinition (n + 1) p = .ret .FunctionDefinitionNil
        (parser.addError p3 (bytes "expected ')', got " ++ p3.curTok.Type_.text)) := by
      simp only [parser.parseFunctionDefinition, if_neg h1, hps, parser.Run.bind, if_pos hne]
    exact ⟨_, hv, rfl⟩
  · intro ps p3 h hps heq hne
    have h1 : ¬ (parser.nextToken (parser.nextToken p)).curTok.Type_ ≠ .LPAREN := by
      simp [h]
    have h2 : ¬ p3.curTok.Type_ ≠ .RPAREN := by simp [heq]
    have hv : parser.parseFunctionDefinition (n + 1) p = .ret .FunctionDefinitionNil
        (parser.addError (parser.nextToken p3)
          (bytes "expected ':', got " ++ (parser.nextToken p3).curTok.Type_.text)) := by
      simp only [parser.parseFunctionDefinition, if_neg h1, hps, parser.Run.bind, if_neg h2,
        if_pos hne]
    exact ⟨_, hv, rfl⟩
  · intro c p1 hc hnil hne
    have hv : parser.parseIfStatement (n + 1) p = .ret .IfStatementNil
        (parser.addError p1 (bytes "expected ':', got " ++ p1.curTok.Type_.text)) := by
      simp only [parser.parseIfStatement, hc, parser.Run.bind]
      cases c with
      | nil => exact absurd rfl hnil
      | _ => simp only [if_pos hne]
    exact ⟨_, hv, rfl⟩

/-- C25 (amended) at the source `(5`, and at the parser that stands on the identifier
of the source `x` for the check of `parseBlock`. -/
theorem C25_missing_token_errors_witness :
    IsDigits (bytes "5") ∧ 8 ≤ 8 ∧
    (∃ q, parser.parseSource 8 (40 :: bytes "5") = .ret ⟨[.ExpressionStatement .nil]⟩ q ∧
      q.errors = [bytes "expected next token to be ), got EOF instead",
        bytes "expected ')', got INT"]) ∧
    ((parser.New (lexer.New (bytes "x"))).curTok.Type_ ≠ .INDENT →
      ∃ q, parser.parseBlock (0 + 1) (parser.New (lexer.New (bytes "x"))) = .ret [] q ∧
        q.errors = (parser.New (lexer.New (bytes "x"))).errors ++
          [bytes "expected INDENT, got " ++
            (parser.New (lexer.New (bytes "x"))).curTok.Type_.text]) :=
  ⟨by decide, by decide,
    (C25_missing_token_errors (bytes "5") 8 0 (parser.New (lexer.New (bytes "x")))
      (by decide) (by decide)).1,
    (C25_missing_token_errors (bytes "5") 8 0 (parser.New (lexer.New (bytes "x")))
      (by decide) (by decide)).2.2.1⟩

/-! ## Termination: the lexer -/

namespace lexer
open token

theorem atPos_ch_lt {input : Str} {k : Nat} {ind : Int} (h : (atPos input k ind).ch ≠ 0) :
    k < input.length := by
  by_contra hk
  exact h (atPos_ch_end (List.drop_eq_nil_of_le (by omega)))

/-- A scanning loop leaves the lexer at a later offset, and at least one byte later
when it starts on a byte that satisfies its condition. -/
theorem readWhile_advances (cond : Nat → Bool) (input : Str) (ind : Int) :
    ∀ (fuel k : Nat), ∃ m, readWhile cond fuel (atPos input k ind) = atPos input (k + m) ind ∧
      (cond (atPos input k ind).ch = true → 0 < fuel → 1 ≤ m) := by
  intro fuel
  induction fuel with
  | zero => intro k; exact ⟨0, rfl, fun _ h => absurd h (lt_irrefl 0)⟩
  | succ n ih =>
    intro k
    simp only [readWhile]
    by_cases hc : cond (atPos input k ind).ch = true
    · rw [if_pos hc, readChar_atPos]
      obtain ⟨m, hm, -⟩ := ih (k + 1)
      refine ⟨m + 1, ?_, fun _ _ => by omega⟩
      rw [hm]
      congr 1
      omega
    · rw [if_neg hc]
      exact ⟨0, rfl, fun h => absurd h hc⟩

/-- A scanning loop whose condition fails on the 0 byte stops by its condition within
the iterations granted to it: the input length plus one. -/
theorem readWhile_stops (cond : Nat → Bool) (h0 : cond 0 = false) (input : Str) (ind : Int) :
    ∀ (fuel k : Nat), input.length + 1 ≤ fuel + k →
      cond (readWhile cond fuel (atPos input k ind)).ch = false := by
  intro fuel
  induction fuel with
  | zero =>
    intro k hk
    have hch : (atPos input k ind).ch = 0 :=
      atPos_ch_end (List.drop_eq_nil_of_le (by omega))
    simp only [readWhile, hch, h0]
  | succ n ih =>
    intro k hk
    simp only [readWhile]
    by_cases hc : cond (atPos input k ind).ch = true
    · rw [if_pos hc, readChar_atPos]
      exact ih (k + 1) (by omega)
    · rw [if_neg hc]
      simpa using hc

/-- The indentation loop leaves the lexer at a later offset within the input, having
added at most 4 to the width for every byte it passed. -/
theorem indentLoop_advances (input : Str) (ind : Int) :
    ∀ (fuel k : Nat) (w : Int), ∃ (m : Nat) (w1 : Int),
      indentLoop fuel (atPos input k ind) w = (atPos input (k + m) ind, w1) ∧
      w ≤ w1 ∧ w1 ≤ w + 4 * m ∧ (m = 0 ∨ k + m ≤ input.length) := by
  intro fuel
  induction fuel with
  | zero => intro k w; exact ⟨0, w, rfl, le_refl _, by simp, Or.inl rfl⟩
  | succ n ih =>
    intro k w
    simp only [indentLoop]
    by_cases hc : (atPos input k ind).ch = 32 ∨ (atPos input k ind).ch = 9
    · rw [if_pos hc, readChar_atPos]
      have hlt : k < input.length := atPos_ch_lt (by rcases hc with h | h <;> rw [h] <;> decide)
      obtain ⟨m, w1, hm, h1, h2, h3⟩ := ih (k + 1)
        (if (atPos input k ind).ch = 32 then w + 1
          else if (atPos input k ind).ch = 9 then w + 4 else w)
      refine ⟨m + 1, w1, ?_, ?_, ?_, Or.inr (by omega)⟩
      · rw [hm]
        congr 2
        omega
      · split_ifs at h1 <;> omega
      · split_ifs at h2 <;> push_cast <;> omega
    · rw [if_neg hc]
      exact ⟨0, w, rfl, le_refl _, by simp, Or.inl rfl⟩

theorem tokenWeight_le_one (t : Token) : tokenWeight t ≤ 1 := by
  unfold tokenWeight
  split <;> omega

/-- The `switch` leaves the lexer in a state that `readChar` leaves, and the potential
falls by at least the weight of the token returned. -/
theorem switchToken_potential (input : Str) (j : Nat) (ind : Int) :
    ∃ (k1 : Nat) (ind1 : Int), (switchToken (atPos input j ind)).2 = atPos input k1 ind1 ∧
      5 * (input.length + 1 - k1) + ind1.toNat + tokenWeight (switchToken (atPos input j ind)).1 ≤
        5 * (input.length + 1 - j) + ind.toNat := by
  let P : Token × Lexer → Prop := fun r =>
    ∃ (k1 : Nat) (ind1 : Int), r.2 = atPos input k1 ind1 ∧
      5 * (input.length + 1 - k1) + ind1.toNat + tokenWeight r.1 ≤
        5 * (input.length + 1 - j) + ind.toNat
  suffices hs : P (switchToken (atPos input j ind)) from hs
  have hadv : ∀ (tok : Token) (k1 : Nat), j < input.length → j + 1 ≤ k1 →
      P (tok, atPos input k1 ind) := by
    intro tok k1 hj hk
    refine ⟨k1, ind, rfl, ?_⟩
    have := tokenWeight_le_one tok
    show 5 * (input.length + 1 - k1) + ind.toNat + tokenWeight tok ≤ _
    omega
  have hone : ∀ (tok : Token), (atPos input j ind).ch ≠ 0 →
      P (tok, readChar (atPos input j ind)) := by
    intro tok hch
    rw [readChar_atPos]
    exact hadv tok (j + 1) (atPos_ch_lt hch) (le_refl _)
  have hstr : ∀ q : Nat, (atPos input j ind).ch ≠ 0 →
      P (⟨.STRING, (readString (atPos input j ind) q).1⟩, (readString (atPos input j ind) q).2) := by
    intro q hch
    obtain ⟨m, hm, -⟩ := readWhile_advances (fun ch => !(ch == q || ch == 0)) input ind
      (loopFuel (atPos input j ind)) (j + 1)
    have : (readString (atPos input j ind) q).2 = atPos input (j + 1 + m + 1) ind := by
      simp only [readString, readChar_atPos, hm]
    rw [this]
    exact hadv _ _ (atPos_ch_lt hch) (by omega)
  unfold switchToken
  dsimp only
  refine ite_ind P _ _ _ (fun h => hone _ (by rw [h]; decide)) (fun _ => ?_)
  refine ite_ind P _ _ _ (fun h => hone _ (by rw [h]; decide)) (fun _ => ?_)
  refine ite_ind P _ _ _ (fun h => hone _ (by rw [h]; decide)) (fun _ => ?_)
  refine ite_ind P _ _ _ (fun h => hone _ (by rw [h]; decide)) (fun _ => ?_)
  refine ite_ind P _ _ _ (fun h => hone _ (by rw [h]; decide)) (fun _ => ?_)
  refine ite_ind P _ _ _ (fun h => hone _ (by rw [h]; decide)) (fun _ => ?_)
  refine ite_ind P _ _ _ (fun h => hone _ (by rw [h]; decide)) (fun _ => ?_)
  refine ite_ind P _ _ _ (fun h => hone _ (by rw [h]; decide)) (fun _ => ?_)
  refine ite_ind P _ _ _ (fun h => hone _ (by rw [h]; decide)) (fun _ => ?_)
  refine ite_ind P _ _ _ (fun h => hone _ (by rw [h]; decide)) (fun _ => ?_)
  refine ite_ind P _ _ _ (fun h => hone _ (by rw [h]; decide)) (fun _ => ?_)
  refine ite_ind P _ _ _ (fun h => hone _ (by rw [h]; decide)) (fun _ => ?_)
  refine ite_ind P _ _ _ (fun h => hone _ (by rw [h]; decide)) (fun _ => ?_)
  refine ite_ind P _ _ _ (fun h => hone _ (by rw [h]; decide)) (fun _ => ?_)
  refine ite_ind P _ _ _ (fun h => hstr 34 (by rw [h]; decide)) (fun _ => ?_)
  refine ite_ind P _ _ _ (fun h => hstr 39 (by rw [h]; decide)) (fun _ => ?_)
  refine ite_ind P _ _ _ (fun _ => ?_) (fun h0 => ?_)
  · refine ite_ind P _ _ _ (fun hpos => ?_) (fun _ => ?_)
    · have hpos1 : ind > 0 := hpos
      refine ⟨j, ind - 4, ?_, ?_⟩
      · simp only [handleEOF, if_pos hpos]
        rfl
      · have hw : tokenWeight (handleEOF (atPos input j ind)).1 ≤ 1 := tokenWeight_le_one _
        omega
    · refine ⟨j + 1, ind, readChar_atPos input j ind, ?_⟩
      show 5 * (input.length + 1 - (j + 1)) + ind.toNat + 0 ≤ _
      omega
  refine ite_ind P _ _ _ (fun hl => ?_) (fun _ => ?_)
  · obtain ⟨m, hm, hpos⟩ := readWhile_advances isLetter input ind
      (loopFuel (atPos input j ind)) j
    have hm1 := hpos hl (Nat.succ_pos _)
    have : (readIdentifier (atPos input j ind)).2 = atPos input (j + m) ind := by
      simp only [readIdentifier, hm]
    show P (_, (readIdentifier (atPos input j ind)).2)
    rw [this]
    exact hadv _ _ (atPos_ch_lt h0) (by omega)
  refine ite_ind P _ _ _ (fun hd => ?_) (fun _ => hone _ h0)
  obtain ⟨m, hm, hpos⟩ := readWhile_advances (fun ch => isDigit ch || ch == 46) input ind
    (loopFuel (atPos input j ind)) j
  have hm1 := hpos (by simp [hd]) (Nat.succ_pos _)
  have : (readNumber (atPos input j ind)).2 = atPos input (j + m) ind := by
    simp only [readNumber, hm]
  show P (_, (readNumber (atPos input j ind)).2)
  rw [this]
  exact hadv _ _ (atPos_ch_lt h0) (by omega)

end lexer

namespace lexer
open token

/-- The blanks skipped, then the `switch`: the potential falls by at least the weight
of the token. -/
theorem skip_switch_potential (input : Str) (j : Nat) (ind : Int) :
    ∃ (k1 : Nat) (ind1 : Int),
      (switchToken (skipWhitespace (atPos input j ind))).2 = atPos input k1 ind1 ∧
      5 * (input.length + 1 - k1) + ind1.toNat +
          tokenWeight (switchToken (skipWhitespace (atPos input j ind))).1 ≤
        5 * (input.length + 1 - j) + ind.toNat := by
  obtain ⟨m, hm, -⟩ := readWhile_advances (fun ch => ch == 32 || ch == 9) input ind
    (loopFuel (atPos input j ind)) j
  have hs : skipWhitespace (atPos input j ind) = atPos input (j + m) ind := hm
  rw [hs]
  obtain ⟨k1, ind1, h1, h2⟩ := switchToken_potential input (j + m) ind
  exact ⟨k1, ind1, h1, by omega⟩

/-- Every `NextToken` call leaves the lexer in a state that `readChar` leaves, and
the potential falls by at least the weight of the token returned: it never grows, and
it falls when the token is not EOF. -/
theorem NextToken_potential (input : Str) (k : Nat) (ind : Int) :
    ∃ (k1 : Nat) (ind1 : Int), (NextToken (atPos input k ind)).2 = atPos input k1 ind1 ∧
      5 * (input.length + 1 - k1) + ind1.toNat + tokenWeight (NextToken (atPos input k ind)).1 ≤
        5 * (input.length + 1 - k) + ind.toNat := by
  by_cases hch : (atPos input k ind).ch = 10
  · have hlt : k < input.length := atPos_ch_lt (by rw [hch]; decide)
    obtain ⟨m, w1, hloop, hw0, hw1, hm⟩ := indentLoop_advances input ind
      (loopFuel (atPos input (k + 1) ind)) (k + 1) 0
    have hv : NextToken (atPos input k ind) =
        if w1 > ind then
          ({ Type_ := .INDENT, Literal := [] }, atPos input (k + 1 + m) w1)
        else if w1 < ind then
          ({ Type_ := .DEDENT, Literal := [] }, atPos input (k + 1 + m) (ind - 4))
        else switchToken (skipWhitespace (atPos input (k + 1 + m) ind)) := by
      simp only [NextToken, hch, if_true, readChar_atPos, handleIndentation, hloop]
      by_cases hgt : w1 > ind
      · have hgt2 : w1 > (atPos input (k + 1 + m) ind).currentIndent := hgt
        simp [hgt, hgt2, atPos]
      · by_cases hlt2 : w1 < ind
        · have hgt2 : ¬ w1 > (atPos input (k + 1 + m) ind).currentIndent := hgt
          have hlt3 : w1 < (atPos input (k + 1 + m) ind).currentIndent := hlt2
          simp only [hgt, hgt2, hlt2, hlt3, if_true, if_false]
          simp [atPos]
        · have hgt2 : ¬ w1 > (atPos input (k + 1 + m) ind).currentIndent := hgt
          have hlt3 : ¬ w1 < (atPos input (k + 1 + m) ind).currentIndent := hlt2
          simp only [hgt, hgt2, hlt2, hlt3, if_false]
          simp only [ne_eq, not_true_eq_false, if_false]
    rw [hv]
    by_cases hgt : w1 > ind
    · rw [if_pos hgt]
      refine ⟨k + 1 + m, w1, rfl, ?_⟩
      show 5 * (input.length + 1 - (k + 1 + m)) + w1.toNat + 1 ≤ _
      omega
    · by_cases hlt2 : w1 < ind
      · rw [if_neg hgt, if_pos hlt2]
        refine ⟨k + 1 + m, ind - 4, rfl, ?_⟩
        show 5 * (input.length + 1 - (k + 1 + m)) + (ind - 4).toNat + 1 ≤ _
        omega
      · rw [if_neg hgt, if_neg hlt2]
        obtain ⟨k1, ind1, h1, h2⟩ := skip_switch_potential input (k + 1 + m) ind
        exact ⟨k1, ind1, h1, by omega⟩
  · simp only [NextToken, hch, if_false]
    exact skip_switch_potential input k ind

/-- `NextToken` keeps the lexer well-formed and does not raise its potential. -/
theorem NextToken_Wf (l : Lexer) (h : l.Wf) :
    (NextToken l).2.Wf ∧ potential (NextToken l).2 + tokenWeight (NextToken l).1 ≤ potential l := by
  unfold Lexer.Wf at h
  obtain ⟨k1, ind1, h1, h2⟩ := NextToken_potential l.input l.position l.currentIndent
  rw [← h] at h1 h2
  rw [h1]
  exact ⟨rfl, h2⟩

/-- After finitely many calls `NextToken` returns an EOF token. -/
theorem reaches_EOF : ∀ (n : Nat) (l : Lexer), l.Wf → potential l ≤ n →
    ∃ m, (NextToken (after m l)).1.Type_ = .EOF := by
  intro n
  induction n with
  | zero =>
    intro l h hp
    refine ⟨0, ?_⟩
    have h2 := (NextToken_Wf l h).2
    by_contra hne
    have hne2 : ¬ (NextToken l).1.Type_ = .EOF := hne
    have : tokenWeight (NextToken l).1 = 1 := by simp [tokenWeight, hne2]
    omega
  | succ n ih =>
    intro l h hp
    by_cases he : (NextToken l).1.Type_ = .EOF
    · exact ⟨0, he⟩
    · have h2 := NextToken_Wf l h
      have hw : tokenWeight (NextToken l).1 = 1 := by simp [tokenWeight, he]
      obtain ⟨m, hm⟩ := ih (NextToken l).2 h2.1 (by omega)
      exact ⟨m + 1, hm⟩

end lexer

/-! ## Termination: the parser -/

namespace parser
open token lexer

theorem nextToken_remaining (p : Parser) (h : p.l.Wf) :
    (nextToken p).l.Wf ∧ remaining (nextToken p) + tokenWeight p.curTok ≤ remaining p := by
  have h1 := NextToken_Wf p.l h
  refine ⟨h1.1, ?_⟩
  show potential (NextToken p.l).2 + tokenWeight (NextToken p.l).1 + tokenWeight p.peekTok +
    tokenWeight p.curTok ≤ potential p.l + tokenWeight p.peekTok + tokenWeight p.curTok
  omega

theorem tokenWeight_of_ne {t : Token} (h : t.Type_ ≠ .EOF) : tokenWeight t = 1 := by
  simp [tokenWeight, h]

theorem Below.of_nextToken {p : Parser} (h : p.l.Wf) (hc : p.curTok.Type_ ≠ .EOF) :
    Below p (nextToken p) := by
  have h1 := nextToken_remaining p h
  have h2 := tokenWeight_of_ne hc
  exact ⟨h1.1, by omega⟩

theorem Below.step {p q : Parser} (h : Below p q) : Below p (nextToken q) := by
  have h1 := nextToken_remaining q h.1
  exact ⟨h1.1, by have := h.2; omega⟩

theorem Below.and_error {p q : Parser} (h : Below p q) (msg : Str) : Below p (addError q msg) := h

theorem Below.advances {p q : Parser} (h : Below p q) : Advances p q :=
  ⟨h.1, le_of_lt h.2, Or.inl h.2⟩

theorem Advances.refl {p : Parser} (h : p.l.Wf) : Advances p p :=
  ⟨h, le_refl _, Or.inr rfl⟩

theorem Advances.with_error {p q : Parser} (h : Advances p q) (msg : Str) :
    Advances p (addError q msg) := h

theorem Advances.trans {p q r : Parser} (h1 : Advances p q) (h2 : Advances q r) :
    Advances p r := by
  refine ⟨h2.1, le_trans h2.2.1 h1.2.1, ?_⟩
  rcases h2.2.2 with h | h
  · exact Or.inl (lt_of_lt_of_le h h1.2.1)
  · rcases h1.2.2 with h3 | h3
    · exact Or.inl (lt_of_le_of_lt h2.2.1 h3)
    · exact Or.inr (h.trans h3)

theorem Below.trans_advances {p q r : Parser} (h1 : Below p q) (h2 : Advances q r) :
    Below p r :=
  ⟨h2.1, lt_of_le_of_lt h2.2.1 h1.2⟩

theorem Advances.trans_below {p q r : Parser} (h1 : Advances p q) (h2 : Below q r) :
    Below p r :=
  ⟨h2.1, lt_of_lt_of_le h2.2 h1.2.1⟩

/-- After a routine that started on a token other than EOF, one more `nextToken`
leaves less work than at the start. -/
theorem Advances.nextToken_below {p q : Parser} (h : Advances p q)
    (hc : p.curTok.Type_ ≠ .EOF) : Below p (nextToken q) := by
  rcases h.2.2 with h3 | h3
  · exact Below.step ⟨h.1, h3⟩
  · have hq : q.curTok.Type_ ≠ .EOF := by rw [h3]; exact hc
    exact Advances.trans_below h (Below.of_nextToken h.1 hq)

theorem HaltsWith.ret {α : Type} {R : Parser → Prop} (a : α) {q : Parser} (h : R q) :
    HaltsWith R (fun _ => Run.ret a q) :=
  ⟨0, a, q, fun _ _ => rfl, h⟩

theorem HaltsWith.imp {α : Type} {R R1 : Parser → Prop} {g : Nat → Run α}
    (h : HaltsWith R g) (hi : ∀ q, R q → R1 q) : HaltsWith R1 g := by
  obtain ⟨F, a, q, h1, h2⟩ := h
  exact ⟨F, a, q, h1, hi q h2⟩

theorem HaltsWith.bind {α β : Type} {R R1 : Parser → Prop} {g1 : Nat → Run α}
    {g2 : Nat → α → Parser → Run β} (h1 : HaltsWith R g1)
    (h2 : ∀ a q, R q → HaltsWith R1 (fun fuel => g2 fuel a q)) :
    HaltsWith R1 (fun fuel => (g1 fuel).bind (g2 fuel)) := by
  obtain ⟨F1, a, q, e1, r1⟩ := h1
  obtain ⟨F2, b, r, e2, r2⟩ := h2 a q r1
  refine ⟨max F1 F2, b, r, ?_, r2⟩
  intro fuel hf
  have e3 := e2 fuel (le_trans (le_max_right _ _) hf)
  simp only [e1 fuel (le_trans (le_max_left _ _) hf), Run.bind]
  exact e3

theorem HaltsWith.of_succ {α : Type} {R : Parser → Prop} {g g1 : Nat → Run α}
    (heq : ∀ n, g (n + 1) = g1 n) (h : HaltsWith R g1) : HaltsWith R g := by
  obtain ⟨F, a, q, e, r⟩ := h
  refine ⟨F + 1, a, q, ?_, r⟩
  intro fuel hf
  obtain ⟨n, rfl⟩ : ∃ n, fuel = n + 1 := ⟨fuel - 1, by omega⟩
  rw [heq]
  exact e n (by omega)

end parser

namespace parser
open token lexer

/-- The expression routines return, from every well-formed parser state. -/
theorem expression_halts : ∀ (n : Nat) (p : Parser), p.l.Wf → remaining p < n →
    (∀ prec, HaltsWith (Advances p) (fun f => parseExpression f prec p)) ∧
    (∀ prec left, HaltsWith (Advances p) (fun f => parseExpressionLoop f prec p left)) := by
  intro n
  induction n with
  | zero => intro p _ h; exact absurd h (Nat.not_lt_zero _)
  | succ n ih =>
    intro p hwf hlt
    have ihE : ∀ q, Below p q → ∀ prec,
        HaltsWith (Advances q) (fun f => parseExpression f prec q) :=
      fun q hq => (ih q hq.1 (by have := hq.2; omega)).1
    have ihL : ∀ q, Below p q → ∀ prec left,
        HaltsWith (Advances q) (fun f => parseExpressionLoop f prec q left) :=
      fun q hq => (ih q hq.1 (by have := hq.2; omega)).2
    have hL : ∀ prec left,
        HaltsWith (Advances p) (fun f => parseExpressionLoop f prec p left) := by
      intro prec left
      by_cases hc : (!peekTokenIs p .SEMICOLON && decide (prec < peekPrecedence p)) = true ∧
          (p.peekTok.Type_ = .PLUS ∨ p.peekTok.Type_ = .MINUS ∨ p.peekTok.Type_ = .ASTERISK ∨
            p.peekTok.Type_ = .SLASH ∨ p.peekTok.Type_ = .EQ ∨ p.peekTok.Type_ = .NOT_EQ ∨
            p.peekTok.Type_ = .LT ∨ p.peekTok.Type_ = .GT)
      · have heq : ∀ n, parseExpressionLoop (n + 1) prec p left =
            (parseInfixExpression n (nextToken p) left).bind fun left1 p1 =>
              parseExpressionLoop n prec p1 left1 := by
          intro n
          simp only [parseExpressionLoop, hc.1, if_true]
          rcases hc.2 with h | h | h | h | h | h | h | h <;> simp only [h]
        have hop : (nextToken p).curTok.Type_ ≠ .EOF := by
          show p.peekTok.Type_ ≠ .EOF
          rcases hc.2 with h | h | h | h | h | h | h | h <;> rw [h] <;> decide
        have hb1 : Below p (nextToken (nextToken p)) := by
          have h1 := nextToken_remaining p hwf
          have h2 := Below.of_nextToken h1.1 hop
          exact ⟨h2.1, by have := h2.2; omega⟩
        have hinfix : HaltsWith (Below p)
            (fun n => parseInfixExpression n (nextToken p) left) := by
          refine HaltsWith.of_succ (fun n => rfl) ?_
          refine HaltsWith.bind ((ihE _ hb1 _).imp fun q hq => hb1.trans_advances hq) ?_
          intro right q hq
          exact HaltsWith.ret _ hq
        refine HaltsWith.of_succ heq (HaltsWith.bind hinfix ?_)
        intro left1 q hq
        exact (ihL q hq prec left1).imp fun r hr => (hq.trans_advances hr).advances
      · have heq : ∀ n, parseExpressionLoop (n + 1) prec p left = .ret left p := by
          intro n
          simp only [parseExpressionLoop]
          split
          · rename_i hcond
            split <;> first | rfl | (rename_i h; exact absurd ⟨hcond, by simp [h]⟩ hc)
          · rfl
        exact HaltsWith.of_succ heq (HaltsWith.ret _ (Advances.refl hwf))
    refine ⟨?_, hL⟩
    intro prec
    by_cases hI : p.curTok.Type_ = .IDENT
    · exact HaltsWith.of_succ (fun n => by simp only [parseExpression, hI])
        (hL prec (.Identifier p.curTok.Literal))
    by_cases hN : p.curTok.Type_ = .INT
    · exact HaltsWith.of_succ (fun n => by simp only [parseExpression, hN])
        (hL prec (parseIntegerLiteral p))
    by_cases hF : p.curTok.Type_ = .FLOAT
    · exact HaltsWith.of_succ (fun n => by simp only [parseExpression, hF])
        (hL prec (parseFloatLiteral p))
    by_cases hS : p.curTok.Type_ = .STRING
    · exact HaltsWith.of_succ (fun n => by simp only [parseExpression, hS])
        (hL prec (parseStringLiteral p))
    by_cases hP : p.curTok.Type_ = .LPAREN
    · have heq : ∀ n, parseExpression (n + 1) prec p =
          (parseGroupedExpression n p).bind fun leftExp p1 =>
            parseExpressionLoop n prec p1 leftExp := by
        intro n
        simp only [parseExpression, hP]
      have hb1 : Below p (nextToken p) := Below.of_nextToken hwf (by rw [hP]; decide)
      have hgroup : HaltsWith (Below p) (fun n => parseGroupedExpression n p) := by
        refine HaltsWith.of_succ (fun n => rfl) ?_
        refine HaltsWith.bind ((ihE _ hb1 _).imp fun q hq => hb1.trans_advances hq) ?_
        intro exp q hq
        by_cases hpk : peekTokenIs q .RPAREN = true
        · simp only [expectPeek, hpk, if_true]
          exact HaltsWith.ret _ hq.step
        · simp only [expectPeek, hpk]
          exact HaltsWith.ret _ ((hq.and_error _).and_error _)
      refine HaltsWith.of_succ heq (HaltsWith.bind hgroup ?_)
      intro left1 q hq
      exact (ihL q hq prec left1).imp fun r hr => (hq.trans_advances hr).advances
    · have heq : ∀ n, parseExpression (n + 1) prec p =
          .ret .nil (addError p (bytes "unexpected token: " ++ p.curTok.Type_.text)) := by
        intro n
        simp only [parseExpression]
      exact HaltsWith.of_succ heq (HaltsWith.ret _ ((Advances.refl hwf).with_error _))

end parser

namespace parser
open token lexer

theorem expression_halts_all (p : Parser) (h : p.l.Wf) (prec : Nat) :
    HaltsWith (Advances p) (fun f => parseExpression f prec p) :=
  (expression_halts (remaining p + 1) p h (Nat.lt_succ_self _)).1 prec

theorem Below.chain {p q r : Parser} (h1 : Below p q) (h2 : Below q r) : Below p r :=
  ⟨h2.1, lt_trans h2.2 h1.2⟩

theorem HaltsWith.succ {α : Type} {R : Parser → Prop} {g : Nat → Run α}
    (h : HaltsWith R (fun n => g (n + 1))) : HaltsWith R g :=
  HaltsWith.of_succ (fun _ => rfl) h

theorem HaltsWith.const {α : Type} {R : Parser → Prop} {x : Run α} {q : Parser}
    (h : ∃ a, x = .ret a q) (hr : R q) : HaltsWith R (fun _ => x) := by
  obtain ⟨a, rfl⟩ := h
  exact HaltsWith.ret a hr

/-- The loop of `parseFunctionParameters` returns. -/
theorem parseFunctionParametersLoop_halts : ∀ (n : Nat) (p : Parser), p.l.Wf →
    remaining p < n → ∀ parameters,
      HaltsWith (Advances p) (fun f => parseFunctionParametersLoop f p parameters) := by
  intro n
  induction n with
  | zero => intro p _ h; exact absurd h (Nat.not_lt_zero _)
  | succ n ih =>
    intro p hwf hlt parameters
    by_cases hc : p.peekTok.Type_ = .COMMA
    · have h1 := nextToken_remaining p hwf
      have hcur : (nextToken p).curTok.Type_ ≠ .EOF := by
        show p.peekTok.Type_ ≠ .EOF
        rw [hc]; decide
      have h2 := Below.of_nextToken h1.1 hcur
      have hb : Below p (nextToken (nextToken p)) := ⟨h2.1, by have := h2.2; omega⟩
      refine HaltsWith.succ ?_
      simp only [parseFunctionParametersLoop, hc, if_true]
      exact (ih _ hb.1 (by have := hb.2; omega) _).imp fun r hr =>
        (hb.trans_advances hr).advances
    · refine HaltsWith.succ ?_
      simp only [parseFunctionParametersLoop, hc, if_false]
      exact (HaltsWith.ret _ (Advances.refl hwf))

theorem parseFunctionParameters_halts (p : Parser) (hwf : p.l.Wf) :
    HaltsWith (Advances p) (fun f => parseFunctionParameters f p) := by
  by_cases hc : p.curTok.Type_ = .RPAREN
  · simp only [parseFunctionParameters, hc, if_true]
    exact HaltsWith.ret _ (Advances.refl hwf)
  · simp only [parseFunctionParameters, hc, if_false]
    exact parseFunctionParametersLoop_halts (remaining p + 1) p hwf (Nat.lt_succ_self _) _

/-- The routine `parseAssignmentStatement`, entered with `=` as the next token,
returns a statement (not the nil pointer): the chained case never panics. -/
theorem parseAssignmentStatement_halts : ∀ (n : Nat) (p : Parser), p.l.Wf →
    remaining p < n → p.peekTok.Type_ = .ASSIGN →
    ∃ (F : Nat) (a : AssignmentStatement) (q : Parser),
      (∀ fuel, F ≤ fuel → parseAssignmentStatement fuel p = .ret (some a) q) ∧ Below p q := by
  intro n
  induction n with
  | zero => intro p _ h; exact absurd h (Nat.not_lt_zero _)
  | succ n ih =>
    intro p hwf hlt hpk
    have h1 := nextToken_remaining p hwf
    have hcur : (nextToken p).curTok.Type_ = .ASSIGN := hpk
    have h2 := Below.of_nextToken h1.1 (by rw [hcur]; decide)
    have hb : Below p (nextToken (nextToken p)) := ⟨h2.1, by have := h2.2; omega⟩
    have hne : ¬ (nextToken p).curTok.Type_ ≠ .ASSIGN := by simp [hcur]
    by_cases hc : ((nextToken (nextToken p)).curTok.Type_ = .IDENT &&
        peekTokenIs (nextToken (nextToken p)) .ASSIGN) = true
    · have hpk2 : (nextToken (nextToken p)).peekTok.Type_ = .ASSIGN := by
        simp only [Bool.and_eq_true, peekTokenIs, beq_iff_eq, decide_eq_true_eq] at hc
        exact hc.2
      obtain ⟨F, a, q, e, hq⟩ := ih _ hb.1 (by have := hb.2; omega) hpk2
      refine ⟨F + 1, ⟨⟨p.curTok.Literal⟩, a.Value⟩, q, ?_, hb.chain hq⟩
      intro fuel hf
      obtain ⟨n, rfl⟩ : ∃ n, fuel = n + 1 := ⟨fuel - 1, by omega⟩
      simp only [parseAssignmentStatement, if_neg hne, hc, if_true, e n (by omega)]
    · obtain ⟨F, a, q, e, hq⟩ := expression_halts_all _ hb.1 LOWEST
      refine ⟨F + 1, ⟨⟨p.curTok.Literal⟩, a⟩, q, ?_, hb.trans_advances hq⟩
      intro fuel hf
      obtain ⟨n, rfl⟩ : ∃ n, fuel = n + 1 := ⟨fuel - 1, by omega⟩
      simp only [parseAssignmentStatement, if_neg hne, hc, e n (by omega), Run.bind]
      rfl

theorem parseReturnStatement_halts (p : Parser) (hwf : p.l.Wf) (hc : p.curTok.Type_ ≠ .EOF) :
    HaltsWith (Below p) (fun f => parseReturnStatement f p) := by
  have hb := Below.of_nextToken hwf hc
  refine HaltsWith.bind ((expression_halts_all _ hb.1 LOWEST).imp fun q hq =>
    hb.trans_advances hq) ?_
  intro value q hq
  exact HaltsWith.ret _ hq

theorem parseExpressionStatement_halts (p : Parser) (hwf : p.l.Wf) :
    HaltsWith (Advances p) (fun f => parseExpressionStatement f p) := by
  refine HaltsWith.bind (expression_halts_all p hwf LOWEST) ?_
  intro value q hq
  exact HaltsWith.ret _ hq

/-- The routine `parseBlock` returns, when the block loop returns from every state
with less work left. -/
theorem parseBlock_halts (p : Parser) (hwf : p.l.Wf)
    (hloop : ∀ q, Below p q → ∀ block,
      HaltsWith (Advances q) (fun f => parseBlockLoop f q block)) :
    HaltsWith (Advances p) (fun f => parseBlock f p) := by
  by_cases hc : p.curTok.Type_ = .INDENT
  · have hne : ¬ p.curTok.Type_ ≠ .INDENT := by simp [hc]
    have hb : Below p (nextToken { p with indentLevel := p.indentLevel + 1 }) :=
      @Below.of_nextToken { p with indentLevel := p.indentLevel + 1 } hwf
        (by show p.curTok.Type_ ≠ .EOF; rw [hc]; decide)
    refine HaltsWith.succ ?_
    simp only [parseBlock, if_neg hne]
    refine HaltsWith.bind ((hloop _ hb []).imp fun q hq => hb.trans_advances hq) ?_
    intro block q hq
    exact HaltsWith.ret _ (show Advances p { q with indentLevel := q.indentLevel - 1 } from
      hq.advances)
  · have hne : p.curTok.Type_ ≠ .INDENT := hc
    refine HaltsWith.succ ?_
    simp only [parseBlock, if_pos hne]
    exact (HaltsWith.ret _ ((Advances.refl hwf).with_error _))

/-- The routine `parseFunctionDefinition` returns, when `parseBlock` returns from every
state with less work left. -/
theorem parseFunctionDefinition_halts (p : Parser) (hwf : p.l.Wf)
    (hc : p.curTok.Type_ ≠ .EOF)
    (hblock : ∀ q, Below p q → HaltsWith (Advances q) (fun f => parseBlock f q)) :
    HaltsWith (Below p) (fun f => parseFunctionDefinition f p) := by
  have hb1 := Below.of_nextToken hwf hc
  have hb2 : Below p (nextToken (nextToken p)) := hb1.step
  by_cases h1 : (nextToken (nextToken p)).curTok.Type_ = .LPAREN
  · have hne : ¬ (nextToken (nextToken p)).curTok.Type_ ≠ .LPAREN := by simp [h1]
    refine HaltsWith.succ ?_
    simp only [parseFunctionDefinition, if_neg hne]
    have hb3 : Below p (nextToken (nextToken (nextToken p))) := hb2.step
    refine HaltsWith.bind ((parseFunctionParameters_halts _ hb3.1).imp fun q hq =>
      hb3.trans_advances hq) ?_
    intro parameters q hq
    by_cases h2 : q.curTok.Type_ = .RPAREN
    · have hne2 : ¬ q.curTok.Type_ ≠ .RPAREN := by simp [h2]
      by_cases h3 : (nextToken q).curTok.Type_ = .COLON
      · have hne3 : ¬ (nextToken q).curTok.Type_ ≠ .COLON := by simp [h3]
        simp only [if_neg hne2, if_neg hne3]
        have hb4 : Below p (nextToken (nextToken q)) := hq.step.step
        refine HaltsWith.bind ((hblock _ hb4).imp fun r hr => hb4.trans_advances hr) ?_
        intro body r hr
        exact HaltsWith.ret _ hr
      · have hne3 : (nextToken q).curTok.Type_ ≠ .COLON := h3
        simp only [if_neg hne2, if_pos hne3]
        exact HaltsWith.ret _ (hq.step.and_error _)
    · have hne2 : q.curTok.Type_ ≠ .RPAREN := h2
      simp only [if_pos hne2]
      exact HaltsWith.ret _ (hq.and_error _)
  · have hne : (nextToken (nextToken p)).curTok.Type_ ≠ .LPAREN := h1
    refine HaltsWith.succ ?_
    simp only [parseFunctionDefinition, if_pos hne]
    exact (HaltsWith.ret _ (hb2.and_error _))

/-- The routine `parseIfStatement` returns, when `parseBlock` returns from every state
with less work left. -/
theorem parseIfStatement_halts (p : Parser) (hwf : p.l.Wf) (hc : p.curTok.Type_ ≠ .EOF)
    (hblock : ∀ q, Below p q → HaltsWith (Advances q) (fun f => parseBlock f q)) :
    HaltsWith (Below p) (fun f => parseIfStatement f p) := by
  have hb1 := Below.of_nextToken hwf hc
  refine HaltsWith.succ ?_
  simp only [parseIfStatement]
  refine HaltsWith.bind ((expression_halts_all _ hb1.1 LOWEST).imp fun q hq =>
    hb1.trans_advances hq) ?_
  intro condition q hq
  have hrest : ∀ cond : Expression, HaltsWith (Below p) (fun fuel =>
      if q.curTok.Type_ ≠ .COLON then
        Run.ret Statement.IfStatementNil
          (addError q (bytes "expected ':', got " ++ q.curTok.Type_.text))
      else
        (parseBlock fuel (nextToken q)).bind fun consequence p2 =>
          if p2.curTok.Type_ = .ELSE then
            if (nextToken p2).curTok.Type_ ≠ .COLON then
              Run.ret Statement.IfStatementNil
                (addError (nextToken p2)
                  (bytes "expected ':', got " ++ (nextToken p2).curTok.Type_.text))
            else
              (parseBlock fuel (nextToken (nextToken p2))).bind fun alternative p4 =>
                Run.ret (Statement.IfStatement cond consequence (some alternative)) p4
          else Run.ret (Statement.IfStatement cond consequence none) p2) := by
    intro cond
    by_cases h1 : q.curTok.Type_ = .COLON
    · have hne : ¬ q.curTok.Type_ ≠ .COLON := by simp [h1]
      simp only [if_neg hne]
      have hb2 : Below p (nextToken q) := hq.step
      refine HaltsWith.bind ((hblock _ hb2).imp fun r hr => hb2.trans_advances hr) ?_
      intro consequence r hr
      by_cases h2 : r.curTok.Type_ = .ELSE
      · by_cases h3 : (nextToken r).curTok.Type_ = .COLON
        · have hne3 : ¬ (nextToken r).curTok.Type_ ≠ .COLON := by simp [h3]
          simp only [if_pos h2, if_neg hne3]
          have hb3 : Below p (nextToken (nextToken r)) := hr.step.step
          refine HaltsWith.bind ((hblock _ hb3).imp fun s hs => hb3.trans_advances hs) ?_
          intro alternative s hs
          exact HaltsWith.ret _ hs
        · have hne3 : (nextToken r).curTok.Type_ ≠ .COLON := h3
          simp only [if_pos h2, if_pos hne3]
          exact HaltsWith.ret _ (hr.step.and_error _)
      · simp only [if_neg h2]
        exact HaltsWith.ret _ hr
    · have hne : q.curTok.Type_ ≠ .COLON := h1
      simp only [if_pos hne]
      exact HaltsWith.ret _ (hq.and_error _)
  cases condition with
  | nil => exact HaltsWith.ret _ (hq.and_error _)
  | Identifier v => exact hrest (.Identifier v)
  | IntegerLiteral v => exact hrest (.IntegerLiteral v)
  | FloatLiteral v => exact hrest (.FloatLiteral v)
  | StringLiteral v => exact hrest (.StringLiteral v)
  | InfixExpression a o b => exact hrest (.InfixExpression a o b)
  | CallExpression f a => exact hrest (.CallExpression f a)
  | ListLiteral e => exact hrest (.ListLiteral e)

end parser


namespace parser
open token lexer

/-- The routines `parseStatement` and the loop of `parseBlock` return, from every
well-formed parser state. -/
theorem statement_halts : ∀ (n : Nat) (p : Parser), p.l.Wf → remaining p < n →
    HaltsWith (Advances p) (fun f => parseStatement f p) ∧
    (∀ block, HaltsWith (Advances p) (fun f => parseBlockLoop f p block)) := by
  intro n
  induction n with
  | zero => intro p _ h; exact absurd h (Nat.not_lt_zero _)
  | succ n ih =>
    intro p hwf hlt
    have ihL : ∀ q, Below p q → ∀ block,
        HaltsWith (Advances q) (fun f => parseBlockLoop f q block) :=
      fun q hq => (ih q hq.1 (by have := hq.2; omega)).2
    have hblock : ∀ q, Below p q → HaltsWith (Advances q) (fun f => parseBlock f q) :=
      fun q hq => parseBlock_halts q hq.1 fun r hr => ihL r (hq.chain hr)
    have hS : HaltsWith (Advances p) (fun f => parseStatement f p) := by
      refine HaltsWith.succ ?_
      by_cases hD : p.curTok.Type_ = .DEF
      · simp only [parseStatement, hD]
        refine HaltsWith.bind (parseFunctionDefinition_halts p hwf (by rw [hD]; decide) hblock) ?_
        intro s q hq
        exact HaltsWith.ret _ hq.advances
      by_cases hI : p.curTok.Type_ = .IF
      · simp only [parseStatement, hI]
        refine HaltsWith.bind (parseIfStatement_halts p hwf (by rw [hI]; decide) hblock) ?_
        intro s q hq
        exact HaltsWith.ret _ hq.advances
      by_cases hR : p.curTok.Type_ = .RETURN
      · simp only [parseStatement, hR]
        refine HaltsWith.bind (parseReturnStatement_halts p hwf (by rw [hR]; decide)) ?_
        intro s q hq
        exact HaltsWith.ret _ hq.advances
      by_cases hId : p.curTok.Type_ = .IDENT
      · by_cases hA : peekTokenIs p .ASSIGN = true
        · have hpk : p.peekTok.Type_ = .ASSIGN := by
            simpa [peekTokenIs] using hA
          obtain ⟨F, a, q, e, hq⟩ :=
            parseAssignmentStatement_halts (remaining p + 1) p hwf (Nat.lt_succ_self _) hpk
          refine ⟨F, some (AssignmentStatement.toStatement (some a)), q, ?_, hq.advances⟩
          intro fuel hf
          simp only [parseStatement, hId, hA, if_true, e fuel hf, Run.bind]
        · simp only [parseStatement, hId, hA]
          refine HaltsWith.bind (parseExpressionStatement_halts p hwf) ?_
          intro s q hq
          exact HaltsWith.ret _ hq
      by_cases hN : p.curTok.Type_ = .INDENT
      · simp only [parseStatement, hN]
        exact HaltsWith.ret _ (Advances.refl hwf)
      by_cases hDe : p.curTok.Type_ = .DEDENT
      · simp only [parseStatement, hDe]
        exact HaltsWith.ret _ (Advances.refl hwf)
      by_cases hC : p.curTok.Type_ = .COLON
      · simp only [parseStatement, hC]
        exact HaltsWith.ret _ (Advances.refl hwf)
      by_cases hE : p.curTok.Type_ = .EOF
      · simp only [parseStatement, hE]
        exact HaltsWith.ret _ (Advances.refl hwf)
      · simp only [parseStatement, hE, if_false]
        refine HaltsWith.bind (parseExpressionStatement_halts p hwf) ?_
        intro s q hq
        exact HaltsWith.ret _ hq
    refine ⟨hS, ?_⟩
    intro block
    refine HaltsWith.succ ?_
    by_cases hc : (p.curTok.Type_ ≠ .DEDENT && p.curTok.Type_ ≠ .EOF) = true
    · have hne : p.curTok.Type_ ≠ .EOF := by
        simp only [Bool.and_eq_true, decide_eq_true_eq] at hc
        exact hc.2
      simp only [parseBlockLoop, hc, if_true]
      refine HaltsWith.bind hS ?_
      intro stmt q hq
      have hb := hq.nextToken_below hne
      exact (ihL _ hb _).imp fun r hr => (hb.trans_advances hr).advances
    · simp only [parseBlockLoop, hc]
      exact HaltsWith.ret _ (Advances.refl hwf)

theorem parseStatement_halts (p : Parser) (hwf : p.l.Wf) :
    HaltsWith (Advances p) (fun f => parseStatement f p) :=
  (statement_halts (remaining p + 1) p hwf (Nat.lt_succ_self _)).1

theorem parseBlock_halts_all (p : Parser) (hwf : p.l.Wf) :
    HaltsWith (Advances p) (fun f => parseBlock f p) :=
  parseBlock_halts p hwf fun q hq =>
    (statement_halts (remaining q + 1) q hq.1 (Nat.lt_succ_self _)).2

/-- The loop of `ParseProgram` returns. -/
theorem ParseProgramLoop_halts : ∀ (n : Nat) (p : Parser), p.l.Wf → remaining p < n →
    ∀ statements, HaltsWith (Advances p) (fun f => ParseProgramLoop f p statements) := by
  intro n
  induction n with
  | zero => intro p _ h; exact absurd h (Nat.not_lt_zero _)
  | succ n ih =>
    intro p hwf hlt statements
    refine HaltsWith.succ ?_
    by_cases hc : p.curTok.Type_ = .EOF
    · have hne : ¬ p.curTok.Type_ ≠ .EOF := by simp [hc]
      simp only [ParseProgramLoop, if_neg hne]
      exact HaltsWith.ret _ (Advances.refl hwf)
    · have hne : p.curTok.Type_ ≠ .EOF := hc
      simp only [ParseProgramLoop, if_pos hne]
      refine HaltsWith.bind (parseStatement_halts p hwf) ?_
      intro stmt q hq
      have hb := hq.nextToken_below hne
      exact (ih _ hb.1 (by have := hb.2; omega) _).imp fun r hr =>
        (hb.trans_advances hr).advances

/-- The routine `ParseProgram` returns, from every well-formed parser state. -/
theorem ParseProgram_halts (p : Parser) (hwf : p.l.Wf) :
    HaltsWith (Advances p) (fun f => ParseProgram f p) := by
  by_cases hc : p.curTok.Type_ = .IF
  · simp only [ParseProgram, if_pos hc]
    refine HaltsWith.bind (parseIfStatement_halts p hwf (by rw [hc]; decide)
      fun q hq => parseBlock_halts_all q hq.1) ?_
    intro stmt q hq
    refine HaltsWith.const ?_ hq.advances
    cases stmt <;> exact ⟨_, rfl⟩
  · simp only [ParseProgram, if_neg hc]
    exact ParseProgramLoop_halts (remaining p + 1) p hwf (Nat.lt_succ_self _) []

theorem New_Wf (l : Lexer) (h : l.Wf) : (New l).l.Wf := by
  have h1 := NextToken_Wf l h
  exact (NextToken_Wf _ h1.1).1

theorem lexer_New_Wf (input : Str) : (lexer.New input).Wf := by
  rw [New_eq_atPos]
  rfl

/-- The indentation loop stops by its condition within the iterations granted. -/
theorem indentLoop_stops (input : Str) (ind : Int) :
    ∀ (fuel k : Nat) (w : Int), input.length + 1 ≤ fuel + k →
      (indentLoop fuel (atPos input k ind) w).1.ch ≠ 32 ∧
      (indentLoop fuel (atPos input k ind) w).1.ch ≠ 9 := by
  intro fuel
  induction fuel with
  | zero =>
    intro k w hk
    have hch : (atPos input k ind).ch = 0 :=
      atPos_ch_end (List.drop_eq_nil_of_le (by omega))
    simp only [indentLoop, hch]
    exact ⟨by decide, by decide⟩
  | succ n ih =>
    intro k w hk
    simp only [indentLoop]
    by_cases hc : (atPos input k ind).ch = 32 ∨ (atPos input k ind).ch = 9
    · rw [if_pos hc, readChar_atPos]
      exact ih (k + 1) _ (by omega)
    · rw [if_neg hc]
      exact ⟨fun h => hc (Or.inl h), fun h => hc (Or.inr h)⟩

end parser

/-- C27: `ParseProgram` terminates on every input string. For every source text there
is a recursion depth from which `New` followed by `ParseProgram` returns one and the
same Program and parser state (with its error list): it neither runs on for ever nor
panics. The lexer returns an EOF token after finitely many `NextToken` calls; every
`NextToken` call lowers the lexer's potential by at least the weight of the token it
returns, and every scanning loop of the lexer stops by its own condition within the
iterations the embedding grants it. -/
theorem C27_parse_program_terminates (input : Str) :
    (∃ (F : Nat) (prog : parser.Program) (p : parser.Parser),
      ∀ fuel, F ≤ fuel → parser.parseSource fuel input = .ret prog p) ∧
    (∃ m, (lexer.NextToken (lexer.after m (lexer.New input))).1.Type_ = .EOF) ∧
    (∀ (k : Nat) (ind : Int),
      lexer.potential (lexer.NextToken (lexer.atPos input k ind)).2 +
          tokenWeight (lexer.NextToken (lexer.atPos input k ind)).1 ≤
        lexer.potential (lexer.atPos input k ind)) ∧
    (∀ (cond : Nat → Bool) (k : Nat) (ind : Int), cond 0 = false →
      cond (lexer.readWhile cond (lexer.loopFuel (lexer.atPos input k ind))
        (lexer.atPos input k ind)).ch = false) ∧
    (∀ (k : Nat) (ind : Int) (w : Int),
      (lexer.indentLoop (lexer.loopFuel (lexer.atPos input k ind))
          (lexer.atPos input k ind) w).1.ch ≠ 32 ∧
      (lexer.indentLoop (lexer.loopFuel (lexer.atPos input k ind))
          (lexer.atPos input k ind) w).1.ch ≠ 9) := by
  refine ⟨?_, ?_, ?_, ?_, ?_⟩
  · obtain ⟨F, prog, p, e, -⟩ :=
      parser.ParseProgram_halts (parser.New (lexer.New input))
        (parser.New_Wf _ (parser.lexer_New_Wf input))
    exact ⟨F, prog, p, e⟩
  · exact lexer.reaches_EOF _ _ (parser.lexer_New_Wf input) (le_refl _)
  · intro k ind
    exact (lexer.NextToken_Wf (lexer.atPos input k ind) rfl).2
  · intro cond k ind h0
    exact lexer.readWhile_stops cond h0 input ind _ k (by show _ ≤ input.length + 1 + k; omega)
  · intro k ind w
    exact parser.indentLoop_stops input ind _ k w (by show _ ≤ input.length + 1 + k; omega)
